import Mathlib

set_option linter.unusedVariables false

/-!
Verification of the intrusive binary-search-tree engine (`intrusive_tree.h`,
`tree` namespace) and the dual-tree bimap built on it.

The C++ code is pointer-based, so the embedding works over an explicit heap:
memory is a total function from addresses (`Nat`) to structural nodes, a null
pointer is `none`, and every source loop carries explicit fuel.  An operation
returns `none` when its fuel runs out or when the source would have read or
written through a null pointer (undefined behaviour).
-/

namespace tree

/-- One structural node, as in `tree::node_base`: parent, left-child and
right-child links, each possibly null. -/
structure node_base where
  parent : Option Nat
  left : Option Nat
  right : Option Nat
deriving Repr, DecidableEq

/-- The default-constructed `node_base`: all three links null. -/
def node_base.nil : node_base := ⟨none, none, none⟩

/-- Memory: every address holds a `node_base`. -/
def Heap : Type := Nat → node_base

/-- Overwrite the parent link of the node at address `a`. -/
def set_parent (h : Heap) (a : Nat) (v : Option Nat) : Heap :=
  fun x => if x = a then ⟨v, (h a).left, (h a).right⟩ else h x

/-- Overwrite the left-child link of the node at address `a`. -/
def set_left (h : Heap) (a : Nat) (v : Option Nat) : Heap :=
  fun x => if x = a then ⟨(h a).parent, v, (h a).right⟩ else h x

/-- Overwrite the right-child link of the node at address `a`. -/
def set_right (h : Heap) (a : Nat) (v : Option Nat) : Heap :=
  fun x => if x = a then ⟨(h a).parent, (h a).left, v⟩ else h x

/-- Overwrite the whole node at address `a`. -/
def set_node (h : Heap) (a : Nat) (n : node_base) : Heap :=
  fun x => if x = a then n else h x

/-- `node_base::is_left`: the node is the left child of its parent
(`false` when the parent link is null). -/
def is_left (h : Heap) (a : Nat) : Bool :=
  match (h a).parent with
  | none => false
  | some p => (h p).left == some a

/-- `node_base::is_right`: the node is the right child of its parent
(`false` when the parent link is null). -/
def is_right (h : Heap) (a : Nat) : Bool :=
  match (h a).parent with
  | none => false
  | some p => (h p).right == some a

/-- `node_base::set_new_child_for_parent`: replace this node by `c` in its
parent's child slot and reparent `c`.  A null parent would be dereferenced by
the source, hence `none`. -/
def set_new_child_for_parent (h : Heap) (a : Nat) (c : Option Nat) : Option Heap :=
  match (h a).parent with
  | none => none
  | some p =>
    let h1 := if (h p).left == some a then set_left h p c else set_right h p c
    match c with
    | none => some h1
    | some cc => some (set_parent h1 cc (some p))

/-- The descent `while (node->left != nullptr) node = node->left`, with fuel. -/
def leftmost_loop (h : Heap) : Nat → Nat → Option Nat
  | 0, _ => none
  | fuel + 1, a =>
    match (h a).left with
    | none => some a
    | some l => leftmost_loop h fuel l

/-- The descent `while (node->right != nullptr) node = node->right`, with fuel. -/
def rightmost_loop (h : Heap) : Nat → Nat → Option Nat
  | 0, _ => none
  | fuel + 1, a =>
    match (h a).right with
    | none => some a
    | some r => rightmost_loop h fuel r

/-- The climb `while (node->is_right()) node = node->parent; return node->parent`
from `tree::next`.  The inner option is the returned pointer. -/
def climb_next_loop (h : Heap) : Nat → Nat → Option (Option Nat)
  | 0, _ => none
  | fuel + 1, a =>
    if is_right h a then
      match (h a).parent with
      | none => none
      | some p => climb_next_loop h fuel p
    else
      some ((h a).parent)

/-- The climb `while (node->is_left()) node = node->parent; return node->parent`
from `tree::prev`. -/
def climb_prev_loop (h : Heap) : Nat → Nat → Option (Option Nat)
  | 0, _ => none
  | fuel + 1, a =>
    if is_left h a then
      match (h a).parent with
      | none => none
      | some p => climb_prev_loop h fuel p
    else
      some ((h a).parent)

/-- `tree::next`: the in-order successor of the node at `a` — leftmost node of
the right subtree when there is one, otherwise the parent climb. -/
def next (h : Heap) (fuel : Nat) (a : Nat) : Option (Option Nat) :=
  match (h a).right with
  | some r => (leftmost_loop h fuel r).map some
  | none => climb_next_loop h fuel a

/-- `tree::prev`: the in-order predecessor of the node at `a`. -/
def prev (h : Heap) (fuel : Nat) (a : Nat) : Option (Option Nat) :=
  match (h a).left with
  | some l => (rightmost_loop h fuel l).map some
  | none => climb_prev_loop h fuel a

/-- `intrusive_tree::equal`, written out through the stored comparator:
`less_or_equal(a, b) && greater_or_equal(a, b)`. -/
def eqv {K : Type} (lt : K → K → Bool) (a b : K) : Bool :=
  !(lt b a) && !(lt a b)

/-- `intrusive_tree::empty`: the sentinel has no left child. -/
def empty (h : Heap) (sent : Nat) : Bool :=
  (h sent).left == none

/-- `intrusive_tree::begin`: descend to the leftmost node starting from the
sentinel itself, so the empty tree yields the sentinel (= `end`). -/
def begin (h : Heap) (sent : Nat) (fuel : Nat) : Option Nat :=
  leftmost_loop h fuel sent

/-- The descent loop of `intrusive_tree::find_nearest`: go right while the key
is greater, left while it is less, stop on equality or on a missing child. -/
def find_nearest_loop {K : Type} (h : Heap) (val : Nat → K) (lt : K → K → Bool) (k : K) :
    Nat → Nat → Option Nat
  | 0, _ => none
  | fuel + 1, a =>
    if lt (val a) k then
      match (h a).right with
      | none => some a
      | some r => find_nearest_loop h val lt k fuel r
    else if lt k (val a) then
      match (h a).left with
      | none => some a
      | some l => find_nearest_loop h val lt k fuel l
    else some a

/-- `intrusive_tree::find_nearest`: the sentinel on the empty tree, otherwise
the node where the descent from the root stops. -/
def find_nearest {K : Type} (h : Heap) (sent : Nat) (val : Nat → K) (lt : K → K → Bool)
    (fuel : Nat) (k : K) : Option Nat :=
  match (h sent).left with
  | none => some sent
  | some r => find_nearest_loop h val lt k fuel r

/-- `intrusive_tree::find`: `find_nearest`, then verified equal; the sentinel on
a miss. -/
def find {K : Type} (h : Heap) (sent : Nat) (val : Nat → K) (lt : K → K → Bool)
    (fuel : Nat) (k : K) : Option Nat :=
  match find_nearest h sent val lt fuel k with
  | none => none
  | some res =>
    if res = sent then some sent
    else if !(eqv lt (val res) k) then some sent
    else some res

/-- `intrusive_tree::insert`: attach the (freshly constructed, childless) node
at address `n` below the `find_nearest` position, or return the sentinel with
the heap unchanged when an equal key is already present. -/
def insert {K : Type} (h : Heap) (sent : Nat) (val : Nat → K) (lt : K → K → Bool)
    (fuel : Nat) (n : Nat) : Option (Heap × Nat) :=
  match find_nearest h sent val lt fuel (val n) with
  | none => none
  | some p =>
    if p = sent then
      some (set_parent (set_left h sent (some n)) n (some p), n)
    else if lt (val p) (val n) then
      some (set_parent (set_right h p (some n)) n (some p), n)
    else if lt (val n) (val p) then
      some (set_parent (set_left h p (some n)) n (some p), n)
    else
      some (h, sent)

/-- `intrusive_tree::erase(node_ptr_t)`: unlink the node at `a` from the tree
and return it; `erase(nullptr)` returns `nullptr`.  In the two-children case
the in-order predecessor node itself is unlinked from its own parent and then
installed in the erased node's slot, exactly as in the source. -/
def erase (h : Heap) (fuel : Nat) (a : Option Nat) : Option (Heap × Option Nat) :=
  match a with
  | none => some (h, none)
  | some n =>
    match (h n).left, (h n).right with
    | none, none =>
      (set_new_child_for_parent h n none).map (fun h1 => (h1, some n))
    | none, some r =>
      (set_new_child_for_parent h n (some r)).map (fun h1 => (h1, some n))
    | some l, none =>
      (set_new_child_for_parent h n (some l)).map (fun h1 => (h1, some n))
    | some _, some _ =>
      match prev h fuel n with
      | none => none
      | some none => none
      | some (some nr) =>
        match set_new_child_for_parent h nr ((h nr).left) with
        | none => none
        | some h1 =>
          let h2 := set_left h1 nr ((h1 n).left)
          let h3 := set_right h2 nr ((h2 n).right)
          let h4 := match (h3 n).left with
                    | none => h3
                    | some nl => set_parent h3 nl (some nr)
          match (h4 n).right with
          | none => none
          | some rr =>
            let h5 := set_parent h4 rr (some nr)
            (set_new_child_for_parent h5 n (some nr)).map (fun h6 => (h6, some n))

/-- `intrusive_tree::erase(const T&)`: find-then-erase; `nullptr` when the key
is absent. -/
def erase_val {K : Type} (h : Heap) (sent : Nat) (val : Nat → K) (lt : K → K → Bool)
    (fuel : Nat) (k : K) : Option (Heap × Option Nat) :=
  match find_nearest h sent val lt fuel k with
  | none => none
  | some nd =>
    if nd = sent then some (h, none)
    else if !(eqv lt (val nd) k) then some (h, none)
    else erase h fuel (some nd)

/-- `intrusive_tree::upper_bound`: the `find_nearest` node when it is the end or
strictly greater than the key, otherwise its successor. -/
def upper_bound {K : Type} (h : Heap) (sent : Nat) (val : Nat → K) (lt : K → K → Bool)
    (fuel : Nat) (k : K) : Option (Option Nat) :=
  match find_nearest h sent val lt fuel k with
  | none => none
  | some res =>
    if res = sent then some (some res)
    else if lt k (val res) then some (some res)
    else next h fuel res

/-- `intrusive_tree::lower_bound`: the `find_nearest` node when it is the end or
greater-or-equal to the key, otherwise its successor. -/
def lower_bound {K : Type} (h : Heap) (sent : Nat) (val : Nat → K) (lt : K → K → Bool)
    (fuel : Nat) (k : K) : Option (Option Nat) :=
  match find_nearest h sent val lt fuel k with
  | none => none
  | some res =>
    if res = sent then some (some res)
    else if !(lt (val res) k) then some (some res)
    else next h fuel res

/-- `intrusive_tree::set_link_to_other_tree`: store the other engine's sentinel
in this sentinel's right slot. -/
def set_link_to_other_tree (h : Heap) (sent : Nat) (other : Nat) : Heap :=
  set_right h sent (some other)

/-- `intrusive_tree::swap`: the four `std::swap` lines on the two sentinels.
The first line dereferences `m_sentinel.left` on both sides, so an empty tree
on either side is undefined behaviour (`none`). -/
def swap (h : Heap) (s1 s2 : Nat) : Option Heap :=
  match (h s1).left, (h s2).left with
  | some r1, some r2 =>
    let h1 := set_parent (set_parent h r1 ((h r2).parent)) r2 ((h r1).parent)
    let h2 := set_parent (set_parent h1 s1 ((h1 s2).parent)) s2 ((h1 s1).parent)
    let h3 := set_left (set_left h2 s1 ((h2 s2).left)) s2 ((h2 s1).left)
    let h4 := set_right (set_right h3 s1 ((h3 s2).right)) s2 ((h3 s1).right)
    some h4
  | _, _ => none

end tree

/-!
## Abstract shape layer

An engine's linked structure is abstracted as a binary tree of addresses; the
boolean predicate `RepB` states that the heap links exactly that shape.  All
order reasoning happens on this layer.
-/

/-- Binary tree of node addresses: the shape of one engine. -/
inductive BT where
  | leaf : BT
  | node : BT → Nat → BT → BT
deriving Repr, DecidableEq

/-- In-order list of the addresses of a shape. -/
def BT.inorder : BT → List Nat
  | .leaf => []
  | .node l a r => l.inorder ++ a :: r.inorder

/-- Number of nodes of a shape. -/
def BT.size (t : BT) : Nat := t.inorder.length

/-- Address of the root, if any. -/
def rootOf : BT → Option Nat
  | .leaf => none
  | .node _ a _ => some a

/-- The heap links exactly the shape `t` below the parent address `p`: each
node's parent link points up, and its child links point at the roots of its
subtrees. -/
def RepB (h : tree.Heap) : Nat → BT → Bool
  | _, .leaf => true
  | p, .node l a r =>
    ((h a).parent == some p) && ((h a).left == rootOf l) && ((h a).right == rootOf r)
      && RepB h a l && RepB h a r

/-- All addresses of the shape satisfy `p`. -/
def allB (p : Nat → Bool) : BT → Bool
  | .leaf => true
  | .node l a r => p a && allB p l && allB p r

/-- Search-tree order: at every node all left-subtree keys compare strictly
less and all right-subtree keys strictly greater under `lt`. -/
def bstB {K : Type} (lt : K → K → Bool) (val : Nat → K) : BT → Bool
  | .leaf => true
  | .node l a r =>
    allB (fun b => lt (val b) (val a)) l && allB (fun b => lt (val a) (val b)) r
      && bstB lt val l && bstB lt val r

/-- Address of the rightmost (maximal) node; junk on the empty shape. -/
def maxA : BT → Nat
  | .leaf => 0
  | .node _ a r => if r = .leaf then a else maxA r

/-- The shape with its rightmost node removed (the removed node's left subtree
is spliced into its place). -/
def delMax : BT → BT
  | .leaf => .leaf
  | .node l a r => if r = .leaf then l else .node l a (delMax r)

/-- Shape-level erase of address `x`: splice a single child, or replace by the
in-order predecessor address (the rightmost of the left subtree). -/
def eraseT (x : Nat) : BT → BT
  | .leaf => .leaf
  | .node l a r =>
    if a = x then
      if l = .leaf then r
      else if r = .leaf then l
      else .node (delMax l) (maxA l) r
    else .node (eraseT x l) a (eraseT x r)

/-- Shape-level insert of address `n` by descent on keys; unchanged when an
equal key is met. -/
def insertT {K : Type} (val : Nat → K) (lt : K → K → Bool) (n : Nat) : BT → BT
  | .leaf => .node .leaf n .leaf
  | .node l a r =>
    if lt (val a) (val n) then .node l a (insertT val lt n r)
    else if lt (val n) (val a) then .node (insertT val lt n l) a r
    else .node l a r

/-- Shape-level nearest-node descent, mirroring `find_nearest_loop`: stop at
the current node when the needed subtree is empty (the loop's missing-child
break), else recurse. -/
def findNearestT {K : Type} (val : Nat → K) (lt : K → K → Bool) (k : K) : BT → Option Nat
  | .leaf => none
  | .node l a r =>
    if lt (val a) k then
      match findNearestT val lt k r with
      | none => some a
      | some res => some res
    else if lt k (val a) then
      match findNearestT val lt k l with
      | none => some a
      | some res => some res
    else some a

/-- The element after `a` in a list, if any. -/
def listSucc (a : Nat) : List Nat → Option Nat
  | [] => none
  | x :: xs => if x = a then xs.head? else listSucc a xs

/-- Some key of the shape compares equal to `k` under `lt`. -/
def hasVal {K : Type} (lt : K → K → Bool) (val : Nat → K) (t : BT) (k : K) : Bool :=
  t.inorder.any (fun a => tree.eqv lt (val a) k)

/-- A strict total order presented as a boolean comparator, the capability the
spec requires of each side's comparison object. -/
structure STO {K : Type} (lt : K → K → Bool) : Prop where
  irrefl : ∀ a, lt a a = false
  trans : ∀ a b c, lt a b = true → lt b c = true → lt a c = true
  total : ∀ a b, lt a b = true ∨ lt b a = true ∨ a = b

namespace bimap

/-- Pointwise update of a value map. -/
def fset {A : Type} (f : Nat → A) (a : Nat) (v : A) : Nat → A :=
  fun x => if x = a then v else f x

/-- The shared memory: the heap plus the key stored under each node identity
(each pair record is one allocation holding a left-typed node at an even
address `a` and a right-typed node at `a + 1`). -/
structure World (L R : Type) where
  heap : tree.Heap
  valL : Nat → L
  valR : Nat → R
  alloc : Nat

/-- One bimap object: its two sentinel addresses, its pair counter and its two
comparators (`m_size`, `m_left_tree`, `m_right_tree`). -/
structure Store (L R : Type) where
  sentL : Nat
  sentR : Nat
  siz : Nat
  cmpL : L → L → Bool
  cmpR : R → R → Bool

variable {L R : Type}

/-- `base_iterator::flip` on a left iterator: null stays null, the sentinel
(recognised by its null parent) yields its stored cross-link, and a pair
record's left identity at `a` yields its right identity at `a + 1` (the
fixed-offset cast between the two base subobjects). -/
def flipL (h : tree.Heap) : Option Nat → Option Nat
  | none => none
  | some a => if (h a).parent = none then (h a).right else some (a + 1)

/-- `base_iterator::flip` on a right iterator (offset cast `a - 1`). -/
def flipR (h : tree.Heap) : Option Nat → Option Nat
  | none => none
  | some a => if (h a).parent = none then (h a).right else some (a - 1)

/-- `bimap::link_trees`: store each sentinel's address in the other sentinel. -/
def link_trees (h : tree.Heap) (sentL sentR : Nat) : tree.Heap :=
  tree.set_link_to_other_tree (tree.set_link_to_other_tree h sentL sentR) sentR sentL

/-- The bimap constructor: two fresh default-constructed sentinels, then
`link_trees`. -/
def mk (w : World L R) (cmpL : L → L → Bool) (cmpR : R → R → Bool) :
    World L R × Store L R :=
  let sL := w.alloc
  let sR := w.alloc + 1
  let h1 := tree.set_node (tree.set_node w.heap sL tree.node_base.nil) sR tree.node_base.nil
  (⟨link_trees h1 sL sR, w.valL, w.valR, w.alloc + 2⟩, ⟨sL, sR, 0, cmpL, cmpR⟩)

/-- `bimap::find_left`. -/
def find_left (w : World L R) (b : Store L R) (fuel : Nat) (k : L) : Option Nat :=
  tree.find w.heap b.sentL w.valL b.cmpL fuel k

/-- `bimap::find_right`. -/
def find_right (w : World L R) (b : Store L R) (fuel : Nat) (k : R) : Option Nat :=
  tree.find w.heap b.sentR w.valR b.cmpR fuel k

/-- `bimap::base_insert`: reject when either side already holds the key, else
allocate one fresh pair record (left identity at `alloc`, right identity at
`alloc + 1`, both default-constructed), insert both identities, bump the
counter and return the left position. -/
def base_insert (w : World L R) (b : Store L R) (fuel : Nat) (l : L) (r : R) :
    Option (World L R × Store L R × Nat) :=
  match find_left w b fuel l, find_right w b fuel r with
  | some fl, some fr =>
    if fl ≠ b.sentL ∨ fr ≠ b.sentR then some (w, b, b.sentL)
    else
      let aL := w.alloc
      let aR := w.alloc + 1
      let h1 := tree.set_node (tree.set_node w.heap aL tree.node_base.nil) aR tree.node_base.nil
      let vL := fset w.valL aL l
      let vR := fset w.valR aR r
      match tree.insert h1 b.sentL vL b.cmpL fuel aL with
      | none => none
      | some (h2, res) =>
        match tree.insert h2 b.sentR vR b.cmpR fuel aR with
        | none => none
        | some (h3, _) =>
          some (⟨h3, vL, vR, w.alloc + 2⟩, ⟨b.sentL, b.sentR, b.siz + 1, b.cmpL, b.cmpR⟩, res)
  | _, _ => none

/-- `bimap::insert`. -/
def insert (w : World L R) (b : Store L R) (fuel : Nat) (l : L) (r : R) :
    Option (World L R × Store L R × Nat) :=
  base_insert w b fuel l r

/-- `bimap::erase_left(left_iterator)`: a no-op returning the null iterator on
the end or null iterator; otherwise compute the successor for the return
value, erase the left identity, erase the flipped right identity, free the
record and decrement the counter. -/
def erase_left_it (w : World L R) (b : Store L R) (fuel : Nat) (it : Option Nat) :
    Option (World L R × Store L R × Option Nat) :=
  match it with
  | none => some (w, b, none)
  | some a =>
    if a = b.sentL then some (w, b, none)
    else
      match tree.next w.heap fuel a with
      | none => none
      | some res =>
        match tree.erase w.heap fuel (some a) with
        | none => none
        | some (h1, _) =>
          match tree.erase h1 fuel (flipL h1 (some a)) with
          | none => none
          | some (h2, _) =>
            some (⟨h2, w.valL, w.valR, w.alloc⟩,
                  ⟨b.sentL, b.sentR, b.siz - 1, b.cmpL, b.cmpR⟩, res)

/-- `bimap::erase_right(right_iterator)`. -/
def erase_right_it (w : World L R) (b : Store L R) (fuel : Nat) (it : Option Nat) :
    Option (World L R × Store L R × Option Nat) :=
  match it with
  | none => some (w, b, none)
  | some a =>
    if a = b.sentR then some (w, b, none)
    else
      match tree.next w.heap fuel a with
      | none => none
      | some res =>
        match tree.erase w.heap fuel (some a) with
        | none => none
        | some (h1, _) =>
          match tree.erase h1 fuel (flipR h1 (some a)) with
          | none => none
          | some (h2, _) =>
            some (⟨h2, w.valL, w.valR, w.alloc⟩,
                  ⟨b.sentL, b.sentR, b.siz - 1, b.cmpL, b.cmpR⟩, res)

/-- `bimap::erase_left(left_t const&)`: find-then-erase, reporting whether a
pair was removed. -/
def erase_left_key (w : World L R) (b : Store L R) (fuel : Nat) (k : L) :
    Option (World L R × Store L R × Bool) :=
  match find_left w b fuel k with
  | none => none
  | some it =>
    match erase_left_it w b fuel (some it) with
    | none => none
    | some (w1, b1, res) => some (w1, b1, res != none)

/-- `bimap::erase_right(right_t const&)`. -/
def erase_right_key (w : World L R) (b : Store L R) (fuel : Nat) (k : R) :
    Option (World L R × Store L R × Bool) :=
  match find_right w b fuel k with
  | none => none
  | some it =>
    match erase_right_it w b fuel (some it) with
    | none => none
    | some (w1, b1, res) => some (w1, b1, res != none)

/-- `bimap::erase_left(first, last)`: repeatedly `erase_left(first++)` until
`first == last`, then return `last`.  The extra `steps` fuel bounds the loop. -/
def erase_left_range (fuel : Nat) :
    Nat → World L R → Store L R → Option Nat → Option Nat →
    Option (World L R × Store L R × Option Nat)
  | 0, _, _, _, _ => none
  | steps + 1, w, b, first, last =>
    if first = last then some (w, b, last)
    else
      match first with
      | none => none
      | some a =>
        match tree.next w.heap fuel a with
        | none => none
        | some nxt =>
          match erase_left_it w b fuel (some a) with
          | none => none
          | some (w1, b1, _) => erase_left_range fuel steps w1 b1 nxt last

/-- `bimap::at_left`: find, throw `std::out_of_range` on the end position
(modelled by the inner `none`), else dereference through `flip`. -/
def at_left (w : World L R) (b : Store L R) (fuel : Nat) (k : L) : Option (Option R) :=
  match find_left w b fuel k with
  | none => none
  | some res =>
    if res = b.sentL then some none
    else
      match flipL w.heap (some res) with
      | none => none
      | some fr => some (some (w.valR fr))

/-- `bimap::at_right`. -/
def at_right (w : World L R) (b : Store L R) (fuel : Nat) (k : R) : Option (Option L) :=
  match find_right w b fuel k with
  | none => none
  | some res =>
    if res = b.sentR then some none
    else
      match flipR w.heap (some res) with
      | none => none
      | some fl => some (some (w.valL fl))

/-- `bimap::at_left_or_default` with `dR` the default-constructed right value:
when `key` is absent on the left, first `erase_right(right_t())`, then insert
`(key, right_t())` and return the dereferenced flip of the new position; when
present, delegate to `at_left`.  The inner option of the result is `none` when
an exception propagates. -/
def at_left_or_default (w : World L R) (b : Store L R) (fuel : Nat) (k : L) (dR : R) :
    Option (World L R × Store L R × Option R) :=
  match find_left w b fuel k with
  | none => none
  | some fl =>
    if fl = b.sentL then
      match erase_right_key w b fuel dR with
      | none => none
      | some (w1, b1, _) =>
        match base_insert w1 b1 fuel k dR with
        | none => none
        | some (w2, b2, res) =>
          match flipL w2.heap (some res) with
          | none => none
          | some fr => some (w2, b2, some (w2.valR fr))
    else
      match at_left w b fuel k with
      | none => none
      | some v => some (w, b, v)

/-- `bimap::lower_bound_left`. -/
def lower_bound_left (w : World L R) (b : Store L R) (fuel : Nat) (k : L) :
    Option (Option Nat) :=
  tree.lower_bound w.heap b.sentL w.valL b.cmpL fuel k

/-- `bimap::upper_bound_left`. -/
def upper_bound_left (w : World L R) (b : Store L R) (fuel : Nat) (k : L) :
    Option (Option Nat) :=
  tree.upper_bound w.heap b.sentL w.valL b.cmpL fuel k

/-- `bimap::swap`: swap the sizes, swap both trees (comparators included),
then `link_trees` on both stores. -/
def swap (w : World L R) (b1 b2 : Store L R) :
    Option (World L R × Store L R × Store L R) :=
  match tree.swap w.heap b1.sentL b2.sentL with
  | none => none
  | some h1 =>
    match tree.swap h1 b1.sentR b2.sentR with
    | none => none
    | some h2 =>
      let h3 := link_trees h2 b1.sentL b1.sentR
      let h4 := link_trees h3 b2.sentL b2.sentR
      some (⟨h4, w.valL, w.valR, w.alloc⟩,
            ⟨b1.sentL, b1.sentR, b2.siz, b2.cmpL, b2.cmpR⟩,
            ⟨b2.sentL, b2.sentR, b1.siz, b1.cmpL, b1.cmpR⟩)

/-- The loop of the bimap copy constructor: walk the source's left side and
re-insert every pair into the destination. -/
def copy_loop (fuel : Nat) :
    Nat → World L R → Store L R → Store L R → Option Nat →
    Option (World L R × Store L R)
  | 0, _, _, _, _ => none
  | steps + 1, w, src, dst, it =>
    if it = some src.sentL then some (w, dst)
    else
      match it with
      | none => none
      | some a =>
        match flipL w.heap (some a) with
        | none => none
        | some fa =>
          match base_insert w dst fuel (w.valL a) (w.valR fa) with
          | none => none
          | some (w1, dst1, _) =>
            match tree.next w1.heap fuel a with
            | none => none
            | some nit => copy_loop fuel steps w1 src dst1 nit

/-- The bimap copy constructor: a fresh store with the source's comparators,
then `copy_loop` from `begin_left`. -/
def copy (w : World L R) (src : Store L R) (fuel steps : Nat) :
    Option (World L R × Store L R) :=
  let p := mk w src.cmpL src.cmpR
  match tree.begin p.1.heap src.sentL fuel with
  | none => none
  | some it => copy_loop fuel steps p.1 src p.2 (some it)

/-- Full representation invariant of one store inside a world: both engines
link exactly the shapes `tL`, `tR`; the sentinels are cross-linked and have
null parents; both shapes are search trees for their comparators; right
identities are exactly the left identities shifted by one; all record
addresses are even, below the allocation watermark and distinct from the
sentinels; and the pair counter equals the node count. -/
structure SRep (w : World L R) (b : Store L R) (tL tR : BT) : Prop where
  repL : RepB w.heap b.sentL tL = true
  attL : (w.heap b.sentL).left = rootOf tL
  parL : (w.heap b.sentL).parent = none
  lnkL : (w.heap b.sentL).right = some b.sentR
  repR : RepB w.heap b.sentR tR = true
  attR : (w.heap b.sentR).left = rootOf tR
  parR : (w.heap b.sentR).parent = none
  lnkR : (w.heap b.sentR).right = some b.sentL
  ndL : tL.inorder.Nodup
  bstL : bstB b.cmpL w.valL tL = true
  bstR : bstB b.cmpR w.valR tR = true
  pairR : tR.inorder.Perm (tL.inorder.map (fun a => a + 1))
  evenL : ∀ a ∈ tL.inorder, a % 2 = 0 ∧ a + 1 < w.alloc
  sLoutL : b.sentL ∉ tL.inorder
  sLoutR : b.sentL ∉ tR.inorder
  sRoutL : b.sentR ∉ tL.inorder
  sRoutR : b.sentR ∉ tR.inorder
  sneq : b.sentL ≠ b.sentR
  sLlt : b.sentL < w.alloc
  sRlt : b.sentR < w.alloc
  szEq : b.siz = tL.inorder.length
  alEven : w.alloc % 2 = 0

end bimap

/-!
## Basic heap and representation lemmas
-/

namespace tree

@[simp] lemma set_parent_same (h : Heap) (a : Nat) (v : Option Nat) :
    set_parent h a v a = ⟨v, (h a).left, (h a).right⟩ := by
  simp [set_parent]

lemma set_parent_other (h : Heap) (a : Nat) (v : Option Nat) {x : Nat} (hx : x ≠ a) :
    set_parent h a v x = h x := by
  simp [set_parent, hx]

@[simp] lemma set_left_same (h : Heap) (a : Nat) (v : Option Nat) :
    set_left h a v a = ⟨(h a).parent, v, (h a).right⟩ := by
  simp [set_left]

lemma set_left_other (h : Heap) (a : Nat) (v : Option Nat) {x : Nat} (hx : x ≠ a) :
    set_left h a v x = h x := by
  simp [set_left, hx]

@[simp] lemma set_right_same (h : Heap) (a : Nat) (v : Option Nat) :
    set_right h a v a = ⟨(h a).parent, (h a).left, v⟩ := by
  simp [set_right]

lemma set_right_other (h : Heap) (a : Nat) (v : Option Nat) {x : Nat} (hx : x ≠ a) :
    set_right h a v x = h x := by
  simp [set_right, hx]

@[simp] lemma set_node_same (h : Heap) (a : Nat) (n : node_base) :
    set_node h a n a = n := by
  simp [set_node]

lemma set_node_other (h : Heap) (a : Nat) (n : node_base) {x : Nat} (hx : x ≠ a) :
    set_node h a n x = h x := by
  simp [set_node, hx]

@[simp] lemma set_parent_parent (h : Heap) (a : Nat) (v : Option Nat) (x : Nat) :
    (set_parent h a v x).parent = if x = a then v else (h x).parent := by
  by_cases hx : x = a <;> simp [set_parent, hx]

@[simp] lemma set_parent_left (h : Heap) (a : Nat) (v : Option Nat) (x : Nat) :
    (set_parent h a v x).left = (h x).left := by
  by_cases hx : x = a <;> simp [set_parent, hx]

@[simp] lemma set_parent_right (h : Heap) (a : Nat) (v : Option Nat) (x : Nat) :
    (set_parent h a v x).right = (h x).right := by
  by_cases hx : x = a <;> simp [set_parent, hx]

@[simp] lemma set_left_parent (h : Heap) (a : Nat) (v : Option Nat) (x : Nat) :
    (set_left h a v x).parent = (h x).parent := by
  by_cases hx : x = a <;> simp [set_left, hx]

@[simp] lemma set_left_left (h : Heap) (a : Nat) (v : Option Nat) (x : Nat) :
    (set_left h a v x).left = if x = a then v else (h x).left := by
  by_cases hx : x = a <;> simp [set_left, hx]

@[simp] lemma set_left_right (h : Heap) (a : Nat) (v : Option Nat) (x : Nat) :
    (set_left h a v x).right = (h x).right := by
  by_cases hx : x = a <;> simp [set_left, hx]

@[simp] lemma set_right_parent (h : Heap) (a : Nat) (v : Option Nat) (x : Nat) :
    (set_right h a v x).parent = (h x).parent := by
  by_cases hx : x = a <;> simp [set_right, hx]

@[simp] lemma set_right_left (h : Heap) (a : Nat) (v : Option Nat) (x : Nat) :
    (set_right h a v x).left = (h x).left := by
  by_cases hx : x = a <;> simp [set_right, hx]

@[simp] lemma set_right_right (h : Heap) (a : Nat) (v : Option Nat) (x : Nat) :
    (set_right h a v x).right = if x = a then v else (h x).right := by
  by_cases hx : x = a <;> simp [set_right, hx]

end tree

@[simp] lemma BT.inorder_leaf : BT.leaf.inorder = [] := rfl

@[simp] lemma BT.inorder_node (l : BT) (a : Nat) (r : BT) :
    (BT.node l a r).inorder = l.inorder ++ a :: r.inorder := rfl

@[simp] lemma RepB_leaf (h : tree.Heap) (p : Nat) : RepB h p .leaf = true := rfl

lemma RepB_node {h : tree.Heap} {p : Nat} {l : BT} {a : Nat} {r : BT} :
    RepB h p (.node l a r) = true ↔
      (h a).parent = some p ∧ (h a).left = rootOf l ∧ (h a).right = rootOf r ∧
        RepB h a l = true ∧ RepB h a r = true := by
  simp [RepB, Bool.and_assoc]

/-- Representation only reads the heap at the shape's own addresses. -/
lemma RepB_frame {h h' : tree.Heap} {t : BT} (hag : ∀ a ∈ t.inorder, h' a = h a) :
    ∀ {p : Nat}, RepB h p t = true → RepB h' p t = true := by
  induction t with
  | leaf => intro p _; rfl
  | node l a r ihl ihr =>
    intro p hrep
    rw [RepB_node] at hrep ⊢
    have ha : h' a = h a := hag a (by simp)
    refine ⟨by rw [ha]; exact hrep.1, by rw [ha]; exact hrep.2.1,
      by rw [ha]; exact hrep.2.2.1, ?_, ?_⟩
    · exact ihl (fun b hb => hag b (by simp [hb])) hrep.2.2.2.1
    · exact ihr (fun b hb => hag b (by simp [hb])) hrep.2.2.2.2

/-- Every represented node has a non-null parent link. -/
lemma RepB_parent_ne_none {h : tree.Heap} {t : BT} :
    ∀ {p : Nat}, RepB h p t = true → ∀ a ∈ t.inorder, (h a).parent ≠ none := by
  induction t with
  | leaf => intro p _ a ha; simp at ha
  | node l x r ihl ihr =>
    intro p hrep a ha
    rw [RepB_node] at hrep
    rcases (by simpa using ha : a ∈ l.inorder ∨ a = x ∨ a ∈ r.inorder) with h1 | h1 | h1
    · exact ihl hrep.2.2.2.1 a h1
    · subst h1; rw [hrep.1]; simp
    · exact ihr hrep.2.2.2.2 a h1

namespace bimap

variable {L R : Type}

/-- Membership in the right shape is membership in the left shape shifted by
one (the two identities of one pair record). -/
lemma SRep.memR_iff {w : World L R} {b : Store L R} {tL tR : BT}
    (hs : SRep w b tL tR) {x : Nat} :
    x ∈ tR.inorder ↔ ∃ a ∈ tL.inorder, a + 1 = x := by
  rw [hs.pairR.mem_iff]
  simp [List.mem_map]

end bimap

/-- Boolean strict order on integers, used by the concrete witness stores. -/
def intLt : Int → Int → Bool := fun a b => decide (a < b)

lemma STO_intLt : STO intLt := by
  refine ⟨?_, ?_, ?_⟩
  · intro a; simp [intLt]
  · intro a b c hab hbc; simp only [intLt, decide_eq_true_eq] at *; omega
  · intro a b; simp only [intLt, decide_eq_true_eq]; omega

/-- Witness world holding exactly one pair `(5, 7)`: sentinels at addresses 0
and 1, the pair record's left identity at 2 and right identity at 3. -/
def hOne : tree.Heap := fun x =>
  if x = 0 then ⟨none, some 2, some 1⟩
  else if x = 1 then ⟨none, some 3, some 0⟩
  else if x = 2 then ⟨some 0, none, none⟩
  else if x = 3 then ⟨some 1, none, none⟩
  else tree.node_base.nil

def wOne : bimap.World Int Int :=
  ⟨hOne, fun a => if a = 2 then 5 else 0, fun a => if a = 3 then 7 else 0, 4⟩

def bOne : bimap.Store Int Int := ⟨0, 1, 1, intLt, intLt⟩

def tLOne : BT := .node .leaf 2 .leaf

def tROne : BT := .node .leaf 3 .leaf

lemma SRep_One : bimap.SRep wOne bOne tLOne tROne := by
  constructor <;> decide

/-- C3: on any well-formed store, `flip` maps `end_left` to `end_right` and
back, maps the left identity of a live pair record to its right identity (the
same record seen from the other side) and back, and is therefore an
involution on every valid position, end positions included; the null iterator
also flips to itself. -/
theorem C3_flip_involution (w : bimap.World L R) (b : bimap.Store L R)
    (tL tR : BT) (hs : bimap.SRep w b tL tR) :
    bimap.flipL w.heap (some b.sentL) = some b.sentR ∧
    bimap.flipR w.heap (some b.sentR) = some b.sentL ∧
    bimap.flipR w.heap (bimap.flipL w.heap (some b.sentL)) = some b.sentL ∧
    bimap.flipL w.heap (bimap.flipR w.heap (some b.sentR)) = some b.sentR ∧
    (∀ a ∈ tL.inorder, bimap.flipL w.heap (some a) = some (a + 1) ∧
      a + 1 ∈ tR.inorder ∧
      bimap.flipR w.heap (bimap.flipL w.heap (some a)) = some a) ∧
    (∀ a ∈ tR.inorder, bimap.flipL w.heap (bimap.flipR w.heap (some a)) = some a) ∧
    bimap.flipL w.heap none = none ∧ bimap.flipR w.heap none = none := by
  have hL : bimap.flipL w.heap (some b.sentL) = some b.sentR := by
    simp [bimap.flipL, hs.parL, hs.lnkL]
  have hR : bimap.flipR w.heap (some b.sentR) = some b.sentL := by
    simp [bimap.flipR, hs.parR, hs.lnkR]
  have hnodeL : ∀ a ∈ tL.inorder, bimap.flipL w.heap (some a) = some (a + 1) := by
    intro a ha
    have := RepB_parent_ne_none hs.repL a ha
    simp [bimap.flipL, this]
  have hnodeR : ∀ x ∈ tR.inorder, bimap.flipR w.heap (some x) = some (x - 1) := by
    intro x hx
    have := RepB_parent_ne_none hs.repR x hx
    simp [bimap.flipR, this]
  refine ⟨hL, hR, by rw [hL]; exact hR, by rw [hR]; exact hL, ?_, ?_, rfl, rfl⟩
  · intro a ha
    have hmem : a + 1 ∈ tR.inorder := hs.memR_iff.2 ⟨a, ha, rfl⟩
    refine ⟨hnodeL a ha, hmem, ?_⟩
    rw [hnodeL a ha, hnodeR (a + 1) hmem]
    simp
  · intro x hx
    obtain ⟨a, ha, hax⟩ := hs.memR_iff.1 hx
    rw [hnodeR x hx]
    have : x - 1 = a := by omega
    rw [this, hnodeL a ha, hax]

theorem C3_flip_involution_witness :
    bimap.flipR wOne.heap (bimap.flipL wOne.heap (some 2)) = some 2 :=
  ((C3_flip_involution wOne bOne tLOne tROne SRep_One).2.2.2.2.1 2 (by decide)).2.2

/-- `intrusive_tree::swap` reads through `m_sentinel.left` unconditionally, so
it is undefined (models to `none`) as soon as the first store's left tree is
empty; `bimap::swap` inherits this. -/
lemma bimap_swap_empty_none (w : bimap.World L R) (b1 b2 : bimap.Store L R)
    (h : (w.heap b1.sentL).left = none) :
    bimap.swap w b1 b2 = none := by
  unfold bimap.swap tree.swap
  rw [h]

/-- The world after default-constructing two empty bimaps. -/
def wTwoEmpty : bimap.World Int Int :=
  (bimap.mk (bimap.mk ⟨fun _ => tree.node_base.nil, fun _ => 0, fun _ => 0, 0⟩
    intLt intLt).1 intLt intLt).1

def bEmpty1 : bimap.Store Int Int := ⟨0, 1, 0, intLt, intLt⟩

def bEmpty2 : bimap.Store Int Int := ⟨2, 3, 0, intLt, intLt⟩

lemma SRep_Empty1 : bimap.SRep wTwoEmpty bEmpty1 BT.leaf BT.leaf := by
  constructor <;> decide

lemma SRep_Empty2 : bimap.SRep wTwoEmpty bEmpty2 BT.leaf BT.leaf := by
  constructor <;> decide

/-- C8: swapping two default-constructed (empty) bimaps hits the null
dereference of `m_sentinel.left` in `intrusive_tree::swap`: the operation is
undefined behaviour, not the total, always-valid exchange the claim
describes. -/
theorem C8_swap_of_empty_stores_is_undefined :
    bimap.swap wTwoEmpty bEmpty1 bEmpty2 = none :=
  bimap_swap_empty_none wTwoEmpty bEmpty1 bEmpty2 (by decide)

/-!
## Search refinement: the heap descent computes the shape-level descent
-/

@[simp] lemma BT.size_leaf : BT.leaf.size = 0 := rfl

lemma BT.size_node (l : BT) (a : Nat) (r : BT) :
    (BT.node l a r).size = l.size + r.size + 1 := by
  simp [BT.size]; omega

lemma STO.asymm {K : Type} {lt : K → K → Bool} (hs : STO lt) {a b : K}
    (h : lt a b = true) : lt b a = false := by
  cases hba : lt b a with
  | false => rfl
  | true => have := hs.trans a b a h hba; rw [hs.irrefl] at this; cases this

lemma eqv_iff {K : Type} {lt : K → K → Bool} (hs : STO lt) {x y : K} :
    tree.eqv lt x y = true ↔ x = y := by
  unfold tree.eqv
  constructor
  · intro h
    rw [Bool.and_eq_true, Bool.not_eq_true'] at h
    rcases hs.total x y with h1 | h1 | h1
    · rw [h1] at h; cases h.2
    · rw [h1] at h; cases h.1
    · exact h1
  · rintro rfl
    simp [hs.irrefl]

lemma allB_iff {p : Nat → Bool} {t : BT} :
    allB p t = true ↔ ∀ b ∈ t.inorder, p b = true := by
  induction t with
  | leaf => simp [allB]
  | node l a r ihl ihr =>
    simp only [allB, Bool.and_eq_true, ihl, ihr, BT.inorder_node, List.mem_append,
      List.mem_cons]
    constructor
    · rintro ⟨⟨hpa, hl⟩, hr⟩ b hb
      rcases hb with hb | hb | hb
      · exact hl b hb
      · exact hb ▸ hpa
      · exact hr b hb
    · intro hb
      exact ⟨⟨hb a (Or.inr (Or.inl rfl)), fun b h => hb b (Or.inl h)⟩,
        fun b h => hb b (Or.inr (Or.inr h))⟩

lemma bstB_node {K : Type} {lt : K → K → Bool} {val : Nat → K} {l : BT} {a : Nat} {r : BT} :
    bstB lt val (.node l a r) = true ↔
      (∀ b ∈ l.inorder, lt (val b) (val a) = true) ∧
      (∀ b ∈ r.inorder, lt (val a) (val b) = true) ∧
      bstB lt val l = true ∧ bstB lt val r = true := by
  simp [bstB, Bool.and_assoc, allB_iff]

/-- The shape-level descent never falls off a nonempty shape. -/
lemma findNearestT_ne_none {K : Type} (val : Nat → K) (lt : K → K → Bool) (k : K) :
    ∀ t : BT, t ≠ .leaf → findNearestT val lt k t ≠ none := by
  intro t ht
  cases t with
  | leaf => exact absurd rfl ht
  | node l x r =>
    rw [findNearestT]
    by_cases h1 : lt (val x) k = true
    · rw [if_pos h1]; cases findNearestT val lt k r <;> simp
    · rw [if_neg h1]
      by_cases h2 : lt k (val x) = true
      · rw [if_pos h2]; cases findNearestT val lt k l <;> simp
      · rw [if_neg h2]; simp

/-- The shape-level descent lands inside the shape. -/
lemma findNearestT_mem {K : Type} {val : Nat → K} {lt : K → K → Bool} {k : K} :
    ∀ {t : BT} {a : Nat}, findNearestT val lt k t = some a → a ∈ t.inorder := by
  intro t
  induction t with
  | leaf => intro a h; simp [findNearestT] at h
  | node l x r ihl ihr =>
    intro a h
    rw [findNearestT] at h
    by_cases h1 : lt (val x) k = true
    · rw [if_pos h1] at h
      cases hfr : findNearestT val lt k r with
      | none =>
        rw [hfr] at h
        obtain rfl : x = a := by simpa using h
        simp
      | some res =>
        rw [hfr] at h
        obtain rfl : res = a := by simpa using h
        have hm := ihr hfr
        simp at hm ⊢
        tauto
    · rw [if_neg h1] at h
      by_cases h2 : lt k (val x) = true
      · rw [if_pos h2] at h
        cases hfl : findNearestT val lt k l with
        | none =>
          rw [hfl] at h
          obtain rfl : x = a := by simpa using h
          simp
        | some res =>
          rw [hfl] at h
          obtain rfl : res = a := by simpa using h
          have hm := ihl hfl
          simp at hm ⊢
          tauto
      · rw [if_neg h2] at h
        obtain rfl : x = a := by simpa using h
        simp

/-- Search bracketing: where the descent stops, everything smaller in the
shape is smaller than the key and everything larger is larger. -/
lemma findNearestT_bracket {K : Type} {lt : K → K → Bool} {val : Nat → K} (hs : STO lt)
    {k : K} : ∀ {t : BT}, bstB lt val t = true → ∀ {a : Nat},
    findNearestT val lt k t = some a →
    (∀ b ∈ t.inorder, lt (val b) (val a) = true → lt (val b) k = true) ∧
    (∀ b ∈ t.inorder, lt (val a) (val b) = true → lt k (val b) = true) := by
  intro t
  induction t with
  | leaf => intro _ a hfn; simp [findNearestT] at hfn
  | node l x r ihl ihr =>
    intro hbst a hfn
    rw [bstB_node] at hbst
    obtain ⟨hbl, hbr, hl, hr⟩ := hbst
    rw [findNearestT] at hfn
    by_cases h1 : lt (val x) k = true
    · rw [if_pos h1] at hfn
      cases hfr : findNearestT val lt k r with
      | none =>
        rw [hfr] at hfn
        obtain rfl : x = a := by simpa using hfn
        have hrleaf : r = .leaf := by
          by_contra hc
          exact findNearestT_ne_none val lt k r hc hfr
        subst hrleaf
        constructor
        · intro b hb hba
          rcases (by simpa using hb : b ∈ l.inorder ∨ b = x) with hb | hb
          · exact hs.trans _ _ _ hba h1
          · rw [hb, hs.irrefl] at hba; cases hba
        · intro b hb hab
          rcases (by simpa using hb : b ∈ l.inorder ∨ b = x) with hb | hb
          · rw [hs.asymm (hbl b hb)] at hab; cases hab
          · rw [hb, hs.irrefl] at hab; cases hab
      | some res =>
        rw [hfr] at hfn
        obtain rfl : res = a := by simpa using hfn
        have hmem : res ∈ r.inorder := findNearestT_mem hfr
        obtain ⟨bl, br⟩ := ihr hr hfr
        have hxa : lt (val x) (val res) = true := hbr res hmem
        constructor
        · intro b hb hba
          rcases (by simpa using hb : b ∈ l.inorder ∨ b = x ∨ b ∈ r.inorder)
            with hb | hb | hb
          · exact hs.trans _ _ _ (hbl b hb) h1
          · rw [hb]; exact h1
          · exact bl b hb hba
        · intro b hb hab
          rcases (by simpa using hb : b ∈ l.inorder ∨ b = x ∨ b ∈ r.inorder)
            with hb | hb | hb
          · rw [hs.asymm (hs.trans _ _ _ (hbl b hb) hxa)] at hab; cases hab
          · rw [hb, hs.asymm hxa] at hab; cases hab
          · exact br b hb hab
    · rw [if_neg h1] at hfn
      by_cases h2 : lt k (val x) = true
      · rw [if_pos h2] at hfn
        cases hfl : findNearestT val lt k l with
        | none =>
          rw [hfl] at hfn
          obtain rfl : x = a := by simpa using hfn
          have hlleaf : l = .leaf := by
            by_contra hc
            exact findNearestT_ne_none val lt k l hc hfl
          subst hlleaf
          constructor
          · intro b hb hba
            rcases (by simpa using hb : b = x ∨ b ∈ r.inorder) with hb | hb
            · rw [hb, hs.irrefl] at hba; cases hba
            · rw [hs.asymm (hbr b hb)] at hba; cases hba
          · intro b hb hab
            rcases (by simpa using hb : b = x ∨ b ∈ r.inorder) with hb | hb
            · rw [hb, hs.irrefl] at hab; cases hab
            · exact hs.trans _ _ _ h2 (hbr b hb)
        | some res =>
          rw [hfl] at hfn
          obtain rfl : res = a := by simpa using hfn
          have hmem : res ∈ l.inorder := findNearestT_mem hfl
          obtain ⟨bl, br⟩ := ihl hl hfl
          have hax : lt (val res) (val x) = true := hbl res hmem
          constructor
          · intro b hb hba
            rcases (by simpa using hb : b ∈ l.inorder ∨ b = x ∨ b ∈ r.inorder)
              with hb | hb | hb
            · exact bl b hb hba
            · rw [hb, hs.asymm hax] at hba; cases hba
            · rw [hs.asymm (hs.trans _ _ _ hax (hbr b hb))] at hba; cases hba
          · intro b hb hab
            rcases (by simpa using hb : b ∈ l.inorder ∨ b = x ∨ b ∈ r.inorder)
              with hb | hb | hb
            · exact br b hb hab
            · rw [hb]; exact h2
            · exact hs.trans _ _ _ h2 (hbr b hb)
      · rw [if_neg h2] at hfn
        obtain rfl : x = a := by simpa using hfn
        have hak : val x = k := by
          rcases hs.total (val x) k with h | h | h
          · exact absurd h h1
          · exact absurd h h2
          · exact h
        constructor
        · intro b hb hba
          rcases (by simpa using hb : b ∈ l.inorder ∨ b = x ∨ b ∈ r.inorder)
            with hb | hb | hb
          · rw [← hak]; exact hba
          · rw [hb, hs.irrefl] at hba; cases hba
          · rw [← hak]; exact hba
        · intro b hb hab
          rcases (by simpa using hb : b ∈ l.inorder ∨ b = x ∨ b ∈ r.inorder)
            with hb | hb | hb
          · rw [← hak]; exact hab
          · rw [hb, hs.irrefl] at hab; cases hab
          · rw [← hak]; exact hab

/-- The heap descent loop computes the shape-level descent. -/
lemma find_nearest_loop_ref {K : Type} {h : tree.Heap} {val : Nat → K} {lt : K → K → Bool}
    {k : K} : ∀ {t : BT} {q rt fuel : Nat}, RepB h q t = true → rootOf t = some rt →
    t.size ≤ fuel →
    tree.find_nearest_loop h val lt k fuel rt = findNearestT val lt k t := by
  intro t
  induction t with
  | leaf => intro q rt fuel _ hroot _; simp [rootOf] at hroot
  | node l x r ihl ihr =>
    intro q rt fuel hrep hroot hfuel
    obtain rfl : x = rt := by simpa [rootOf] using hroot
    rw [RepB_node] at hrep
    obtain ⟨hp, hlft, hrgt, hrl, hrr⟩ := hrep
    rw [BT.size_node] at hfuel
    obtain ⟨f, rfl⟩ : ∃ f, fuel = f + 1 := ⟨fuel - 1, by omega⟩
    rw [tree.find_nearest_loop, findNearestT]
    by_cases h1 : lt (val x) k = true
    · rw [if_pos h1, if_pos h1, hrgt]
      cases r with
      | leaf => simp [rootOf, findNearestT]
      | node rl c rr =>
        simp only [rootOf]
        rw [ihr hrr rfl (by rw [BT.size_node]; rw [BT.size_node] at hfuel; omega)]
        cases hq : findNearestT val lt k (BT.node rl c rr) with
        | none => exact absurd hq (findNearestT_ne_none val lt k _ (by simp))
        | some res => simp
    · rw [if_neg h1, if_neg h1]
      by_cases h2 : lt k (val x) = true
      · rw [if_pos h2, if_pos h2, hlft]
        cases l with
        | leaf => simp [rootOf, findNearestT]
        | node ll c lr =>
          simp only [rootOf]
          rw [ihl hrl rfl (by rw [BT.size_node]; rw [BT.size_node] at hfuel; omega)]
          cases hq : findNearestT val lt k (BT.node ll c lr) with
          | none => exact absurd hq (findNearestT_ne_none val lt k _ (by simp))
          | some res => simp
      · rw [if_neg h2, if_neg h2]

/-- `find_nearest` refines its shape-level counterpart (end on the empty
shape). -/
lemma find_nearest_ref {K : Type} {h : tree.Heap} {sent : Nat} {val : Nat → K}
    {lt : K → K → Bool} {k : K} {t : BT}
    (hrep : RepB h sent t = true) (hatt : (h sent).left = rootOf t)
    {fuel : Nat} (hfuel : t.size ≤ fuel) :
    tree.find_nearest h sent val lt fuel k =
      some (match findNearestT val lt k t with | none => sent | some a => a) := by
  unfold tree.find_nearest
  rw [hatt]
  cases t with
  | leaf => simp [rootOf, findNearestT]
  | node l x r =>
    simp only [rootOf]
    rw [find_nearest_loop_ref hrep rfl hfuel]
    cases hq : findNearestT val lt k (BT.node l x r) with
    | none => exact absurd hq (findNearestT_ne_none val lt k _ (by simp))
    | some res => simp

/-- Well-formedness of a single engine: heap shape, sentinel attachment,
distinct addresses, sentinel outside the shape, and search-tree order. -/
structure TWF {K : Type} (h : tree.Heap) (sent : Nat) (val : Nat → K)
    (lt : K → K → Bool) (t : BT) : Prop where
  rep : RepB h sent t = true
  att : (h sent).left = rootOf t
  nd : t.inorder.Nodup
  sentOut : sent ∉ t.inorder
  bst : bstB lt val t = true

/-- `find` refines the shape-level search: the descent result when its key is
equal, the sentinel otherwise. -/
lemma find_ref {K : Type} {h : tree.Heap} {sent : Nat} {val : Nat → K}
    {lt : K → K → Bool} {k : K} {t : BT}
    (hrep : RepB h sent t = true) (hatt : (h sent).left = rootOf t)
    (hsent : sent ∉ t.inorder) {fuel : Nat} (hfuel : t.size ≤ fuel) :
    tree.find h sent val lt fuel k =
      some (match findNearestT val lt k t with
            | none => sent
            | some a => if tree.eqv lt (val a) k = true then a else sent) := by
  unfold tree.find
  rw [find_nearest_ref hrep hatt hfuel]
  cases hq : findNearestT val lt k t with
  | none => simp
  | some a =>
    have ha : a ∈ t.inorder := findNearestT_mem hq
    have hne : a ≠ sent := fun he => hsent (he ▸ ha)
    simp only [hne, if_false]
    cases he : tree.eqv lt (val a) k <;> simp

/-- When some key of the shape equals `k`, `find` returns a node carrying
exactly that key. -/
lemma find_present {K : Type} {h : tree.Heap} {sent : Nat} {val : Nat → K}
    {lt : K → K → Bool} {t : BT} {k : K} (hs : STO lt)
    (tw : TWF h sent val lt t) {fuel : Nat} (hfuel : t.size ≤ fuel)
    (hhas : hasVal lt val t k = true) :
    ∃ a ∈ t.inorder, val a = k ∧ tree.find h sent val lt fuel k = some a := by
  obtain ⟨b, hb, hbk⟩ := by simpa [hasVal, List.any_eq_true] using hhas
  have hbk : val b = k := (eqv_iff hs).1 hbk
  have htne : t ≠ .leaf := by
    intro he; rw [he] at hb; simp at hb
  cases hq : findNearestT val lt k t with
  | none => exact absurd hq (findNearestT_ne_none val lt k t htne)
  | some a =>
    obtain ⟨bl, br⟩ := findNearestT_bracket hs tw.bst hq
    have hak : val a = k := by
      rcases hs.total (val b) (val a) with hc | hc | hc
      · have := bl b hb hc; rw [hbk, hs.irrefl] at this; cases this
      · have := br b hb hc; rw [hbk, hs.irrefl] at this; cases this
      · rw [← hc, hbk]
    refine ⟨a, findNearestT_mem hq, hak, ?_⟩
    rw [find_ref tw.rep tw.att tw.sentOut hfuel, hq]
    simp [(eqv_iff hs).2 hak]

/-- When no key of the shape equals `k`, `find` returns the sentinel (end). -/
lemma find_absent {K : Type} {h : tree.Heap} {sent : Nat} {val : Nat → K}
    {lt : K → K → Bool} {t : BT} {k : K} (hs : STO lt)
    (tw : TWF h sent val lt t) {fuel : Nat} (hfuel : t.size ≤ fuel)
    (hhas : hasVal lt val t k = false) :
    tree.find h sent val lt fuel k = some sent := by
  rw [find_ref tw.rep tw.att tw.sentOut hfuel]
  cases hq : findNearestT val lt k t with
  | none => simp
  | some a =>
    cases he : tree.eqv lt (val a) k with
    | false => simp [he]
    | true =>
      exfalso
      have : hasVal lt val t k = true := by
        rw [hasVal, List.any_eq_true]
        exact ⟨a, findNearestT_mem hq, he⟩
      rw [this] at hhas; cases hhas

namespace bimap

variable {L R : Type}

lemma SRep.ndR {w : World L R} {b : Store L R} {tL tR : BT}
    (hs : SRep w b tL tR) : tR.inorder.Nodup := by
  rw [hs.pairR.nodup_iff]
  exact hs.ndL.map (fun a b => by omega)

/-- The left engine of a well-formed store is a well-formed tree. -/
lemma SRep.twfL {w : World L R} {b : Store L R} {tL tR : BT}
    (hs : SRep w b tL tR) : TWF w.heap b.sentL w.valL b.cmpL tL :=
  ⟨hs.repL, hs.attL, hs.ndL, hs.sLoutL, hs.bstL⟩

/-- The right engine of a well-formed store is a well-formed tree. -/
lemma SRep.twfR {w : World L R} {b : Store L R} {tL tR : BT}
    (hs : SRep w b tL tR) : TWF w.heap b.sentR w.valR b.cmpR tR :=
  ⟨hs.repR, hs.attR, hs.ndR, hs.sRoutR, hs.bstR⟩

end bimap

/-- C9: `at_left` of an absent key finds the end position and throws (inner
`none`); of a present key it returns exactly the right value stored in the
same pair record (the node at the paired `a + 1` identity); symmetrically for
`at_right`.  Both methods are `const`: the model reads the world and returns
no modified state, so the store is unchanged. -/
theorem C9_at_raises_iff_absent {L R : Type} (w : bimap.World L R) (b : bimap.Store L R)
    (tL tR : BT) (hs : bimap.SRep w b tL tR)
    (hoL : STO b.cmpL) (hoR : STO b.cmpR) (fuel : Nat)
    (hfL : tL.size ≤ fuel) (hfR : tR.size ≤ fuel) (k : L) (kr : R) :
    (hasVal b.cmpL w.valL tL k = false → bimap.at_left w b fuel k = some none) ∧
    (hasVal b.cmpL w.valL tL k = true →
      ∃ a ∈ tL.inorder, w.valL a = k ∧
        bimap.at_left w b fuel k = some (some (w.valR (a + 1)))) ∧
    (hasVal b.cmpR w.valR tR kr = false → bimap.at_right w b fuel kr = some none) ∧
    (hasVal b.cmpR w.valR tR kr = true →
      ∃ a ∈ tL.inorder, w.valR (a + 1) = kr ∧
        bimap.at_right w b fuel kr = some (some (w.valL a))) := by
  refine ⟨?_, ?_, ?_, ?_⟩
  · intro habs
    unfold bimap.at_left bimap.find_left
    rw [find_absent hoL hs.twfL hfL habs]
    simp
  · intro hpres
    obtain ⟨a, ha, hak, hfind⟩ := find_present hoL hs.twfL hfL hpres
    refine ⟨a, ha, hak, ?_⟩
    unfold bimap.at_left bimap.find_left
    rw [hfind]
    have hne : a ≠ b.sentL := fun he => hs.sLoutL (he ▸ ha)
    have hpar := RepB_parent_ne_none hs.repL a ha
    simp [hne, bimap.flipL, hpar]
  · intro habs
    unfold bimap.at_right bimap.find_right
    rw [find_absent hoR hs.twfR hfR habs]
    simp
  · intro hpres
    obtain ⟨x, hx, hxk, hfind⟩ := find_present hoR hs.twfR hfR hpres
    obtain ⟨a, ha, hax⟩ := hs.memR_iff.1 hx
    refine ⟨a, ha, by rw [hax]; exact hxk, ?_⟩
    unfold bimap.at_right bimap.find_right
    rw [hfind]
    have hne : x ≠ b.sentR := fun he => hs.sRoutR (he ▸ hx)
    have hpar := RepB_parent_ne_none hs.repR x hx
    have hsub : x - 1 = a := by omega
    simp [hne, bimap.flipR, hpar, hsub]

theorem C9_witness : bimap.at_left wOne bOne 2 9 = some none :=
  (C9_at_raises_iff_absent wOne bOne tLOne tROne SRep_One STO_intLt STO_intLt 2
    (by decide) (by decide) 9 0).1 (by decide)

/-- C10: `erase_left` of the null iterator or of `end_left` is a safe no-op
returning the null iterator with world and store untouched; symmetrically on
the right; consequently `erase_left(key)` / `erase_right(key)` of an absent
key return `false` without any mutation. -/
theorem C10_erase_end_or_null_noop {L R : Type} (w : bimap.World L R)
    (b : bimap.Store L R) (tL tR : BT) (hs : bimap.SRep w b tL tR)
    (hoL : STO b.cmpL) (hoR : STO b.cmpR) (fuel : Nat)
    (hfL : tL.size ≤ fuel) (hfR : tR.size ≤ fuel) (k : L) (kr : R) :
    bimap.erase_left_it w b fuel none = some (w, b, none) ∧
    bimap.erase_left_it w b fuel (some b.sentL) = some (w, b, none) ∧
    bimap.erase_right_it w b fuel none = some (w, b, none) ∧
    bimap.erase_right_it w b fuel (some b.sentR) = some (w, b, none) ∧
    (hasVal b.cmpL w.valL tL k = false →
      bimap.erase_left_key w b fuel k = some (w, b, false)) ∧
    (hasVal b.cmpR w.valR tR kr = false →
      bimap.erase_right_key w b fuel kr = some (w, b, false)) := by
  refine ⟨rfl, by simp [bimap.erase_left_it], rfl, by simp [bimap.erase_right_it], ?_, ?_⟩
  · intro habs
    unfold bimap.erase_left_key bimap.find_left
    rw [find_absent hoL hs.twfL hfL habs]
    simp [bimap.erase_left_it]
  · intro habs
    unfold bimap.erase_right_key bimap.find_right
    rw [find_absent hoR hs.twfR hfR habs]
    simp [bimap.erase_right_it]

theorem C10_witness : bimap.erase_left_key wOne bOne 2 9 = some (wOne, bOne, false) :=
  (C10_erase_end_or_null_noop wOne bOne tLOne tROne SRep_One STO_intLt STO_intLt 2
    (by decide) (by decide) 9 0).2.2.2.2.1 (by decide)

/-!
## Shape-level insert lemmas
-/

lemma nodup_node {l : BT} {x : Nat} {r : BT} (h : (BT.node l x r).inorder.Nodup) :
    l.inorder.Nodup ∧ r.inorder.Nodup ∧ x ∉ l.inorder ∧ x ∉ r.inorder ∧
      ∀ b ∈ l.inorder, b ∉ r.inorder := by
  rw [BT.inorder_node, List.nodup_append] at h
  obtain ⟨hl, hxr, hdisj⟩ := h
  rw [List.nodup_cons] at hxr
  refine ⟨hl, hxr.2, ?_, hxr.1, ?_⟩
  · intro hx
    exact (hdisj hx) (by simp)
  · intro b hb hbr
    exact (hdisj hb) (by simp [hbr])

lemma hasVal_node {K : Type} {lt : K → K → Bool} {val : Nat → K} {l : BT} {x : Nat}
    {r : BT} {k : K} :
    hasVal lt val (.node l x r) k =
      (hasVal lt val l k || tree.eqv lt (val x) k || hasVal lt val r k) := by
  simp [hasVal, List.any_append, List.any_cons]
  ac_rfl

lemma allB_congr {p p' : Nat → Bool} :
    ∀ {t : BT}, (∀ a ∈ t.inorder, p' a = p a) → allB p' t = allB p t := by
  intro t
  induction t with
  | leaf => intro _; rfl
  | node l x r ihl ihr =>
    intro hag
    rw [allB, allB, hag x (by simp), ihl (fun a ha => hag a (by simp [ha])),
      ihr (fun a ha => hag a (by simp [ha]))]

lemma bstB_congr {K : Type} {lt : K → K → Bool} {val val' : Nat → K} :
    ∀ {t : BT}, (∀ a ∈ t.inorder, val' a = val a) → bstB lt val' t = bstB lt val t := by
  intro t
  induction t with
  | leaf => intro _; rfl
  | node l x r ihl ihr =>
    intro hag
    have hx : val' x = val x := hag x (by simp)
    have hL : ∀ a ∈ l.inorder, val' a = val a := fun a ha => hag a (by simp [ha])
    have hR : ∀ a ∈ r.inorder, val' a = val a := fun a ha => hag a (by simp [ha])
    rw [bstB, bstB, ihl hL, ihr hR,
      @allB_congr (fun b => lt (val b) (val x)) (fun b => lt (val' b) (val' x)) l
        (fun a ha => by simp only; rw [hL a ha, hx]),
      @allB_congr (fun b => lt (val x) (val b)) (fun b => lt (val' x) (val' b)) r
        (fun a ha => by simp only; rw [hR a ha, hx])]

lemma list_any_congr {A : Type} {f g : A → Bool} :
    ∀ l : List A, (∀ a ∈ l, f a = g a) → l.any f = l.any g := by
  intro l
  induction l with
  | nil => intro _; rfl
  | cons a t ih =>
    intro hag
    rw [List.any_cons, List.any_cons, hag a (by simp),
      ih (fun b hb => hag b (by simp [hb]))]

lemma hasVal_congr {K : Type} {lt : K → K → Bool} {val val' : Nat → K} {t : BT} {k : K}
    (hag : ∀ a ∈ t.inorder, val' a = val a) :
    hasVal lt val' t k = hasVal lt val t k := by
  unfold hasVal
  exact list_any_congr _ (fun a ha => by rw [hag a ha])

/-- `insertT` keeps the root of a nonempty shape. -/
lemma insertT_rootOf {K : Type} (val : Nat → K) (lt : K → K → Bool) (n : Nat)
    (l : BT) (x : Nat) (r : BT) :
    rootOf (insertT val lt n (.node l x r)) = some x := by
  rw [insertT]
  by_cases h1 : lt (val x) (val n) = true
  · rw [if_pos h1]; rfl
  · rw [if_neg h1]
    by_cases h2 : lt (val n) (val x) = true
    · rw [if_pos h2]; rfl
    · rw [if_neg h2]; rfl

/-- Everything in the inserted shape is the new address or an old one. -/
lemma insertT_mem {K : Type} {val : Nat → K} {lt : K → K → Bool} {n : Nat} :
    ∀ {t : BT} {b : Nat}, b ∈ (insertT val lt n t).inorder → b = n ∨ b ∈ t.inorder := by
  intro t
  induction t with
  | leaf => intro b hb; simp [insertT] at hb; simp [hb]
  | node l x r ihl ihr =>
    intro b hb
    rw [insertT] at hb
    by_cases h1 : lt (val x) (val n) = true
    · rw [if_pos h1] at hb
      rcases (by simpa using hb : b ∈ l.inorder ∨ b = x ∨ b ∈ (insertT val lt n r).inorder)
        with hc | hc | hc
      · simp [hc]
      · simp [hc]
      · rcases ihr hc with hd | hd
        · simp [hd]
        · simp [hd]
    · rw [if_neg h1] at hb
      by_cases h2 : lt (val n) (val x) = true
      · rw [if_pos h2] at hb
        rcases (by simpa using hb : b ∈ (insertT val lt n l).inorder ∨ b = x ∨ b ∈ r.inorder)
          with hc | hc | hc
        · rcases ihl hc with hd | hd
          · simp [hd]
          · simp [hd]
        · simp [hc]
        · simp [hc]
      · rw [if_neg h2] at hb
        right; simpa using hb

/-- Inserting preserves search-tree order. -/
lemma insertT_bst {K : Type} {val : Nat → K} {lt : K → K → Bool} {n : Nat} :
    ∀ {t : BT}, bstB lt val t = true → bstB lt val (insertT val lt n t) = true := by
  intro t
  induction t with
  | leaf => intro _; simp [insertT, bstB, allB]
  | node l x r ihl ihr =>
    intro hbst
    rw [bstB_node] at hbst
    obtain ⟨hbl, hbr, hl, hr⟩ := hbst
    rw [insertT]
    by_cases h1 : lt (val x) (val n) = true
    · rw [if_pos h1, bstB_node]
      refine ⟨hbl, ?_, hl, ihr hr⟩
      intro b hb
      rcases insertT_mem hb with hc | hc
      · rw [hc]; exact h1
      · exact hbr b hc
    · rw [if_neg h1]
      by_cases h2 : lt (val n) (val x) = true
      · rw [if_pos h2, bstB_node]
        refine ⟨?_, hbr, ihl hl, hr⟩
        intro b hb
        rcases insertT_mem hb with hc | hc
        · rw [hc]; exact h2
        · exact hbl b hc
      · rw [if_neg h2, bstB_node]
        exact ⟨hbl, hbr, hl, hr⟩

/-- When no existing key equals the new one, inserting adds exactly the new
address. -/
lemma insertT_inorder_perm {K : Type} {val : Nat → K} {lt : K → K → Bool} {n : Nat} :
    ∀ {t : BT}, hasVal lt val t (val n) = false →
      (insertT val lt n t).inorder.Perm (n :: t.inorder) := by
  intro t
  induction t with
  | leaf => intro _; simp [insertT]
  | node l x r ihl ihr =>
    intro habs
    rw [hasVal_node] at habs
    simp only [Bool.or_eq_false_iff] at habs
    obtain ⟨⟨habl, habx⟩, habr⟩ := habs
    rw [insertT]
    by_cases h1 : lt (val x) (val n) = true
    · rw [if_pos h1]
      rw [BT.inorder_node, BT.inorder_node]
      have s1 : (l.inorder ++ x :: (insertT val lt n r).inorder).Perm
          (l.inorder ++ x :: n :: r.inorder) :=
        List.Perm.append_left _ (List.Perm.cons _ (ihr habr))
      have s2 : (l.inorder ++ x :: n :: r.inorder).Perm
          (l.inorder ++ n :: x :: r.inorder) :=
        List.Perm.append_left _ (List.Perm.swap _ _ _)
      have s3 : (l.inorder ++ n :: (x :: r.inorder)).Perm
          (n :: (l.inorder ++ x :: r.inorder)) := List.perm_middle
      exact (s1.trans s2).trans s3
    · rw [if_neg h1]
      by_cases h2 : lt (val n) (val x) = true
      · rw [if_pos h2]
        rw [BT.inorder_node, BT.inorder_node]
        exact List.Perm.append_right _ (ihl habl)
      · exfalso
        have heq : tree.eqv lt (val x) (val n) = true := by
          unfold tree.eqv
          rw [Bool.and_eq_true, Bool.not_eq_true', Bool.not_eq_true']
          constructor
          · revert h2; cases lt (val n) (val x) <;> simp
          · revert h1; cases lt (val x) (val n) <;> simp
        rw [heq] at habx; cases habx

/-- Attaching the fresh childless node `n` at the stop position of the descent
produces exactly the heap image of the shape-level insert. -/
lemma graft_cases {K : Type} {h : tree.Heap} {val : Nat → K} {lt : K → K → Bool} {n : Nat} :
    ∀ {t : BT} {q : Nat}, RepB h q t = true → t.inorder.Nodup → n ∉ t.inorder →
      q ∉ t.inorder → (h n).left = none → (h n).right = none →
      ∀ {p : Nat}, findNearestT val lt (val n) t = some p →
      (lt (val p) (val n) = false ∧ lt (val n) (val p) = false ∧
        insertT val lt n t = t) ∨
      (lt (val p) (val n) = true ∧ (h p).right = none ∧
        RepB (tree.set_parent (tree.set_right h p (some n)) n (some p)) q
          (insertT val lt n t) = true ∧
        rootOf (insertT val lt n t) = rootOf t) ∨
      (lt (val p) (val n) = false ∧ lt (val n) (val p) = true ∧ (h p).left = none ∧
        RepB (tree.set_parent (tree.set_left h p (some n)) n (some p)) q
          (insertT val lt n t) = true ∧
        rootOf (insertT val lt n t) = rootOf t) := by
  intro t
  induction t with
  | leaf => intro q _ _ _ _ _ _ p hfn; simp [findNearestT] at hfn
  | node l x r ihl ihr =>
    intro q hrep hnd hn hq hnl hnr p hfn
    rw [RepB_node] at hrep
    obtain ⟨hxp, hxl, hxr, hrl, hrr⟩ := hrep
    obtain ⟨hndl, hndr, hxnl, hxnr, hlr⟩ := nodup_node hnd
    have hnl' : n ∉ l.inorder := fun hc => hn (by simp [hc])
    have hnr' : n ∉ r.inorder := fun hc => hn (by simp [hc])
    have hnx : n ≠ x := fun hc => hn (by simp [hc])
    rw [findNearestT] at hfn
    by_cases h1 : lt (val x) (val n) = true
    · rw [if_pos h1] at hfn
      cases hfr : findNearestT val lt (val n) r with
      | none =>
        rw [hfr] at hfn
        obtain rfl : x = p := by simpa using hfn
        have hrleaf : r = .leaf := by
          by_contra hc
          exact findNearestT_ne_none val lt (val n) r hc hfr
        subst hrleaf
        refine Or.inr (Or.inl ⟨h1, by rw [hxr]; rfl, ?_, ?_⟩)
        · have hileaf : insertT val lt n BT.leaf = BT.node BT.leaf n BT.leaf := rfl
          rw [insertT, if_pos h1, hileaf, RepB_node]
          have hax : (tree.set_parent (tree.set_right h x (some n)) n (some x)) x =
              tree.set_right h x (some n) x := tree.set_parent_other _ _ _ (Ne.symm hnx)
          have haxn : (tree.set_right h x (some n)) n = h n :=
            tree.set_right_other _ _ _ hnx
          refine ⟨?_, ?_, ?_, ?_, ?_⟩
          · rw [hax]; simp [hxp]
          · rw [hax]; simp [hxl]
          · rw [hax]; simp [rootOf]
          · refine RepB_frame ?_ hrl
            intro a ha
            have h1a : a ≠ n := fun hc => hnl' (by rw [← hc]; exact ha)
            have h2a : a ≠ x := fun hc => hxnl (by rw [← hc]; exact ha)
            rw [tree.set_parent_other _ _ _ h1a, tree.set_right_other _ _ _ h2a]
          · rw [RepB_node]
            refine ⟨by simp, ?_, ?_, rfl, rfl⟩
            · simp only [tree.set_parent_same, haxn]
              rw [hnl]; rfl
            · simp only [tree.set_parent_same, haxn]
              rw [hnr]; rfl
        · rw [insertT_rootOf]; rfl
      | some res =>
        rw [hfr] at hfn
        have hresp : res = p := by simpa using hfn
        subst hresp
        have hpr : res ∈ r.inorder := findNearestT_mem hfr
        have hpx : res ≠ x := fun hc => hxnr (by rw [← hc]; exact hpr)
        rcases ihr hrr hndr hnr' hxnr hnl hnr hfr with
          ⟨d1, d2, d3⟩ | ⟨d1, d2, d3, d4⟩ | ⟨d1, d2, d3, d4, d5⟩
        · refine Or.inl ⟨d1, d2, ?_⟩
          rw [insertT, if_pos h1, d3]
        · refine Or.inr (Or.inl ⟨d1, d2, ?_, ?_⟩)
          · rw [insertT, if_pos h1, RepB_node]
            have hxout : (tree.set_parent (tree.set_right h res (some n)) n (some res)) x = h x := by
              rw [tree.set_parent_other _ _ _ (Ne.symm hnx),
                tree.set_right_other _ _ _ (Ne.symm hpx)]
            refine ⟨by rw [hxout]; exact hxp, by rw [hxout]; exact hxl,
              by rw [hxout, hxr, d4], ?_, d3⟩
            refine RepB_frame ?_ hrl
            intro a ha
            have h1a : a ≠ n := fun hc => hnl' (by rw [← hc]; exact ha)
            have h2a : a ≠ res := fun hc => hlr a ha (by rw [hc]; exact hpr)
            rw [tree.set_parent_other _ _ _ h1a, tree.set_right_other _ _ _ h2a]
          · rw [insertT_rootOf]; rfl
        · refine Or.inr (Or.inr ⟨d1, d2, d3, ?_, ?_⟩)
          · rw [insertT, if_pos h1, RepB_node]
            have hxout : (tree.set_parent (tree.set_left h res (some n)) n (some res)) x = h x := by
              rw [tree.set_parent_other _ _ _ (Ne.symm hnx),
                tree.set_left_other _ _ _ (Ne.symm hpx)]
            refine ⟨by rw [hxout]; exact hxp, by rw [hxout]; exact hxl,
              by rw [hxout, hxr, d5], ?_, d4⟩
            refine RepB_frame ?_ hrl
            intro a ha
            have h1a : a ≠ n := fun hc => hnl' (by rw [← hc]; exact ha)
            have h2a : a ≠ res := fun hc => hlr a ha (by rw [hc]; exact hpr)
            rw [tree.set_parent_other _ _ _ h1a, tree.set_left_other _ _ _ h2a]
          · rw [insertT_rootOf]; rfl
    · rw [if_neg h1] at hfn
      by_cases h2 : lt (val n) (val x) = true
      · rw [if_pos h2] at hfn
        cases hfl : findNearestT val lt (val n) l with
        | none =>
          rw [hfl] at hfn
          obtain rfl : x = p := by simpa using hfn
          have hlleaf : l = .leaf := by
            by_contra hc
            exact findNearestT_ne_none val lt (val n) l hc hfl
          subst hlleaf
          refine Or.inr (Or.inr ⟨by simpa using h1, h2, by rw [hxl]; rfl, ?_, ?_⟩)
          · have hileaf : insertT val lt n BT.leaf = BT.node BT.leaf n BT.leaf := rfl
            rw [insertT, if_neg h1, if_pos h2, hileaf, RepB_node]
            have hax : (tree.set_parent (tree.set_left h x (some n)) n (some x)) x =
                tree.set_left h x (some n) x := tree.set_parent_other _ _ _ (Ne.symm hnx)
            have haxn : (tree.set_left h x (some n)) n = h n :=
              tree.set_left_other _ _ _ hnx
            refine ⟨?_, ?_, ?_, ?_, ?_⟩
            · rw [hax]; simp [hxp]
            · rw [hax]; simp [rootOf]
            · rw [hax]; simp [hxr]
            · rw [RepB_node]
              refine ⟨by simp, ?_, ?_, rfl, rfl⟩
              · simp only [tree.set_parent_same, haxn]
                rw [hnl]; rfl
              · simp only [tree.set_parent_same, haxn]
                rw [hnr]; rfl
            · refine RepB_frame ?_ hrr
              intro a ha
              have h1a : a ≠ n := fun hc => hnr' (by rw [← hc]; exact ha)
              have h2a : a ≠ x := fun hc => hxnr (by rw [← hc]; exact ha)
              rw [tree.set_parent_other _ _ _ h1a, tree.set_left_other _ _ _ h2a]
          · rw [insertT_rootOf]; rfl
        | some res =>
          rw [hfl] at hfn
          have hresp : res = p := by simpa using hfn
          subst hresp
          have hpl : res ∈ l.inorder := findNearestT_mem hfl
          have hpx : res ≠ x := fun hc => hxnl (by rw [← hc]; exact hpl)
          rcases ihl hrl hndl hnl' hxnl hnl hnr hfl with
            ⟨d1, d2, d3⟩ | ⟨d1, d2, d3, d4⟩ | ⟨d1, d2, d3, d4, d5⟩
          · refine Or.inl ⟨d1, d2, ?_⟩
            rw [insertT, if_neg h1, if_pos h2, d3]
          · refine Or.inr (Or.inl ⟨d1, d2, ?_, ?_⟩)
            · rw [insertT, if_neg h1, if_pos h2, RepB_node]
              have hxout : (tree.set_parent (tree.set_right h res (some n)) n (some res)) x = h x := by
                rw [tree.set_parent_other _ _ _ (Ne.symm hnx),
                  tree.set_right_other _ _ _ (Ne.symm hpx)]
              refine ⟨by rw [hxout]; exact hxp, by rw [hxout, hxl, d4],
                by rw [hxout]; exact hxr, d3, ?_⟩
              refine RepB_frame ?_ hrr
              intro a ha
              have h1a : a ≠ n := fun hc => hnr' (by rw [← hc]; exact ha)
              have h2a : a ≠ res := fun hc => hlr res hpl (by rw [← hc]; exact ha)
              rw [tree.set_parent_other _ _ _ h1a, tree.set_right_other _ _ _ h2a]
            · rw [insertT_rootOf]; rfl
          · refine Or.inr (Or.inr ⟨d1, d2, d3, ?_, ?_⟩)
            · rw [insertT, if_neg h1, if_pos h2, RepB_node]
              have hxout : (tree.set_parent (tree.set_left h res (some n)) n (some res)) x = h x := by
                rw [tree.set_parent_other _ _ _ (Ne.symm hnx),
                  tree.set_left_other _ _ _ (Ne.symm hpx)]
              refine ⟨by rw [hxout]; exact hxp, by rw [hxout, hxl, d5],
                by rw [hxout]; exact hxr, d4, ?_⟩
              refine RepB_frame ?_ hrr
              intro a ha
              have h1a : a ≠ n := fun hc => hnr' (by rw [← hc]; exact ha)
              have h2a : a ≠ res := fun hc => hlr res hpl (by rw [← hc]; exact ha)
              rw [tree.set_parent_other _ _ _ h1a, tree.set_left_other _ _ _ h2a]
            · rw [insertT_rootOf]; rfl
      · rw [if_neg h2] at hfn
        obtain rfl : x = p := by simpa using hfn
        refine Or.inl ⟨by simpa using h1, by simpa using h2, ?_⟩
        rw [insertT, if_neg h1, if_neg h2]

/-- `intrusive_tree::insert` refines the shape-level insert: rejection with an
unchanged heap when an equal key is present, otherwise the heap links exactly
the inserted shape and only the attach point and the new node change. -/
lemma insert_ref {K : Type} {h : tree.Heap} {sent : Nat} {val : Nat → K}
    {lt : K → K → Bool} {t : BT} {n : Nat} (hs : STO lt)
    (tw : TWF h sent val lt t)
    (hn : n ∉ t.inorder) (hns : n ≠ sent)
    (hnl : (h n).left = none) (hnr : (h n).right = none)
    {fuel : Nat} (hfuel : t.size ≤ fuel) :
    (hasVal lt val t (val n) = true → tree.insert h sent val lt fuel n = some (h, sent)) ∧
    (hasVal lt val t (val n) = false → ∃ h',
      tree.insert h sent val lt fuel n = some (h', n) ∧
      RepB h' sent (insertT val lt n t) = true ∧
      (h' sent).left = rootOf (insertT val lt n t) ∧
      (∀ x, x ∉ t.inorder → x ≠ n → x ≠ sent → h' x = h x) ∧
      (h' sent).right = (h sent).right ∧
      (h' sent).parent = (h sent).parent) := by
  cases hft : findNearestT val lt (val n) t with
  | none =>
    have htleaf : t = .leaf := by
      by_contra hc
      exact findNearestT_ne_none val lt (val n) t hc hft
    subst htleaf
    constructor
    · intro hhas; simp [hasVal] at hhas
    · intro _
      refine ⟨tree.set_parent (tree.set_left h sent (some n)) n (some sent), ?_, ?_, ?_, ?_, ?_, ?_⟩
      · unfold tree.insert
        rw [find_nearest_ref tw.rep tw.att hfuel, hft]
        simp
      · have hins : insertT val lt n BT.leaf = BT.node BT.leaf n BT.leaf := rfl
        rw [hins, RepB_node]
        refine ⟨by simp, ?_, ?_, rfl, rfl⟩
        · simp only [tree.set_parent_same, tree.set_left_other h sent (some n) hns]
          rw [hnl]; rfl
        · simp only [tree.set_parent_same, tree.set_left_other h sent (some n) hns]
          rw [hnr]; rfl
      · have hins : insertT val lt n BT.leaf = BT.node BT.leaf n BT.leaf := rfl
        rw [hins, tree.set_parent_other _ _ _ (Ne.symm hns)]
        simp [rootOf]
      · intro x hxt hxn hxs
        rw [tree.set_parent_other _ _ _ hxn, tree.set_left_other _ _ _ hxs]
      · rw [tree.set_parent_other _ _ _ (Ne.symm hns)]
        simp
      · rw [tree.set_parent_other _ _ _ (Ne.symm hns)]
        simp
  | some p =>
    have hpm : p ∈ t.inorder := findNearestT_mem hft
    have hps : p ≠ sent := fun hc => tw.sentOut (hc ▸ hpm)
    have hqs : sent ∉ t.inorder := tw.sentOut
    rcases graft_cases tw.rep tw.nd hn hqs hnl hnr hft with
      ⟨d1, d2, d3⟩ | ⟨d1, d2, d3, d4⟩ | ⟨d1, d2, d3, d4, d5⟩
    · constructor
      · intro _
        unfold tree.insert
        rw [find_nearest_ref tw.rep tw.att hfuel, hft]
        simp [hps, d1, d2]
      · intro hhas
        exfalso
        have hval : val p = val n := by
          rcases hs.total (val p) (val n) with hc | hc | hc
          · rw [hc] at d1; cases d1
          · rw [hc] at d2; cases d2
          · exact hc
        have : hasVal lt val t (val n) = true := by
          rw [hasVal, List.any_eq_true]
          exact ⟨p, hpm, by rw [hval]; simp [tree.eqv, hs.irrefl]⟩
        rw [this] at hhas; cases hhas
    · constructor
      · intro hhas
        exfalso
        obtain ⟨b, hb, hbe⟩ := by simpa [hasVal, List.any_eq_true] using hhas
        have hbk : val b = val n := (eqv_iff hs).1 hbe
        obtain ⟨bl, br⟩ := findNearestT_bracket hs tw.bst hft
        have hval : val p = val n := by
          rcases hs.total (val b) (val p) with hc | hc | hc
          · have := bl b hb hc; rw [hbk, hs.irrefl] at this; cases this
          · have := br b hb hc; rw [hbk, hs.irrefl] at this; cases this
          · rw [← hc, hbk]
        rw [hval, hs.irrefl] at d1; cases d1
      · intro _
        refine ⟨tree.set_parent (tree.set_right h p (some n)) n (some p), ?_, d3, ?_, ?_, ?_, ?_⟩
        · unfold tree.insert
          rw [find_nearest_ref tw.rep tw.att hfuel, hft]
          simp [hps, d1]
        · have hsp : (tree.set_parent (tree.set_right h p (some n)) n (some p)) sent = h sent := by
            rw [tree.set_parent_other _ _ _ (Ne.symm hns),
              tree.set_right_other _ _ _ (Ne.symm hps)]
          rw [hsp, tw.att, d4]
        · intro x hxt hxn hxs
          have hxp : x ≠ p := fun hc => hxt (by rw [hc]; exact hpm)
          rw [tree.set_parent_other _ _ _ hxn, tree.set_right_other _ _ _ hxp]
        · rw [tree.set_parent_other _ _ _ (Ne.symm hns),
            tree.set_right_other _ _ _ (Ne.symm hps)]
        · rw [tree.set_parent_other _ _ _ (Ne.symm hns),
            tree.set_right_other _ _ _ (Ne.symm hps)]
    · constructor
      · intro hhas
        exfalso
        obtain ⟨b, hb, hbe⟩ := by simpa [hasVal, List.any_eq_true] using hhas
        have hbk : val b = val n := (eqv_iff hs).1 hbe
        obtain ⟨bl, br⟩ := findNearestT_bracket hs tw.bst hft
        have hval : val p = val n := by
          rcases hs.total (val b) (val p) with hc | hc | hc
          · have := bl b hb hc; rw [hbk, hs.irrefl] at this; cases this
          · have := br b hb hc; rw [hbk, hs.irrefl] at this; cases this
          · rw [← hc, hbk]
        rw [hval, hs.irrefl] at d2; cases d2
      · intro _
        refine ⟨tree.set_parent (tree.set_left h p (some n)) n (some p), ?_, d4, ?_, ?_, ?_, ?_⟩
        · unfold tree.insert
          rw [find_nearest_ref tw.rep tw.att hfuel, hft]
          simp [hps, d1, d2]
        · have hsp : (tree.set_parent (tree.set_left h p (some n)) n (some p)) sent = h sent := by
            rw [tree.set_parent_other _ _ _ (Ne.symm hns),
              tree.set_left_other _ _ _ (Ne.symm hps)]
          rw [hsp, tw.att, d5]
        · intro x hxt hxn hxs
          have hxp : x ≠ p := fun hc => hxt (by rw [hc]; exact hpm)
          rw [tree.set_parent_other _ _ _ hxn, tree.set_left_other _ _ _ hxp]
        · rw [tree.set_parent_other _ _ _ (Ne.symm hns),
            tree.set_left_other _ _ _ (Ne.symm hps)]
        · rw [tree.set_parent_other _ _ _ (Ne.symm hns),
            tree.set_left_other _ _ _ (Ne.symm hps)]

namespace bimap

variable {L R : Type}

lemma SRep.memL_lt {w : World L R} {b : Store L R} {tL tR : BT}
    (hs : SRep w b tL tR) : ∀ a ∈ tL.inorder, a < w.alloc := by
  intro a ha
  have := hs.evenL a ha
  omega

lemma SRep.memR_facts {w : World L R} {b : Store L R} {tL tR : BT}
    (hs : SRep w b tL tR) : ∀ x ∈ tR.inorder, x % 2 = 1 ∧ x < w.alloc := by
  intro x hx
  obtain ⟨a, ha, hax⟩ := hs.memR_iff.1 hx
  have := hs.evenL a ha
  omega

lemma SRep.disjLR {w : World L R} {b : Store L R} {tL tR : BT}
    (hs : SRep w b tL tR) : ∀ a ∈ tL.inorder, a ∉ tR.inorder := by
  intro a ha hc
  have h1 := hs.evenL a ha
  have h2 := hs.memR_facts a hc
  omega

lemma SRep.disjRL {w : World L R} {b : Store L R} {tL tR : BT}
    (hs : SRep w b tL tR) : ∀ x ∈ tR.inorder, x ∉ tL.inorder := by
  intro x hx hc
  have h1 := hs.evenL x hc
  have h2 := hs.memR_facts x hx
  omega

end bimap

namespace bimap

variable {L R : Type}

/-- Full specification of `bimap::base_insert`: a key collision on either side
returns `end_left` with world and store untouched; otherwise one fresh pair
record is linked into both engines, the counter grows by one and the left
position of the new record is returned. -/
lemma base_insert_spec {w : World L R} {b : Store L R}
    {tL tR : BT} (hs : SRep w b tL tR) (hoL : STO b.cmpL) (hoR : STO b.cmpR)
    {fuel : Nat} (hfL : tL.size ≤ fuel) (hfR : tR.size ≤ fuel) (l : L) (r : R) :
    ((hasVal b.cmpL w.valL tL l = true ∨ hasVal b.cmpR w.valR tR r = true) →
      base_insert w b fuel l r = some (w, b, b.sentL)) ∧
    (hasVal b.cmpL w.valL tL l = false → hasVal b.cmpR w.valR tR r = false →
      ∃ w' : World L R, base_insert w b fuel l r =
          some (w', ⟨b.sentL, b.sentR, b.siz + 1, b.cmpL, b.cmpR⟩, w.alloc) ∧
        SRep w' ⟨b.sentL, b.sentR, b.siz + 1, b.cmpL, b.cmpR⟩
          (insertT (fset w.valL w.alloc l) b.cmpL w.alloc tL)
          (insertT (fset w.valR (w.alloc + 1) r) b.cmpR (w.alloc + 1) tR) ∧
        w'.valL = fset w.valL w.alloc l ∧
        w'.valR = fset w.valR (w.alloc + 1) r ∧
        w'.alloc = w.alloc + 2 ∧
        (∀ x, x ∉ tL.inorder → x ∉ tR.inorder → x ≠ b.sentL → x ≠ b.sentR →
          x ≠ w.alloc → x ≠ w.alloc + 1 → w'.heap x = w.heap x)) := by
  constructor
  · intro hor
    rcases hor with hL | hR
    · obtain ⟨a, ha, hak, hfind⟩ := find_present hoL hs.twfL hfL hL
      have hne : a ≠ b.sentL := fun hc => hs.sLoutL (hc ▸ ha)
      unfold base_insert find_left find_right
      rw [hfind, find_ref hs.repR hs.attR hs.sRoutR hfR]
      simp [hne]
    · obtain ⟨a, ha, hak, hfind⟩ := find_present hoR hs.twfR hfR hR
      have hne : a ≠ b.sentR := fun hc => hs.sRoutR (hc ▸ ha)
      unfold base_insert find_left find_right
      rw [hfind, find_ref hs.repL hs.attL hs.sLoutL hfL]
      simp [hne]
  · intro habL habR
    have hfl := find_absent hoL hs.twfL hfL habL
    have hfr := find_absent hoR hs.twfR hfR habR
    unfold base_insert find_left find_right
    rw [hfl, hfr]
    dsimp only
    rw [if_neg (by simp)]
    have hLlt := hs.memL_lt
    have hRlt : ∀ x ∈ tR.inorder, x < w.alloc := fun x hx => (hs.memR_facts x hx).2
    have hh1 : ∀ x, x ≠ w.alloc → x ≠ w.alloc + 1 →
        (tree.set_node (tree.set_node w.heap w.alloc tree.node_base.nil)
          (w.alloc + 1) tree.node_base.nil) x = w.heap x := by
      intro x h1 h2
      rw [tree.set_node_other _ _ _ h2, tree.set_node_other _ _ _ h1]
    have hvLsame : ∀ a ∈ tL.inorder, fset w.valL w.alloc l a = w.valL a := by
      intro a ha
      unfold fset
      rw [if_neg (by have := hLlt a ha; omega)]
    have hvRsame : ∀ x ∈ tR.inorder, fset w.valR (w.alloc + 1) r x = w.valR x := by
      intro x hx
      unfold fset
      rw [if_neg (by have := hRlt x hx; omega)]
    have hvLaL : fset w.valL w.alloc l w.alloc = l := by unfold fset; simp
    have hvRaR : fset w.valR (w.alloc + 1) r (w.alloc + 1) = r := by unfold fset; simp
    have twL1 : TWF (tree.set_node (tree.set_node w.heap w.alloc tree.node_base.nil)
        (w.alloc + 1) tree.node_base.nil) b.sentL (fset w.valL w.alloc l) b.cmpL tL := by
      refine ⟨RepB_frame (fun a ha => hh1 a (by have := hLlt a ha; omega)
        (by have := hLlt a ha; omega)) hs.repL, ?_, hs.ndL, hs.sLoutL, ?_⟩
      · rw [hh1 _ (by have := hs.sLlt; omega) (by have := hs.sLlt; omega)]
        exact hs.attL
      · rw [bstB_congr hvLsame]
        exact hs.bstL
    have hforget1 : (tree.set_node (tree.set_node w.heap w.alloc tree.node_base.nil)
        (w.alloc + 1) tree.node_base.nil) w.alloc = tree.node_base.nil := by
      rw [tree.set_node_other _ _ _ (by omega)]
      simp
    have hnmemL : w.alloc ∉ tL.inorder := fun hc => by have := hLlt _ hc; omega
    have hnsentL : w.alloc ≠ b.sentL := fun hc => by have := hs.sLlt; omega
    have hnl0 : ((tree.set_node (tree.set_node w.heap w.alloc tree.node_base.nil)
        (w.alloc + 1) tree.node_base.nil) w.alloc).left = none := by
      rw [hforget1]; rfl
    have hnr0 : ((tree.set_node (tree.set_node w.heap w.alloc tree.node_base.nil)
        (w.alloc + 1) tree.node_base.nil) w.alloc).right = none := by
      rw [hforget1]; rfl
    have hins1 := insert_ref hoL twL1 hnmemL hnsentL hnl0 hnr0 hfL
    have habL1 : hasVal b.cmpL (fset w.valL w.alloc l) tL
        (fset w.valL w.alloc l w.alloc) = false := by
      rw [hvLaL, hasVal_congr hvLsame]
      exact habL
    obtain ⟨h2, hins2, hrep2, hatt2, hframe2, hsr2, hsp2⟩ := hins1.2 habL1
    rw [hins2]
    dsimp only
    have hh2base : ∀ x, x ∉ tL.inorder → x ≠ w.alloc → x ≠ w.alloc + 1 → x ≠ b.sentL →
        h2 x = w.heap x := by
      intro x hx h1 hplus hsL
      rw [hframe2 x hx h1 hsL, hh1 x h1 hplus]
    have twR2 : TWF h2 b.sentR (fset w.valR (w.alloc + 1) r) b.cmpR tR := by
      refine ⟨RepB_frame (fun x hx => hh2base x (hs.disjRL x hx)
        (by have := hRlt x hx; omega) (by have := hRlt x hx; omega)
        (fun hc => hs.sLoutR (hc ▸ hx))) hs.repR, ?_, hs.ndR, hs.sRoutR, ?_⟩
      · rw [hh2base _ hs.sRoutL (by have := hs.sRlt; omega)
          (by have := hs.sRlt; omega) (Ne.symm hs.sneq)]
        exact hs.attR
      · rw [bstB_congr hvRsame]
        exact hs.bstR
    have haR2 : h2 (w.alloc + 1) = tree.node_base.nil := by
      rw [hframe2 _ (fun hc => by have := hLlt _ hc; omega) (by omega)
        (fun hc => by have := hs.sLlt; omega)]
      simp
    have hnmemR : w.alloc + 1 ∉ tR.inorder := fun hc => by have := hRlt _ hc; omega
    have hnsentR : w.alloc + 1 ≠ b.sentR := fun hc => by have := hs.sRlt; omega
    have hnl0R : (h2 (w.alloc + 1)).left = none := by rw [haR2]; rfl
    have hnr0R : (h2 (w.alloc + 1)).right = none := by rw [haR2]; rfl
    have hins1R := insert_ref hoR twR2 hnmemR hnsentR hnl0R hnr0R hfR
    have habR1 : hasVal b.cmpR (fset w.valR (w.alloc + 1) r) tR
        (fset w.valR (w.alloc + 1) r (w.alloc + 1)) = false := by
      rw [hvRaR, hasVal_congr hvRsame]
      exact habR
    obtain ⟨h3, hins3, hrep3, hatt3, hframe3, hsr3, hsp3⟩ := hins1R.2 habR1
    rw [hins3]
    dsimp only
    refine ⟨⟨h3, fset w.valL w.alloc l, fset w.valR (w.alloc + 1) r, w.alloc + 2⟩,
      rfl, ?_, rfl, rfl, rfl, ?_⟩
    · have permL : (insertT (fset w.valL w.alloc l) b.cmpL w.alloc tL).inorder.Perm
          (w.alloc :: tL.inorder) := insertT_inorder_perm habL1
      have permR : (insertT (fset w.valR (w.alloc + 1) r) b.cmpR (w.alloc + 1) tR).inorder.Perm
          ((w.alloc + 1) :: tR.inorder) := insertT_inorder_perm habR1
      have frame3' : ∀ a ∈ (insertT (fset w.valL w.alloc l) b.cmpL w.alloc tL).inorder,
          h3 a = h2 a := by
        intro a ha
        rcases List.mem_cons.1 (permL.mem_iff.1 ha) with hc | hc
        · subst hc
          exact hframe3 w.alloc (fun hd => by have := hRlt _ hd; omega) (by omega)
            (fun hd => by have := hs.sRlt; omega)
        · exact hframe3 a (hs.disjLR a hc) (by have := hLlt a hc; omega)
            (fun hd => hs.sRoutL (by rw [← hd]; exact hc))
      have hsL3 : h3 b.sentL = h2 b.sentL :=
        hframe3 b.sentL hs.sLoutR (by have := hs.sLlt; omega) hs.sneq
      have hsL1 : (tree.set_node (tree.set_node w.heap w.alloc tree.node_base.nil)
          (w.alloc + 1) tree.node_base.nil) b.sentL = w.heap b.sentL :=
        hh1 _ (by have := hs.sLlt; omega) (by have := hs.sLlt; omega)
      have hsR2 : h2 b.sentR = w.heap b.sentR :=
        hh2base _ hs.sRoutL (by have := hs.sRlt; omega) (by have := hs.sRlt; omega)
          (Ne.symm hs.sneq)
      refine ⟨?_, ?_, ?_, ?_, ?_, ?_, ?_, ?_, ?_, ?_, ?_, ?_, ?_, ?_, ?_, ?_, ?_, ?_, ?_, ?_, ?_, ?_⟩ <;>
        (try dsimp only)
      · exact RepB_frame frame3' hrep2
      · rw [hsL3, hatt2]
      · rw [hsL3, hsp2, hsL1, hs.parL]
      · rw [hsL3, hsr2, hsL1, hs.lnkL]
      · exact hrep3
      · exact hatt3
      · rw [hsp3, hsR2, hs.parR]
      · rw [hsr3, hsR2, hs.lnkR]
      · rw [permL.nodup_iff, List.nodup_cons]
        exact ⟨fun hc => by have := hLlt _ hc; omega, hs.ndL⟩
      · exact insertT_bst twL1.bst
      · exact insertT_bst twR2.bst
      · refine permR.trans (((hs.pairR).cons (w.alloc + 1)).trans ?_)
        have hmap : (w.alloc + 1) :: tL.inorder.map (fun a => a + 1) =
            (w.alloc :: tL.inorder).map (fun a => a + 1) := rfl
        rw [hmap]
        exact (permL.map (fun a => a + 1)).symm
      · intro a ha
        rcases List.mem_cons.1 (permL.mem_iff.1 ha) with hc | hc
        · subst hc
          refine ⟨hs.alEven, by omega⟩
        · have := hs.evenL a hc
          exact ⟨this.1, by omega⟩
      · intro hc
        rcases List.mem_cons.1 (permL.mem_iff.1 hc) with hd | hd
        · have := hs.sLlt; omega
        · exact hs.sLoutL hd
      · intro hc
        rcases List.mem_cons.1 (permR.mem_iff.1 hc) with hd | hd
        · have := hs.sLlt; omega
        · exact hs.sLoutR hd
      · intro hc
        rcases List.mem_cons.1 (permL.mem_iff.1 hc) with hd | hd
        · have := hs.sRlt; omega
        · exact hs.sRoutL hd
      · intro hc
        rcases List.mem_cons.1 (permR.mem_iff.1 hc) with hd | hd
        · have := hs.sRlt; omega
        · exact hs.sRoutR hd
      · exact hs.sneq
      · have := hs.sLlt; omega
      · have := hs.sRlt; omega
      · rw [permL.length_eq]
        simp [hs.szEq]
      · have := hs.alEven; omega
    · intro x hxtl hxtr hxsl hxsr hxa hxa1
      dsimp only
      rw [hframe3 x hxtr hxa1 hxsr, hframe2 x hxtl hxa hxsl, hh1 x hxa hxa1]

end bimap

/-- C2: `insert` rejects with `end_left` and leaves world and store literally
unchanged when the left key or the right key is already present; otherwise it
links exactly one new pair record (left identity at `alloc`, right at
`alloc + 1`) carrying the two given values into both engines, increments the
counter by one, keeps every old pair intact, and returns the left position of
the new pair.  There is no partial insertion in any case. -/
theorem C2_insert_rejects_or_adds_pair {L R : Type} (w : bimap.World L R)
    (b : bimap.Store L R) (tL tR : BT) (hs : bimap.SRep w b tL tR)
    (hoL : STO b.cmpL) (hoR : STO b.cmpR) (fuel : Nat)
    (hfL : tL.size ≤ fuel) (hfR : tR.size ≤ fuel) (l : L) (r : R) :
    ((hasVal b.cmpL w.valL tL l = true ∨ hasVal b.cmpR w.valR tR r = true) →
      bimap.insert w b fuel l r = some (w, b, b.sentL)) ∧
    (hasVal b.cmpL w.valL tL l = false → hasVal b.cmpR w.valR tR r = false →
      ∃ w' : bimap.World L R, ∃ tL' tR' : BT,
        bimap.insert w b fuel l r =
          some (w', ⟨b.sentL, b.sentR, b.siz + 1, b.cmpL, b.cmpR⟩, w.alloc) ∧
        bimap.SRep w' ⟨b.sentL, b.sentR, b.siz + 1, b.cmpL, b.cmpR⟩ tL' tR' ∧
        tL'.inorder.Perm (w.alloc :: tL.inorder) ∧
        tR'.inorder.Perm ((w.alloc + 1) :: tR.inorder) ∧
        w'.valL w.alloc = l ∧ w'.valR (w.alloc + 1) = r ∧
        (∀ a ∈ tL.inorder, w'.valL a = w.valL a) ∧
        (∀ x ∈ tR.inorder, w'.valR x = w.valR x)) := by
  obtain ⟨hrej, hadd⟩ := bimap.base_insert_spec hs hoL hoR hfL hfR l r
  refine ⟨hrej, ?_⟩
  intro habL habR
  obtain ⟨w', hres, hsrep, hvl, hvr, hal, hframe⟩ := hadd habL habR
  have hLlt := hs.memL_lt
  have hRlt : ∀ x ∈ tR.inorder, x < w.alloc := fun x hx => (hs.memR_facts x hx).2
  have hvLsame : ∀ a ∈ tL.inorder, bimap.fset w.valL w.alloc l a = w.valL a := by
    intro a ha
    unfold bimap.fset
    rw [if_neg (by have := hLlt a ha; omega)]
  have hvRsame : ∀ x ∈ tR.inorder, bimap.fset w.valR (w.alloc + 1) r x = w.valR x := by
    intro x hx
    unfold bimap.fset
    rw [if_neg (by have := hRlt x hx; omega)]
  have habL1 : hasVal b.cmpL (bimap.fset w.valL w.alloc l) tL
      (bimap.fset w.valL w.alloc l w.alloc) = false := by
    have : bimap.fset w.valL w.alloc l w.alloc = l := by unfold bimap.fset; simp
    rw [this, hasVal_congr hvLsame]
    exact habL
  have habR1 : hasVal b.cmpR (bimap.fset w.valR (w.alloc + 1) r) tR
      (bimap.fset w.valR (w.alloc + 1) r (w.alloc + 1)) = false := by
    have : bimap.fset w.valR (w.alloc + 1) r (w.alloc + 1) = r := by
      unfold bimap.fset; simp
    rw [this, hasVal_congr hvRsame]
    exact habR
  refine ⟨w', _, _, hres, hsrep, insertT_inorder_perm habL1, insertT_inorder_perm habR1,
    ?_, ?_, ?_, ?_⟩
  · rw [hvl]; unfold bimap.fset; simp
  · rw [hvr]; unfold bimap.fset; simp
  · intro a ha; rw [hvl]; exact hvLsame a ha
  · intro x hx; rw [hvr]; exact hvRsame x hx

theorem C2_witness : bimap.insert wOne bOne 2 5 7 = some (wOne, bOne, 0) :=
  (C2_insert_rejects_or_adds_pair wOne bOne tLOne tROne SRep_One STO_intLt STO_intLt 2
    (by decide) (by decide) 5 7).1 (Or.inl (by decide))

/-!
## Shape-level erase lemmas
-/

/-- The in-order list splits as the trimmed shape followed by the maximum. -/
lemma delMax_inorder : ∀ {t : BT}, t ≠ .leaf →
    (delMax t).inorder ++ [maxA t] = t.inorder := by
  intro t
  induction t with
  | leaf => intro h; exact absurd rfl h
  | node l x r ihl ihr =>
    intro _
    rw [delMax, maxA]
    by_cases hr : r = BT.leaf
    · rw [if_pos hr, if_pos hr, hr]
      simp
    · rw [if_neg hr, if_neg hr]
      have ih := ihr hr
      simp only [BT.inorder_node, List.append_assoc, List.cons_append, List.nil_append] at ih ⊢
      rw [← ih]

lemma maxA_mem {t : BT} (ht : t ≠ .leaf) : maxA t ∈ t.inorder := by
  have := delMax_inorder ht
  rw [← this]
  simp

lemma maxA_not_mem_delMax {t : BT} (ht : t ≠ .leaf) (hnd : t.inorder.Nodup) :
    maxA t ∉ (delMax t).inorder := by
  have hsplit := delMax_inorder ht
  rw [← hsplit] at hnd
  rw [List.nodup_append] at hnd
  intro hc
  exact (hnd.2.2 hc) (by simp)

lemma delMax_nodup {t : BT} (ht : t ≠ .leaf) (hnd : t.inorder.Nodup) :
    (delMax t).inorder.Nodup := by
  have hsplit := delMax_inorder ht
  rw [← hsplit, List.nodup_append] at hnd
  exact hnd.1

lemma delMax_rootOf {l : BT} {x : Nat} {r : BT} (hr : r ≠ .leaf) :
    rootOf (delMax (.node l x r)) = some x := by
  rw [delMax, if_neg hr]
  rfl

/-- Erasing an absent address leaves the shape unchanged. -/
lemma eraseT_not_mem : ∀ {t : BT} {a : Nat}, a ∉ t.inorder → eraseT a t = t := by
  intro t
  induction t with
  | leaf => intro a _; rfl
  | node l x r ihl ihr =>
    intro a ha
    rw [eraseT]
    rw [if_neg (fun hc => ha (by simp [hc]))]
    rw [ihl (fun hc => ha (by simp [hc])), ihr (fun hc => ha (by simp [hc]))]

/-- Erasing a present address removes exactly that occurrence from the
in-order list. -/
lemma eraseT_inorder_split : ∀ {t : BT}, t.inorder.Nodup → ∀ {a : Nat}, a ∈ t.inorder →
    ∃ l1 l2, t.inorder = l1 ++ a :: l2 ∧ (eraseT a t).inorder = l1 ++ l2 := by
  intro t
  induction t with
  | leaf => intro _ a ha; simp at ha
  | node l x r ihl ihr =>
    intro hnd a ha
    obtain ⟨hndl, hndr, hxnl, hxnr, hlr⟩ := nodup_node hnd
    rw [eraseT]
    by_cases hax : x = a
    · subst hax
      rw [if_pos rfl]
      by_cases hl : l = BT.leaf
      · rw [if_pos hl, hl]
        exact ⟨[], r.inorder, by simp, by simp⟩
      · rw [if_neg hl]
        by_cases hr : r = BT.leaf
        · rw [if_pos hr, hr]
          exact ⟨l.inorder, [], by simp, by simp⟩
        · rw [if_neg hr]
          refine ⟨l.inorder, r.inorder, by simp, ?_⟩
          have hsplit := delMax_inorder hl
          rw [BT.inorder_node, ← hsplit]
          simp
    · rw [if_neg hax]
      rcases (by simpa using ha : a ∈ l.inorder ∨ a = x ∨ a ∈ r.inorder) with hc | hc | hc
      · obtain ⟨l1, l2, he1, he2⟩ := ihl hndl hc
        refine ⟨l1, l2 ++ x :: r.inorder, ?_, ?_⟩
        · rw [BT.inorder_node, he1]; simp
        · rw [BT.inorder_node, he2, eraseT_not_mem (fun hd => hlr a hc hd)]
          simp
      · exact absurd hc.symm hax
      · obtain ⟨l1, l2, he1, he2⟩ := ihr hndr hc
        refine ⟨l.inorder ++ x :: l1, l2, ?_, ?_⟩
        · rw [BT.inorder_node, he1]; simp
        · rw [BT.inorder_node, he2, eraseT_not_mem (fun hd => hlr a hd hc)]
          simp

/-- Search-tree order is exactly strict sortedness of the in-order list. -/
lemma bstB_iff_pairwise {K : Type} {lt : K → K → Bool} {val : Nat → K} (hs : STO lt) :
    ∀ {t : BT}, bstB lt val t = true ↔
      List.Pairwise (fun a b => lt (val a) (val b) = true) t.inorder := by
  intro t
  induction t with
  | leaf => simp [bstB]
  | node l x r ihl ihr =>
    rw [bstB_node, BT.inorder_node, List.pairwise_append]
    constructor
    · rintro ⟨hbl, hbr, hl, hr⟩
      refine ⟨ihl.1 hl, ?_, ?_⟩
      · rw [List.pairwise_cons]
        exact ⟨hbr, ihr.1 hr⟩
      · intro a ha b hb
        rcases List.mem_cons.1 hb with hb | hb
        · rw [hb]; exact hbl a ha
        · exact hs.trans _ _ _ (hbl a ha) (hbr b hb)
    · rintro ⟨hpl, hpxr, hcross⟩
      rw [List.pairwise_cons] at hpxr
      refine ⟨?_, hpxr.1, ihl.2 hpl, ihr.2 hpxr.2⟩
      intro b hb
      exact hcross b hb x (by simp)

/-- Erasing preserves search-tree order. -/
lemma eraseT_bst {K : Type} {lt : K → K → Bool} {val : Nat → K} (hs : STO lt)
    {t : BT} (hnd : t.inorder.Nodup) (hbst : bstB lt val t = true) (a : Nat) :
    bstB lt val (eraseT a t) = true := by
  by_cases ha : a ∈ t.inorder
  · obtain ⟨l1, l2, he1, he2⟩ := eraseT_inorder_split hnd ha
    rw [bstB_iff_pairwise hs] at hbst ⊢
    rw [he2]
    rw [he1] at hbst
    exact hbst.sublist ((List.sublist_cons_self a l2).append_left l1)
  · rw [eraseT_not_mem ha]
    exact hbst

/-- The rightmost descent reaches the in-order maximum. -/
lemma rightmost_loop_ref {h : tree.Heap} : ∀ {t : BT} {q rt fuel : Nat},
    RepB h q t = true → rootOf t = some rt → t.size ≤ fuel →
    tree.rightmost_loop h fuel rt = some (maxA t) := by
  intro t
  induction t with
  | leaf => intro q rt fuel _ hroot _; simp [rootOf] at hroot
  | node l x r ihl ihr =>
    intro q rt fuel hrep hroot hfuel
    obtain rfl : x = rt := by simpa [rootOf] using hroot
    rw [RepB_node] at hrep
    obtain ⟨hp, hlft, hrgt, hrl, hrr⟩ := hrep
    rw [BT.size_node] at hfuel
    obtain ⟨f, rfl⟩ : ∃ f, fuel = f + 1 := ⟨fuel - 1, by omega⟩
    rw [tree.rightmost_loop, hrgt, maxA]
    cases r with
    | leaf => simp [rootOf]
    | node rl c rr =>
      rw [if_neg (by simp)]
      simp only [rootOf]
      exact ihr hrr rfl (by rw [BT.size_node] at hfuel ⊢; omega)

/-- Address of the leftmost (minimal) node; junk on the empty shape. -/
def minA : BT → Nat
  | .leaf => 0
  | .node l a _ => if l = .leaf then a else minA l

/-- The minimum heads the in-order list. -/
lemma minA_head : ∀ {t : BT}, t ≠ .leaf → ∃ rest, t.inorder = minA t :: rest := by
  intro t
  induction t with
  | leaf => intro h; exact absurd rfl h
  | node l x r ihl ihr =>
    intro _
    rw [minA]
    by_cases hl : l = BT.leaf
    · rw [if_pos hl, hl]
      exact ⟨r.inorder, by simp⟩
    · rw [if_neg hl]
      obtain ⟨rest, hrest⟩ := ihl hl
      exact ⟨rest ++ x :: r.inorder, by rw [BT.inorder_node, hrest]; simp⟩

/-- The leftmost descent reaches the in-order minimum. -/
lemma leftmost_loop_ref {h : tree.Heap} : ∀ {t : BT} {q rt fuel : Nat},
    RepB h q t = true → rootOf t = some rt → t.size ≤ fuel →
    tree.leftmost_loop h fuel rt = some (minA t) := by
  intro t
  induction t with
  | leaf => intro q rt fuel _ hroot _; simp [rootOf] at hroot
  | node l x r ihl ihr =>
    intro q rt fuel hrep hroot hfuel
    obtain rfl : x = rt := by simpa [rootOf] using hroot
    rw [RepB_node] at hrep
    obtain ⟨hp, hlft, hrgt, hrl, hrr⟩ := hrep
    rw [BT.size_node] at hfuel
    obtain ⟨f, rfl⟩ : ∃ f, fuel = f + 1 := ⟨fuel - 1, by omega⟩
    rw [tree.leftmost_loop, hlft, minA]
    cases l with
    | leaf => simp [rootOf]
    | node ll c lr =>
      rw [if_neg (by simp)]
      simp only [rootOf]
      exact ihl hrl rfl (by rw [BT.size_node] at hfuel ⊢; omega)

/-- Unlinking the in-order maximum of a subtree from its parent
(`new_root->set_new_child_for_parent(new_root->left)` in `erase`): the parent
slot holding the subtree now holds the trimmed shape, everything else —
including the unlinked node's own fields — is untouched. -/
lemma unlinkMax {h : tree.Heap} : ∀ {l : BT} {x : Nat} {s : Bool},
    RepB h x l = true → l.inorder.Nodup → x ∉ l.inorder → l ≠ .leaf →
    (if s then (h x).left = rootOf l else (h x).right = rootOf l) →
    (s = false → (h x).left ≠ rootOf l) →
    ∃ h1, tree.set_new_child_for_parent h (maxA l) ((h (maxA l)).left) = some h1 ∧
      RepB h1 x (delMax l) = true ∧
      (if s then (h1 x).left = rootOf (delMax l) ∧ (h1 x).right = (h x).right
       else (h1 x).right = rootOf (delMax l) ∧ (h1 x).left = (h x).left) ∧
      (h1 x).parent = (h x).parent ∧
      (∀ z, z ∉ l.inorder → z ≠ x → h1 z = h z) ∧
      h1 (maxA l) = h (maxA l) := by
  intro l
  induction l with
  | leaf => intro x s _ _ _ hne _ _; exact absurd rfl hne
  | node ll y lr ihl ihr =>
    intro x s hrep hnd hx _ hslot hother
    rw [RepB_node] at hrep
    obtain ⟨hyp, hyl, hyr, hrl, hrr⟩ := hrep
    obtain ⟨hndl, hndr, hynl, hynr, hlr⟩ := nodup_node hnd
    have hxy : x ≠ y := fun hc => hx (by simp [hc])
    by_cases hre : lr = BT.leaf
    · subst hre
      have hmax : maxA (BT.node ll y BT.leaf) = y := by rw [maxA]; simp
      have hdel : delMax (BT.node ll y BT.leaf) = ll := by rw [delMax]; simp
      rw [hmax, hdel]
      have hroot : rootOf (BT.node ll y BT.leaf) = some y := rfl
      unfold tree.set_new_child_for_parent
      rw [hyp]
      dsimp only
      cases s with
      | true =>
        have hslot' : (h x).left = some y := by
          rw [hroot] at hslot
          simpa using hslot
        rw [if_pos (by rw [hslot']; simp), hyl]
        cases hll : ll with
        | leaf =>
          simp only [rootOf]
          refine ⟨tree.set_left h x none, rfl, by simp [RepB], ?_, ?_, ?_, ?_⟩
          · simp
          · simp
          · intro z hz hzx
            rw [tree.set_left_other _ _ _ hzx]
          · rw [tree.set_left_other _ _ _ hxy.symm]
        | node lll z llrr =>
          simp only [rootOf]
          refine ⟨_, rfl, ?_, ?_, ?_, ?_, ?_⟩
          · rw [RepB_node]
            subst hll
            rw [RepB_node] at hrl
            obtain ⟨hzp, hzl, hzr, hrll, hrlr⟩ := hrl
            have hzx : z ≠ x := fun hc => hx (by simp [← hc])
            have hzy : z ≠ y := fun hc => hynl (by simp [← hc])
            refine ⟨by simp, ?_, ?_, ?_, ?_⟩
            · rw [tree.set_parent_left, tree.set_left_other _ _ _ hzx]
              exact hzl
            · rw [tree.set_parent_right, tree.set_left_other _ _ _ hzx]
              exact hzr
            · refine RepB_frame ?_ hrll
              intro w hw
              have hwz : w ≠ z := fun hc => by
                have := nodup_node hndl
                exact this.2.2.1 (by rw [← hc]; exact hw)
              have hwx : w ≠ x := fun hc => hx (by subst hc; simp [hw])
              rw [tree.set_parent_other _ _ _ hwz, tree.set_left_other _ _ _ hwx]
            · refine RepB_frame ?_ hrlr
              intro w hw
              have hwz : w ≠ z := fun hc => by
                have := nodup_node hndl
                exact this.2.2.2.1 (by rw [← hc]; exact hw)
              have hwx : w ≠ x := fun hc => hx (by subst hc; simp [hw])
              rw [tree.set_parent_other _ _ _ hwz, tree.set_left_other _ _ _ hwx]
          · subst hll
            have hzx : z ≠ x := fun hc => hx (by simp [← hc])
            rw [tree.set_parent_other _ _ _ hzx.symm]
            simp
          · subst hll
            have hzx : z ≠ x := fun hc => hx (by simp [← hc])
            rw [tree.set_parent_other _ _ _ hzx.symm]
            simp
          · intro w hw hwx
            subst hll
            have hwz : w ≠ z := fun hc => hw (by rw [hc]; simp)
            rw [tree.set_parent_other _ _ _ hwz, tree.set_left_other _ _ _ hwx]
          · subst hll
            have hzy : z ≠ y := fun hc => hynl (by simp [← hc])
            rw [tree.set_parent_other _ _ _ hzy.symm,
              tree.set_left_other _ _ _ hxy.symm]
      | false =>
        have hother2 : (h x).left ≠ some y := by
          have hne := hother rfl
          rw [hroot] at hne
          exact hne
        rw [if_neg (by
          simp only [beq_iff_eq]
          exact hother2), hyl]
        cases hll : ll with
        | leaf =>
          simp only [rootOf]
          refine ⟨tree.set_right h x none, rfl, by simp [RepB], ?_, ?_, ?_, ?_⟩
          · simp
          · simp
          · intro z hz hzx
            rw [tree.set_right_other _ _ _ hzx]
          · rw [tree.set_right_other _ _ _ hxy.symm]
        | node lll z llrr =>
          simp only [rootOf]
          refine ⟨_, rfl, ?_, ?_, ?_, ?_, ?_⟩
          · rw [RepB_node]
            subst hll
            rw [RepB_node] at hrl
            obtain ⟨hzp, hzl, hzr, hrll, hrlr⟩ := hrl
            have hzx : z ≠ x := fun hc => hx (by simp [← hc])
            refine ⟨by simp, ?_, ?_, ?_, ?_⟩
            · rw [tree.set_parent_left, tree.set_right_other _ _ _ hzx]
              exact hzl
            · rw [tree.set_parent_right, tree.set_right_other _ _ _ hzx]
              exact hzr
            · refine RepB_frame ?_ hrll
              intro w hw
              have hwz : w ≠ z := fun hc => by
                have := nodup_node hndl
                exact this.2.2.1 (by rw [← hc]; exact hw)
              have hwx : w ≠ x := fun hc => hx (by subst hc; simp [hw])
              rw [tree.set_parent_other _ _ _ hwz, tree.set_right_other _ _ _ hwx]
            · refine RepB_frame ?_ hrlr
              intro w hw
              have hwz : w ≠ z := fun hc => by
                have := nodup_node hndl
                exact this.2.2.2.1 (by rw [← hc]; exact hw)
              have hwx : w ≠ x := fun hc => hx (by subst hc; simp [hw])
              rw [tree.set_parent_other _ _ _ hwz, tree.set_right_other _ _ _ hwx]
          · subst hll
            have hzx : z ≠ x := fun hc => hx (by simp [← hc])
            rw [tree.set_parent_other _ _ _ hzx.symm]
            simp
          · subst hll
            have hzx : z ≠ x := fun hc => hx (by simp [← hc])
            rw [tree.set_parent_other _ _ _ hzx.symm]
            simp
          · intro w hw hwx
            subst hll
            have hwz : w ≠ z := fun hc => hw (by rw [hc]; simp)
            rw [tree.set_parent_other _ _ _ hwz, tree.set_right_other _ _ _ hwx]
          · subst hll
            have hzy : z ≠ y := fun hc => hynl (by simp [← hc])
            rw [tree.set_parent_other _ _ _ hzy.symm,
              tree.set_right_other _ _ _ hxy.symm]
    · have hmax : maxA (BT.node ll y lr) = maxA lr := by rw [maxA, if_neg hre]
      have hdel : delMax (BT.node ll y lr) = BT.node ll y (delMax lr) := by
        rw [delMax, if_neg hre]
      have hother' : (h y).left ≠ rootOf lr := by
        rw [hyl]
        cases lr with
        | leaf => exact absurd rfl hre
        | node rl c rr =>
          cases ll with
          | leaf => simp [rootOf]
          | node l1 d l2 =>
            simp only [rootOf, ne_eq, Option.some.injEq]
            intro hc
            exact hlr d (by simp) (by rw [hc]; simp)
      have hslotR : (if false then (h y).left = rootOf lr
          else (h y).right = rootOf lr) := by simpa using hyr
      obtain ⟨h1, hset, hrep1, hslot1, hpar1, hframe1, hmax1⟩ :=
        ihr hrr hndr hynr hre hslotR (fun _ => hother')
      have hs1 : (h1 y).right = rootOf (delMax lr) ∧ (h1 y).left = (h y).left := by
        simpa using hslot1
      rw [hmax, hdel]
      have hx1 : h1 x = h x :=
        hframe1 x (fun hc => hx (by simp [hc])) hxy
      refine ⟨h1, hset, ?_, ?_, by rw [hx1], ?_, hmax1⟩
      · rw [RepB_node]
        refine ⟨by rw [hpar1, hyp], by rw [hs1.2, hyl], by rw [hs1.1], ?_, hrep1⟩
        refine RepB_frame ?_ hrl
        intro w hw
        exact hframe1 w (fun hc => hlr w hw hc) (fun hc => hynl (by rw [← hc]; exact hw))
      · cases s with
        | true =>
          have hslot' : (h x).left = rootOf (BT.node ll y lr) := by simpa using hslot
          simp only [if_true]
          rw [hx1]
          exact ⟨by rw [hslot']; rfl, rfl⟩
        | false =>
          have hslot' : (h x).right = rootOf (BT.node ll y lr) := by simpa using hslot
          simp only [Bool.false_eq_true, if_false]
          rw [hx1]
          exact ⟨by rw [hslot']; rfl, rfl⟩
      · intro z hz hzx
        refine hframe1 z (fun hc => hz (by simp [hc])) (fun hc => hz (by simp [hc]))

/-- The root address of a nonempty shape is one of its members. -/
lemma rootOf_mem {t : BT} {c : Nat} (h : rootOf t = some c) : c ∈ t.inorder := by
  cases t with
  | leaf => simp [rootOf] at h
  | node l a r =>
    obtain rfl : a = c := by simpa [rootOf] using h
    simp

/-- Members of the trimmed shape are members of the shape. -/
lemma mem_of_mem_delMax {t : BT} (ht : t ≠ .leaf) {w : Nat}
    (hw : w ∈ (delMax t).inorder) : w ∈ t.inorder := by
  rw [← delMax_inorder ht]
  simp [hw]

/-- `intrusive_tree::erase(node_ptr_t)` refines the shape-level `eraseT`:
erasing a represented node succeeds, returns that node, leaves the erased
shape represented under the same parent slot, and touches no address outside
the subtree and the slot holder. -/
lemma erase_ref {h : tree.Heap} : ∀ {t : BT} {x : Nat} {s : Bool} {a fuel : Nat},
    RepB h x t = true → t.inorder.Nodup → x ∉ t.inorder → a ∈ t.inorder →
    (if s then (h x).left = rootOf t else (h x).right = rootOf t) →
    (s = false → (h x).left ≠ rootOf t) →
    t.size ≤ fuel →
    ∃ h', tree.erase h fuel (some a) = some (h', some a) ∧
      RepB h' x (eraseT a t) = true ∧
      (if s then (h' x).left = rootOf (eraseT a t) ∧ (h' x).right = (h x).right
       else (h' x).right = rootOf (eraseT a t) ∧ (h' x).left = (h x).left) ∧
      (h' x).parent = (h x).parent ∧
      (∀ z, z ∉ t.inorder → z ≠ x → h' z = h z) ∧
      (h' a).parent = (h a).parent := by
  intro t
  induction t with
  | leaf => intro x s a fuel _ _ _ hmem _ _ _; simp at hmem
  | node l c r ihl ihr =>
    intro x s a fuel hrep hnd hx hmem hslot hother hfuel
    rw [RepB_node] at hrep
    obtain ⟨hcp, hcl, hcr, hrl, hrr⟩ := hrep
    obtain ⟨hndl, hndr, hcnl, hcnr, hlr⟩ := nodup_node hnd
    have hcx : c ≠ x := fun hc0 => hx (by simp [← hc0])
    rw [BT.size_node] at hfuel
    by_cases hac : a = c
    · subst hac
      by_cases hl : l = BT.leaf
      · by_cases hr : r = BT.leaf
        · -- no children
          subst hl; subst hr
          have hal0 : (h a).left = none := by simpa [rootOf] using hcl
          have har0 : (h a).right = none := by simpa [rootOf] using hcr
          have herase : eraseT a (BT.node BT.leaf a BT.leaf) = BT.leaf := by
            rw [eraseT, if_pos rfl, if_pos rfl]
          cases s with
          | true =>
            have hs1 : (h x).left = some a := by simpa [rootOf] using hslot
            have heq : tree.erase h fuel (some a) =
                some (tree.set_left h x none, some a) := by
              unfold tree.erase
              dsimp only
              rw [hal0, har0]
              dsimp only
              unfold tree.set_new_child_for_parent
              rw [hcp]
              dsimp only
              rw [if_pos (by rw [hs1]; simp)]
              rfl
            refine ⟨_, heq, ?_, ?_, by simp, ?_, by rw [tree.set_left_other _ _ _ hcx]⟩
            · rw [herase]; rfl
            · rw [herase, if_pos rfl]
              simp [rootOf]
            · intro z hz hzx
              rw [tree.set_left_other _ _ _ hzx]
          | false =>
            have hs1 : (h x).left ≠ some a := by
              have hne := hother rfl
              simpa [rootOf] using hne
            have heq : tree.erase h fuel (some a) =
                some (tree.set_right h x none, some a) := by
              unfold tree.erase
              dsimp only
              rw [hal0, har0]
              dsimp only
              unfold tree.set_new_child_for_parent
              rw [hcp]
              dsimp only
              rw [if_neg (by simp only [beq_iff_eq]; exact hs1)]
              rfl
            refine ⟨_, heq, ?_, ?_, by simp, ?_, by rw [tree.set_right_other _ _ _ hcx]⟩
            · rw [herase]; rfl
            · rw [herase, if_neg (by simp)]
              simp [rootOf]
            · intro z hz hzx
              rw [tree.set_right_other _ _ _ hzx]
        · -- only a right child
          subst hl
          obtain ⟨rl, ra, rr, rfl⟩ : ∃ rl ra rr, r = BT.node rl ra rr := by
            cases r with
            | leaf => exact absurd rfl hr
            | node p q t2 => exact ⟨p, q, t2, rfl⟩
          have hal0 : (h a).left = none := by simpa [rootOf] using hcl
          have har0 : (h a).right = some ra := by simpa [rootOf] using hcr
          have herase : eraseT a (BT.node BT.leaf a (BT.node rl ra rr)) =
              BT.node rl ra rr := by
            rw [eraseT, if_pos rfl, if_pos rfl]
          rw [RepB_node] at hrr
          obtain ⟨hrap, hral, hrar, hrrl, hrrr⟩ := hrr
          obtain ⟨hndrl, hndrr, hra_nrl, hra_nrr, hrlr2⟩ := nodup_node hndr
          have hrax : ra ≠ x := fun hc0 => hx (by rw [← hc0]; simp)
          have hraa : ra ≠ a := fun hc0 => hcnr (by rw [← hc0]; simp)
          cases s with
          | true =>
            have hs1 : (h x).left = some a := by simpa [rootOf] using hslot
            have heq : tree.erase h fuel (some a) = some
                (tree.set_parent (tree.set_left h x (some ra)) ra (some x), some a) := by
              unfold tree.erase
              dsimp only
              rw [hal0, har0]
              dsimp only
              unfold tree.set_new_child_for_parent
              rw [hcp]
              dsimp only
              rw [if_pos (by rw [hs1]; simp)]
              rfl
            refine ⟨_, heq, ?_, ?_, ?_, ?_, by rw [tree.set_parent_other _ _ _ (Ne.symm hraa), tree.set_left_other _ _ _ hcx]⟩
            · rw [herase, RepB_node]
              refine ⟨by simp, ?_, ?_, ?_, ?_⟩
              · rw [tree.set_parent_left, tree.set_left_other _ _ _ hrax]
                exact hral
              · rw [tree.set_parent_right, tree.set_left_other _ _ _ hrax]
                exact hrar
              · refine RepB_frame ?_ hrrl
                intro w hw
                have hwra : w ≠ ra := fun hc0 => hra_nrl (hc0 ▸ hw)
                have hwx : w ≠ x := fun hc0 => hx (by rw [← hc0]; simp [hw])
                rw [tree.set_parent_other _ _ _ hwra, tree.set_left_other _ _ _ hwx]
              · refine RepB_frame ?_ hrrr
                intro w hw
                have hwra : w ≠ ra := fun hc0 => hra_nrr (hc0 ▸ hw)
                have hwx : w ≠ x := fun hc0 => hx (by rw [← hc0]; simp [hw])
                rw [tree.set_parent_other _ _ _ hwra, tree.set_left_other _ _ _ hwx]
            · rw [herase, if_pos rfl]
              rw [tree.set_parent_other _ _ _ (Ne.symm hrax)]
              simp [rootOf]
            · rw [tree.set_parent_other _ _ _ (Ne.symm hrax)]
              simp
            · intro z hz hzx
              have hzra : z ≠ ra := fun hc0 => hz (by rw [hc0]; simp)
              rw [tree.set_parent_other _ _ _ hzra, tree.set_left_other _ _ _ hzx]
          | false =>
            have hs1 : (h x).left ≠ some a := by
              have hne := hother rfl
              simpa [rootOf] using hne
            have heq : tree.erase h fuel (some a) = some
                (tree.set_parent (tree.set_right h x (some ra)) ra (some x), some a) := by
              unfold tree.erase
              dsimp only
              rw [hal0, har0]
              dsimp only
              unfold tree.set_new_child_for_parent
              rw [hcp]
              dsimp only
              rw [if_neg (by simp only [beq_iff_eq]; exact hs1)]
              rfl
            refine ⟨_, heq, ?_, ?_, ?_, ?_, by rw [tree.set_parent_other _ _ _ (Ne.symm hraa), tree.set_right_other _ _ _ hcx]⟩
            · rw [herase, RepB_node]
              refine ⟨by simp, ?_, ?_, ?_, ?_⟩
              · rw [tree.set_parent_left, tree.set_right_other _ _ _ hrax]
                exact hral
              · rw [tree.set_parent_right, tree.set_right_other _ _ _ hrax]
                exact hrar
              · refine RepB_frame ?_ hrrl
                intro w hw
                have hwra : w ≠ ra := fun hc0 => hra_nrl (hc0 ▸ hw)
                have hwx : w ≠ x := fun hc0 => hx (by rw [← hc0]; simp [hw])
                rw [tree.set_parent_other _ _ _ hwra, tree.set_right_other _ _ _ hwx]
              · refine RepB_frame ?_ hrrr
                intro w hw
                have hwra : w ≠ ra := fun hc0 => hra_nrr (hc0 ▸ hw)
                have hwx : w ≠ x := fun hc0 => hx (by rw [← hc0]; simp [hw])
                rw [tree.set_parent_other _ _ _ hwra, tree.set_right_other _ _ _ hwx]
            · rw [herase, if_neg (by simp)]
              rw [tree.set_parent_other _ _ _ (Ne.symm hrax)]
              simp [rootOf]
            · rw [tree.set_parent_other _ _ _ (Ne.symm hrax)]
              simp
            · intro z hz hzx
              have hzra : z ≠ ra := fun hc0 => hz (by rw [hc0]; simp)
              rw [tree.set_parent_other _ _ _ hzra, tree.set_right_other _ _ _ hzx]
      · by_cases hr : r = BT.leaf
        · -- only a left child
          subst hr
          obtain ⟨l1, la, l2, rfl⟩ : ∃ l1 la l2, l = BT.node l1 la l2 := by
            cases l with
            | leaf => exact absurd rfl hl
            | node p q t2 => exact ⟨p, q, t2, rfl⟩
          have hal0 : (h a).left = some la := by simpa [rootOf] using hcl
          have har0 : (h a).right = none := by simpa [rootOf] using hcr
          have herase : eraseT a (BT.node (BT.node l1 la l2) a BT.leaf) =
              BT.node l1 la l2 := by
            rw [eraseT, if_pos rfl, if_neg (by simp), if_pos rfl]
          rw [RepB_node] at hrl
          obtain ⟨hlap, hlal, hlar, hrll, hrlr⟩ := hrl
          obtain ⟨hndl1, hndl2, hla_nl1, hla_nl2, hl12⟩ := nodup_node hndl
          have hlax : la ≠ x := fun hc0 => hx (by rw [← hc0]; simp)
          have hlaa : la ≠ a := fun hc0 => hcnl (by rw [← hc0]; simp)
          cases s with
          | true =>
            have hs1 : (h x).left = some a := by simpa [rootOf] using hslot
            have heq : tree.erase h fuel (some a) = some
                (tree.set_parent (tree.set_left h x (some la)) la (some x), some a) := by
              unfold tree.erase
              dsimp only
              rw [hal0, har0]
              dsimp only
              unfold tree.set_new_child_for_parent
              rw [hcp]
              dsimp only
              rw [if_pos (by rw [hs1]; simp)]
              rfl
            refine ⟨_, heq, ?_, ?_, ?_, ?_, by rw [tree.set_parent_other _ _ _ (Ne.symm hlaa), tree.set_left_other _ _ _ hcx]⟩
            · rw [herase, RepB_node]
              refine ⟨by simp, ?_, ?_, ?_, ?_⟩
              · rw [tree.set_parent_left, tree.set_left_other _ _ _ hlax]
                exact hlal
              · rw [tree.set_parent_right, tree.set_left_other _ _ _ hlax]
                exact hlar
              · refine RepB_frame ?_ hrll
                intro w hw
                have hwla : w ≠ la := fun hc0 => hla_nl1 (hc0 ▸ hw)
                have hwx : w ≠ x := fun hc0 => hx (by rw [← hc0]; simp [hw])
                rw [tree.set_parent_other _ _ _ hwla, tree.set_left_other _ _ _ hwx]
              · refine RepB_frame ?_ hrlr
                intro w hw
                have hwla : w ≠ la := fun hc0 => hla_nl2 (hc0 ▸ hw)
                have hwx : w ≠ x := fun hc0 => hx (by rw [← hc0]; simp [hw])
                rw [tree.set_parent_other _ _ _ hwla, tree.set_left_other _ _ _ hwx]
            · rw [herase, if_pos rfl]
              rw [tree.set_parent_other _ _ _ (Ne.symm hlax)]
              simp [rootOf]
            · rw [tree.set_parent_other _ _ _ (Ne.symm hlax)]
              simp
            · intro z hz hzx
              have hzla : z ≠ la := fun hc0 => hz (by rw [hc0]; simp)
              rw [tree.set_parent_other _ _ _ hzla, tree.set_left_other _ _ _ hzx]
          | false =>
            have hs1 : (h x).left ≠ some a := by
              have hne := hother rfl
              simpa [rootOf] using hne
            have heq : tree.erase h fuel (some a) = some
                (tree.set_parent (tree.set_right h x (some la)) la (some x), some a) := by
              unfold tree.erase
              dsimp only
              rw [hal0, har0]
              dsimp only
              unfold tree.set_new_child_for_parent
              rw [hcp]
              dsimp only
              rw [if_neg (by simp only [beq_iff_eq]; exact hs1)]
              rfl
            refine ⟨_, heq, ?_, ?_, ?_, ?_, by rw [tree.set_parent_other _ _ _ (Ne.symm hlaa), tree.set_right_other _ _ _ hcx]⟩
            · rw [herase, RepB_node]
              refine ⟨by simp, ?_, ?_, ?_, ?_⟩
              · rw [tree.set_parent_left, tree.set_right_other _ _ _ hlax]
                exact hlal
              · rw [tree.set_parent_right, tree.set_right_other _ _ _ hlax]
                exact hlar
              · refine RepB_frame ?_ hrll
                intro w hw
                have hwla : w ≠ la := fun hc0 => hla_nl1 (hc0 ▸ hw)
                have hwx : w ≠ x := fun hc0 => hx (by rw [← hc0]; simp [hw])
                rw [tree.set_parent_other _ _ _ hwla, tree.set_right_other _ _ _ hwx]
              · refine RepB_frame ?_ hrlr
                intro w hw
                have hwla : w ≠ la := fun hc0 => hla_nl2 (hc0 ▸ hw)
                have hwx : w ≠ x := fun hc0 => hx (by rw [← hc0]; simp [hw])
                rw [tree.set_parent_other _ _ _ hwla, tree.set_right_other _ _ _ hwx]
            · rw [herase, if_neg (by simp)]
              rw [tree.set_parent_other _ _ _ (Ne.symm hlax)]
              simp [rootOf]
            · rw [tree.set_parent_other _ _ _ (Ne.symm hlax)]
              simp
            · intro z hz hzx
              have hzla : z ≠ la := fun hc0 => hz (by rw [hc0]; simp)
              rw [tree.set_parent_other _ _ _ hzla, tree.set_right_other _ _ _ hzx]
        · -- two children: predecessor surgery
          obtain ⟨rl, ra, rr, rfl⟩ : ∃ rl ra rr, r = BT.node rl ra rr := by
            cases r with
            | leaf => exact absurd rfl hr
            | node p q t2 => exact ⟨p, q, t2, rfl⟩
          obtain ⟨la, hla⟩ : ∃ la, rootOf l = some la := by
            cases l with
            | leaf => exact absurd rfl hl
            | node p q t2 => exact ⟨q, rfl⟩
          have hal0 : (h a).left = some la := by rw [hcl, hla]
          have har0 : (h a).right = some ra := by simpa [rootOf] using hcr
          have hfl : l.size ≤ fuel := by omega
          have hprev : tree.prev h fuel a = some (some (maxA l)) := by
            unfold tree.prev
            rw [hal0]
            dsimp only
            rw [rightmost_loop_ref hrl hla hfl]
            rfl
          have hSl : (if true then (h a).left = rootOf l else (h a).right = rootOf l) := by
            simpa using hcl
          obtain ⟨h1, hset1, hrep1, hslot1, hpar1, hframe1, hmax1⟩ :=
            unlinkMax hrl hndl hcnl hl hSl (fun hc0 => by cases hc0)
          obtain ⟨h1L, h1R⟩ : (h1 a).left = rootOf (delMax l) ∧
              (h1 a).right = (h a).right := by simpa using hslot1
          have hnr_meml : maxA l ∈ l.inorder := maxA_mem hl
          have hnrdel : maxA l ∉ (delMax l).inorder := maxA_not_mem_delMax hl hndl
          have hnddel : (delMax l).inorder.Nodup := delMax_nodup hl hndl
          have hnrx : maxA l ≠ x := fun hc0 => hx (by rw [← hc0]; simp [hnr_meml])
          have hnra : maxA l ≠ a := fun hc0 => hcnl (hc0 ▸ hnr_meml)
          have hrax : ra ≠ x := fun hc0 => hx (by rw [← hc0]; simp)
          have hraa : ra ≠ a := fun hc0 => hcnr (by rw [← hc0]; simp)
          have hranr : ra ≠ maxA l := fun hc0 => hlr (maxA l) hnr_meml (by rw [← hc0]; simp)
          rw [RepB_node] at hrr
          obtain ⟨hrap, hral, hrar, hrrl, hrrr⟩ := hrr
          obtain ⟨hndrl, hndrr, hra_nrl, hra_nrr, hrlr2⟩ := nodup_node hndr
          have hh1x : h1 x = h x :=
            hframe1 x (fun hc0 => hx (by simp [hc0])) (Ne.symm hcx)
          have hh1r : ∀ w, w ∈ (BT.node rl ra rr).inorder → h1 w = h w := by
            intro w hw
            exact hframe1 w (fun hc0 => hlr w hc0 hw) (fun hc0 => hcnr (hc0 ▸ hw))
          have h1ra : h1 ra = h ra := hh1r ra (by simp)
          have herase : eraseT a (BT.node l a (BT.node rl ra rr)) =
              BT.node (delMax l) (maxA l) (BT.node rl ra rr) := by
            rw [eraseT, if_pos rfl, if_neg hl, if_neg hr]
          have h1R0 : (h1 a).right = some ra := by rw [h1R, har0]
          cases hdl : delMax l with
          | leaf =>
            have h1L0 : (h1 a).left = none := by rw [h1L, hdl]; rfl
            cases s with
            | true =>
              have hs1 : (h x).left = some a := by simpa [rootOf] using hslot
              have heq : tree.erase h fuel (some a) = some
                  (tree.set_parent (tree.set_left (tree.set_parent (tree.set_right
                    (tree.set_left h1 (maxA l) none) (maxA l) (some ra)) ra
                    (some (maxA l))) x (some (maxA l))) (maxA l) (some x), some a) := by
                unfold tree.erase
                dsimp only
                rw [hal0, har0]
                dsimp only
                rw [hprev]
                dsimp only
                rw [hset1]
                dsimp only
                have rdL : ∀ hh v, tree.set_left hh (maxA l) v a = hh a :=
                  fun hh v => tree.set_left_other hh (maxA l) v (Ne.symm hnra)
                have rdR : ∀ hh v, tree.set_right hh (maxA l) v a = hh a :=
                  fun hh v => tree.set_right_other hh (maxA l) v (Ne.symm hnra)
                simp only [rdL, rdR, h1L0, h1R0]
                unfold tree.set_new_child_for_parent
                simp [hpar1, hcp, hh1x, hs1, Ne.symm hraa, Ne.symm hnrx, Ne.symm hnra]
              refine ⟨_, heq, ?_, ?_, ?_, ?_, by simp [Ne.symm hnra, Ne.symm hraa, hpar1]⟩
              · rw [herase, hdl, RepB_node]
                refine ⟨by simp, by simp [hnrx, rootOf], by simp [hnrx, rootOf], rfl, ?_⟩
                rw [RepB_node]
                refine ⟨by simp [hranr], by simp [hranr, hrax, h1ra, hral],
                  by simp [hranr, hrax, h1ra, hrar], ?_, ?_⟩
                · refine RepB_frame ?_ hrrl
                  intro w hw
                  have hwx : w ≠ x := fun hc0 => hx (by rw [← hc0]; simp [hw])
                  have hwnr : w ≠ maxA l :=
                    fun hc0 => hlr (maxA l) hnr_meml (by rw [← hc0]; simp [hw])
                  have hwra : w ≠ ra := fun hc0 => hra_nrl (hc0 ▸ hw)
                  rw [tree.set_parent_other _ _ _ hwnr, tree.set_left_other _ _ _ hwx,
                    tree.set_parent_other _ _ _ hwra, tree.set_right_other _ _ _ hwnr,
                    tree.set_left_other _ _ _ hwnr]
                  exact hh1r w (by simp [hw])
                · refine RepB_frame ?_ hrrr
                  intro w hw
                  have hwx : w ≠ x := fun hc0 => hx (by rw [← hc0]; simp [hw])
                  have hwnr : w ≠ maxA l :=
                    fun hc0 => hlr (maxA l) hnr_meml (by rw [← hc0]; simp [hw])
                  have hwra : w ≠ ra := fun hc0 => hra_nrr (hc0 ▸ hw)
                  rw [tree.set_parent_other _ _ _ hwnr, tree.set_left_other _ _ _ hwx,
                    tree.set_parent_other _ _ _ hwra, tree.set_right_other _ _ _ hwnr,
                    tree.set_left_other _ _ _ hwnr]
                  exact hh1r w (by simp [hw])
              · rw [herase, if_pos rfl]
                constructor
                · simp [Ne.symm hnrx, rootOf]
                · simp [Ne.symm hnrx, Ne.symm hrax, hh1x]
              · simp [Ne.symm hnrx, Ne.symm hrax, hh1x]
              · intro z hz hzx
                have hza : z ≠ a := fun hc0 => hz (by rw [hc0]; simp)
                have hznr : z ≠ maxA l := fun hc0 => hz (by rw [hc0]; simp [hnr_meml])
                have hzra : z ≠ ra := fun hc0 => hz (by rw [hc0]; simp)
                rw [tree.set_parent_other _ _ _ hznr, tree.set_left_other _ _ _ hzx,
                  tree.set_parent_other _ _ _ hzra, tree.set_right_other _ _ _ hznr,
                  tree.set_left_other _ _ _ hznr]
                exact hframe1 z (fun hc0 => hz (by simp [hc0])) hza
            | false =>
              have hs1 : (h x).left ≠ some a := by
                have hne := hother rfl
                simpa [rootOf] using hne
              have hs2 : (h x).right = some a := by simpa [rootOf] using hslot
              have heq : tree.erase h fuel (some a) = some
                  (tree.set_parent (tree.set_right (tree.set_parent (tree.set_right
                    (tree.set_left h1 (maxA l) none) (maxA l) (some ra)) ra
                    (some (maxA l))) x (some (maxA l))) (maxA l) (some x), some a) := by
                unfold tree.erase
                dsimp only
                rw [hal0, har0]
                dsimp only
                rw [hprev]
                dsimp only
                rw [hset1]
                dsimp only
                have rdL : ∀ hh v, tree.set_left hh (maxA l) v a = hh a :=
                  fun hh v => tree.set_left_other hh (maxA l) v (Ne.symm hnra)
                have rdR : ∀ hh v, tree.set_right hh (maxA l) v a = hh a :=
                  fun hh v => tree.set_right_other hh (maxA l) v (Ne.symm hnra)
                simp only [rdL, rdR, h1L0, h1R0]
                unfold tree.set_new_child_for_parent
                simp [hpar1, hcp, hh1x, hs1, Ne.symm hraa, Ne.symm hnrx, Ne.symm hnra]
              refine ⟨_, heq, ?_, ?_, ?_, ?_, by simp [Ne.symm hnra, Ne.symm hraa, hpar1]⟩
              · rw [herase, hdl, RepB_node]
                refine ⟨by simp, by simp [hnrx, rootOf], by simp [hnrx, rootOf], rfl, ?_⟩
                rw [RepB_node]
                refine ⟨by simp [hranr], by simp [hranr, hrax, h1ra, hral],
                  by simp [hranr, hrax, h1ra, hrar], ?_, ?_⟩
                · refine RepB_frame ?_ hrrl
                  intro w hw
                  have hwx : w ≠ x := fun hc0 => hx (by rw [← hc0]; simp [hw])
                  have hwnr : w ≠ maxA l :=
                    fun hc0 => hlr (maxA l) hnr_meml (by rw [← hc0]; simp [hw])
                  have hwra : w ≠ ra := fun hc0 => hra_nrl (hc0 ▸ hw)
                  rw [tree.set_parent_other _ _ _ hwnr, tree.set_right_other _ _ _ hwx,
                    tree.set_parent_other _ _ _ hwra, tree.set_right_other _ _ _ hwnr,
                    tree.set_left_other _ _ _ hwnr]
                  exact hh1r w (by simp [hw])
                · refine RepB_frame ?_ hrrr
                  intro w hw
                  have hwx : w ≠ x := fun hc0 => hx (by rw [← hc0]; simp [hw])
                  have hwnr : w ≠ maxA l :=
                    fun hc0 => hlr (maxA l) hnr_meml (by rw [← hc0]; simp [hw])
                  have hwra : w ≠ ra := fun hc0 => hra_nrr (hc0 ▸ hw)
                  rw [tree.set_parent_other _ _ _ hwnr, tree.set_right_other _ _ _ hwx,
                    tree.set_parent_other _ _ _ hwra, tree.set_right_other _ _ _ hwnr,
                    tree.set_left_other _ _ _ hwnr]
                  exact hh1r w (by simp [hw])
              · rw [herase, if_neg (by simp)]
                constructor
                · simp [Ne.symm hnrx, rootOf]
                · simp [Ne.symm hnrx, Ne.symm hrax, hh1x]
              · simp [Ne.symm hnrx, Ne.symm hrax, hh1x]
              · intro z hz hzx
                have hza : z ≠ a := fun hc0 => hz (by rw [hc0]; simp)
                have hznr : z ≠ maxA l := fun hc0 => hz (by rw [hc0]; simp [hnr_meml])
                have hzra : z ≠ ra := fun hc0 => hz (by rw [hc0]; simp)
                rw [tree.set_parent_other _ _ _ hznr, tree.set_right_other _ _ _ hzx,
                  tree.set_parent_other _ _ _ hzra, tree.set_right_other _ _ _ hznr,
                  tree.set_left_other _ _ _ hznr]
                exact hframe1 z (fun hc0 => hz (by simp [hc0])) hza
          | node dl1 nl dl2 =>
            have h1L1 : (h1 a).left = some nl := by rw [h1L, hdl]; rfl
            rw [hdl, RepB_node] at hrep1
            obtain ⟨hnlp, hnll, hnlr, hrdl1, hrdl2⟩ := hrep1
            rw [hdl] at hnddel
            obtain ⟨hnddl1, hnddl2, hnl_ndl1, hnl_ndl2, hdl12⟩ := nodup_node hnddel
            have hnl_meml : nl ∈ l.inorder :=
              mem_of_mem_delMax hl (by rw [hdl]; simp)
            have hnlx : nl ≠ x := fun hc0 => hx (by rw [← hc0]; simp [hnl_meml])
            have hnla : nl ≠ a := fun hc0 => hcnl (hc0 ▸ hnl_meml)
            have hnlnr : nl ≠ maxA l := fun hc0 => hnrdel (by rw [← hc0, hdl]; simp)
            have hnlra : nl ≠ ra := fun hc0 => hlr nl hnl_meml (by rw [hc0]; simp)
            have hdl_subl : ∀ w, w ∈ (BT.node dl1 nl dl2).inorder → w ∈ l.inorder := by
              intro w hw
              exact mem_of_mem_delMax hl (by rw [hdl]; exact hw)
            cases s with
            | true =>
              have hs1 : (h x).left = some a := by simpa [rootOf] using hslot
              have heq : tree.erase h fuel (some a) = some
                  (tree.set_parent (tree.set_left (tree.set_parent (tree.set_parent
                    (tree.set_right (tree.set_left h1 (maxA l) (some nl)) (maxA l)
                    (some ra)) nl (some (maxA l))) ra (some (maxA l))) x
                    (some (maxA l))) (maxA l) (some x), some a) := by
                unfold tree.erase
                dsimp only
                rw [hal0, har0]
                dsimp only
                rw [hprev]
                dsimp only
                rw [hset1]
                dsimp only
                have rdL : ∀ hh v, tree.set_left hh (maxA l) v a = hh a :=
                  fun hh v => tree.set_left_other hh (maxA l) v (Ne.symm hnra)
                have rdR : ∀ hh v, tree.set_right hh (maxA l) v a = hh a :=
                  fun hh v => tree.set_right_other hh (maxA l) v (Ne.symm hnra)
                simp only [rdL, rdR, h1L1, h1R0]
                unfold tree.set_new_child_for_parent
                simp [hpar1, hcp, hh1x, hs1, h1R0, Ne.symm hraa, Ne.symm hnla, Ne.symm hnrx, Ne.symm hnra]
              refine ⟨_, heq, ?_, ?_, ?_, ?_, by simp [Ne.symm hnra, Ne.symm hraa, Ne.symm hnla, hpar1]⟩
              · rw [herase, hdl, RepB_node]
                refine ⟨by simp, by simp [hnrx, rootOf], by simp [hnrx, rootOf], ?_, ?_⟩
                · rw [RepB_node]
                  refine ⟨by simp [hnlnr, hnlx, hnlra], ?_, ?_, ?_, ?_⟩
                  · simp only [tree.set_parent_left, tree.set_left_left,
                      tree.set_right_left, if_neg hnlx, if_neg hnlnr]
                    exact hnll
                  · simp only [tree.set_parent_right, tree.set_left_right,
                      tree.set_right_right, if_neg hnlnr]
                    exact hnlr
                  · refine RepB_frame ?_ hrdl1
                    intro w hw
                    have hwl : w ∈ l.inorder := hdl_subl w (by simp [hw])
                    have hwx : w ≠ x := fun hc0 => hx (by rw [← hc0]; simp [hwl])
                    have hwnr : w ≠ maxA l :=
                      fun hc0 => hnrdel (by rw [← hc0, hdl]; simp [hw])
                    have hwnl : w ≠ nl := fun hc0 => hnl_ndl1 (hc0 ▸ hw)
                    have hwra : w ≠ ra := fun hc0 => hlr w hwl (by rw [hc0]; simp)
                    rw [tree.set_parent_other _ _ _ hwnr, tree.set_left_other _ _ _ hwx,
                      tree.set_parent_other _ _ _ hwra, tree.set_parent_other _ _ _ hwnl,
                      tree.set_right_other _ _ _ hwnr, tree.set_left_other _ _ _ hwnr]
                  · refine RepB_frame ?_ hrdl2
                    intro w hw
                    have hwl : w ∈ l.inorder := hdl_subl w (by simp [hw])
                    have hwx : w ≠ x := fun hc0 => hx (by rw [← hc0]; simp [hwl])
                    have hwnr : w ≠ maxA l :=
                      fun hc0 => hnrdel (by rw [← hc0, hdl]; simp [hw])
                    have hwnl : w ≠ nl := fun hc0 => hnl_ndl2 (hc0 ▸ hw)
                    have hwra : w ≠ ra := fun hc0 => hlr w hwl (by rw [hc0]; simp)
                    rw [tree.set_parent_other _ _ _ hwnr, tree.set_left_other _ _ _ hwx,
                      tree.set_parent_other _ _ _ hwra, tree.set_parent_other _ _ _ hwnl,
                      tree.set_right_other _ _ _ hwnr, tree.set_left_other _ _ _ hwnr]
                · rw [RepB_node]
                  refine ⟨by simp [hranr], by simp [hranr, hrax, Ne.symm hnlra, h1ra, hral],
                    by simp [hranr, hrax, Ne.symm hnlra, h1ra, hrar], ?_, ?_⟩
                  · refine RepB_frame ?_ hrrl
                    intro w hw
                    have hwx : w ≠ x := fun hc0 => hx (by rw [← hc0]; simp [hw])
                    have hwnr : w ≠ maxA l :=
                      fun hc0 => hlr (maxA l) hnr_meml (by rw [← hc0]; simp [hw])
                    have hwnl : w ≠ nl := fun hc0 => hlr nl hnl_meml (by rw [← hc0]; simp [hw])
                    have hwra : w ≠ ra := fun hc0 => hra_nrl (hc0 ▸ hw)
                    rw [tree.set_parent_other _ _ _ hwnr, tree.set_left_other _ _ _ hwx,
                      tree.set_parent_other _ _ _ hwra, tree.set_parent_other _ _ _ hwnl,
                      tree.set_right_other _ _ _ hwnr, tree.set_left_other _ _ _ hwnr]
                    exact hh1r w (by simp [hw])
                  · refine RepB_frame ?_ hrrr
                    intro w hw
                    have hwx : w ≠ x := fun hc0 => hx (by rw [← hc0]; simp [hw])
                    have hwnr : w ≠ maxA l :=
                      fun hc0 => hlr (maxA l) hnr_meml (by rw [← hc0]; simp [hw])
                    have hwnl : w ≠ nl := fun hc0 => hlr nl hnl_meml (by rw [← hc0]; simp [hw])
                    have hwra : w ≠ ra := fun hc0 => hra_nrr (hc0 ▸ hw)
                    rw [tree.set_parent_other _ _ _ hwnr, tree.set_left_other _ _ _ hwx,
                      tree.set_parent_other _ _ _ hwra, tree.set_parent_other _ _ _ hwnl,
                      tree.set_right_other _ _ _ hwnr, tree.set_left_other _ _ _ hwnr]
                    exact hh1r w (by simp [hw])
              · rw [herase, if_pos rfl]
                constructor
                · simp [Ne.symm hnrx, rootOf]
                · simp [Ne.symm hnrx, Ne.symm hrax, Ne.symm hnlx, hh1x]
              · simp [Ne.symm hnrx, Ne.symm hrax, Ne.symm hnlx, hh1x]
              · intro z hz hzx
                have hza : z ≠ a := fun hc0 => hz (by rw [hc0]; simp)
                have hznr : z ≠ maxA l := fun hc0 => hz (by rw [hc0]; simp [hnr_meml])
                have hznl : z ≠ nl := fun hc0 => hz (by rw [hc0]; simp [hnl_meml])
                have hzra : z ≠ ra := fun hc0 => hz (by rw [hc0]; simp)
                rw [tree.set_parent_other _ _ _ hznr, tree.set_left_other _ _ _ hzx,
                  tree.set_parent_other _ _ _ hzra, tree.set_parent_other _ _ _ hznl,
                  tree.set_right_other _ _ _ hznr, tree.set_left_other _ _ _ hznr]
                exact hframe1 z (fun hc0 => hz (by simp [hc0])) hza
            | false =>
              have hs1 : (h x).left ≠ some a := by
                have hne := hother rfl
                simpa [rootOf] using hne
              have heq : tree.erase h fuel (some a) = some
                  (tree.set_parent (tree.set_right (tree.set_parent (tree.set_parent
                    (tree.set_right (tree.set_left h1 (maxA l) (some nl)) (maxA l)
                    (some ra)) nl (some (maxA l))) ra (some (maxA l))) x
                    (some (maxA l))) (maxA l) (some x), some a) := by
                unfold tree.erase
                dsimp only
                rw [hal0, har0]
                dsimp only
                rw [hprev]
                dsimp only
                rw [hset1]
                dsimp only
                have rdL : ∀ hh v, tree.set_left hh (maxA l) v a = hh a :=
                  fun hh v => tree.set_left_other hh (maxA l) v (Ne.symm hnra)
                have rdR : ∀ hh v, tree.set_right hh (maxA l) v a = hh a :=
                  fun hh v => tree.set_right_other hh (maxA l) v (Ne.symm hnra)
                simp only [rdL, rdR, h1L1, h1R0]
                unfold tree.set_new_child_for_parent
                simp [hpar1, hcp, hh1x, hs1, h1R0, Ne.symm hraa, Ne.symm hnla, Ne.symm hnrx, Ne.symm hnra]
              refine ⟨_, heq, ?_, ?_, ?_, ?_, by simp [Ne.symm hnra, Ne.symm hraa, Ne.symm hnla, hpar1]⟩
              · rw [herase, hdl, RepB_node]
                refine ⟨by simp, by simp [hnrx, rootOf], by simp [hnrx, rootOf], ?_, ?_⟩
                · rw [RepB_node]
                  refine ⟨by simp [hnlnr, hnlx, hnlra], ?_, ?_, ?_, ?_⟩
                  · simp only [tree.set_parent_left, tree.set_right_left,
                      tree.set_left_left, if_neg hnlnr]
                    exact hnll
                  · simp only [tree.set_parent_right, tree.set_right_right,
                      tree.set_left_right, if_neg hnlx, if_neg hnlnr]
                    exact hnlr
                  · refine RepB_frame ?_ hrdl1
                    intro w hw
                    have hwl : w ∈ l.inorder := hdl_subl w (by simp [hw])
                    have hwx : w ≠ x := fun hc0 => hx (by rw [← hc0]; simp [hwl])
                    have hwnr : w ≠ maxA l :=
                      fun hc0 => hnrdel (by rw [← hc0, hdl]; simp [hw])
                    have hwnl : w ≠ nl := fun hc0 => hnl_ndl1 (hc0 ▸ hw)
                    have hwra : w ≠ ra := fun hc0 => hlr w hwl (by rw [hc0]; simp)
                    rw [tree.set_parent_other _ _ _ hwnr, tree.set_right_other _ _ _ hwx,
                      tree.set_parent_other _ _ _ hwra, tree.set_parent_other _ _ _ hwnl,
                      tree.set_right_other _ _ _ hwnr, tree.set_left_other _ _ _ hwnr]
                  · refine RepB_frame ?_ hrdl2
                    intro w hw
                    have hwl : w ∈ l.inorder := hdl_subl w (by simp [hw])
                    have hwx : w ≠ x := fun hc0 => hx (by rw [← hc0]; simp [hwl])
                    have hwnr : w ≠ maxA l :=
                      fun hc0 => hnrdel (by rw [← hc0, hdl]; simp [hw])
                    have hwnl : w ≠ nl := fun hc0 => hnl_ndl2 (hc0 ▸ hw)
                    have hwra : w ≠ ra := fun hc0 => hlr w hwl (by rw [hc0]; simp)
                    rw [tree.set_parent_other _ _ _ hwnr, tree.set_right_other _ _ _ hwx,
                      tree.set_parent_other _ _ _ hwra, tree.set_parent_other _ _ _ hwnl,
                      tree.set_right_other _ _ _ hwnr, tree.set_left_other _ _ _ hwnr]
                · rw [RepB_node]
                  refine ⟨by simp [hranr], by simp [hranr, hrax, Ne.symm hnlra, h1ra, hral],
                    by simp [hranr, hrax, Ne.symm hnlra, h1ra, hrar], ?_, ?_⟩
                  · refine RepB_frame ?_ hrrl
                    intro w hw
                    have hwx : w ≠ x := fun hc0 => hx (by rw [← hc0]; simp [hw])
                    have hwnr : w ≠ maxA l :=
                      fun hc0 => hlr (maxA l) hnr_meml (by rw [← hc0]; simp [hw])
                    have hwnl : w ≠ nl := fun hc0 => hlr nl hnl_meml (by rw [← hc0]; simp [hw])
                    have hwra : w ≠ ra := fun hc0 => hra_nrl (hc0 ▸ hw)
                    rw [tree.set_parent_other _ _ _ hwnr, tree.set_right_other _ _ _ hwx,
                      tree.set_parent_other _ _ _ hwra, tree.set_parent_other _ _ _ hwnl,
                      tree.set_right_other _ _ _ hwnr, tree.set_left_other _ _ _ hwnr]
                    exact hh1r w (by simp [hw])
                  · refine RepB_frame ?_ hrrr
                    intro w hw
                    have hwx : w ≠ x := fun hc0 => hx (by rw [← hc0]; simp [hw])
                    have hwnr : w ≠ maxA l :=
                      fun hc0 => hlr (maxA l) hnr_meml (by rw [← hc0]; simp [hw])
                    have hwnl : w ≠ nl := fun hc0 => hlr nl hnl_meml (by rw [← hc0]; simp [hw])
                    have hwra : w ≠ ra := fun hc0 => hra_nrr (hc0 ▸ hw)
                    rw [tree.set_parent_other _ _ _ hwnr, tree.set_right_other _ _ _ hwx,
                      tree.set_parent_other _ _ _ hwra, tree.set_parent_other _ _ _ hwnl,
                      tree.set_right_other _ _ _ hwnr, tree.set_left_other _ _ _ hwnr]
                    exact hh1r w (by simp [hw])
              · rw [herase, if_neg (by simp)]
                constructor
                · simp [Ne.symm hnrx, rootOf]
                · simp [Ne.symm hnrx, Ne.symm hrax, Ne.symm hnlx, hh1x]
              · simp [Ne.symm hnrx, Ne.symm hrax, Ne.symm hnlx, hh1x]
              · intro z hz hzx
                have hza : z ≠ a := fun hc0 => hz (by rw [hc0]; simp)
                have hznr : z ≠ maxA l := fun hc0 => hz (by rw [hc0]; simp [hnr_meml])
                have hznl : z ≠ nl := fun hc0 => hz (by rw [hc0]; simp [hnl_meml])
                have hzra : z ≠ ra := fun hc0 => hz (by rw [hc0]; simp)
                rw [tree.set_parent_other _ _ _ hznr, tree.set_right_other _ _ _ hzx,
                  tree.set_parent_other _ _ _ hzra, tree.set_parent_other _ _ _ hznl,
                  tree.set_right_other _ _ _ hznr, tree.set_left_other _ _ _ hznr]
                exact hframe1 z (fun hc0 => hz (by simp [hc0])) hza
    · -- the erased node lies in a proper subtree
      rcases (by simpa using hmem : a ∈ l.inorder ∨ a = c ∨ a ∈ r.inorder)
        with hml | hml | hml
      · have hlslot : (if true then (h c).left = rootOf l
            else (h c).right = rootOf l) := by simpa using hcl
        have hfle : l.size ≤ fuel := by omega
        obtain ⟨h', heq, hrep', hslot', hpar', hframe', hpara'⟩ :=
          ihl hrl hndl hcnl hml hlslot (fun hc0 => by cases hc0) hfle
        obtain ⟨hsl1, hsl2⟩ : (h' c).left = rootOf (eraseT a l) ∧
            (h' c).right = (h c).right := by simpa using hslot'
        have hxkeep : h' x = h x :=
          hframe' x (fun hc0 => hx (by simp [hc0])) (Ne.symm hcx)
        have herase : eraseT a (BT.node l c r) = BT.node (eraseT a l) c r := by
          rw [eraseT, if_neg (fun hc0 => hac hc0.symm),
            eraseT_not_mem (fun hc0 => hlr a hml hc0)]
        refine ⟨h', heq, ?_, ?_, by rw [hxkeep], ?_, hpara'⟩
        · rw [herase, RepB_node]
          refine ⟨by rw [hpar', hcp], by rw [hsl1], by rw [hsl2, hcr], hrep', ?_⟩
          refine RepB_frame ?_ hrr
          intro w hw
          exact hframe' w (fun hc0 => hlr w hc0 hw) (fun hc0 => hcnr (hc0 ▸ hw))
        · rw [herase]
          cases s with
          | true =>
            have hsx : (h x).left = some c := by simpa [rootOf] using hslot
            rw [if_pos rfl, hxkeep]
            exact ⟨by rw [hsx]; rfl, rfl⟩
          | false =>
            have hsx : (h x).right = some c := by simpa [rootOf] using hslot
            rw [if_neg (by simp), hxkeep]
            exact ⟨by rw [hsx]; rfl, rfl⟩
        · intro z hz hzx
          exact hframe' z (fun hc0 => hz (by simp [hc0])) (fun hc0 => hz (by simp [hc0]))
      · exact absurd hml hac
      · have hrslot : (if false then (h c).left = rootOf r
            else (h c).right = rootOf r) := by simpa using hcr
        have hrother : (false = false) → (h c).left ≠ rootOf r := by
          intro _
          rw [hcl]
          cases hrc : r with
          | leaf => rw [hrc] at hml; simp at hml
          | node rl d rr =>
            cases l with
            | leaf => simp [rootOf]
            | node l1 e l2 =>
              simp only [rootOf, ne_eq, Option.some.injEq]
              intro hc0
              exact hlr e (by simp) (by rw [hc0, hrc]; simp)
        have hfre : r.size ≤ fuel := by omega
        obtain ⟨h', heq, hrep', hslot', hpar', hframe', hpara'⟩ :=
          ihr hrr hndr hcnr hml hrslot hrother hfre
        obtain ⟨hsl1, hsl2⟩ : (h' c).right = rootOf (eraseT a r) ∧
            (h' c).left = (h c).left := by simpa using hslot'
        have hxkeep : h' x = h x :=
          hframe' x (fun hc0 => hx (by simp [hc0])) (Ne.symm hcx)
        have herase : eraseT a (BT.node l c r) = BT.node l c (eraseT a r) := by
          rw [eraseT, if_neg (fun hc0 => hac hc0.symm),
            eraseT_not_mem (fun hc0 => hlr a hc0 hml)]
        refine ⟨h', heq, ?_, ?_, by rw [hxkeep], ?_, hpara'⟩
        · rw [herase, RepB_node]
          refine ⟨by rw [hpar', hcp], by rw [hsl2, hcl], by rw [hsl1], ?_, hrep'⟩
          refine RepB_frame ?_ hrl
          intro w hw
          exact hframe' w (fun hc0 => hlr w hw hc0) (fun hc0 => hcnl (hc0 ▸ hw))
        · rw [herase]
          cases s with
          | true =>
            have hsx : (h x).left = some c := by simpa [rootOf] using hslot
            rw [if_pos rfl, hxkeep]
            exact ⟨by rw [hsx]; rfl, rfl⟩
          | false =>
            have hsx : (h x).right = some c := by simpa [rootOf] using hslot
            rw [if_neg (by simp), hxkeep]
            exact ⟨by rw [hsx]; rfl, rfl⟩
        · intro z hz hzx
          exact hframe' z (fun hc0 => hz (by simp [hc0])) (fun hc0 => hz (by simp [hc0]))

/-- A five-cell heap holding the tree `2(4,6)` under the slot holder `0`:
the in-order predecessor of the root `2` is its own left child `4`. -/
def twoChildHeap : tree.Heap := fun n =>
  if n = 0 then ⟨none, some 2, none⟩
  else if n = 2 then ⟨some 0, some 4, some 6⟩
  else if n = 4 then ⟨some 2, none, none⟩
  else if n = 6 then ⟨some 2, none, none⟩
  else ⟨none, none, none⟩

/-- C5: refuted as stated.  On the tree `2(4,6)` the in-order predecessor of
the root is its own left child `4`; after `erase(2)` the erased node's former
left child — node `4` itself — is re-parented to the old parent slot holder
`0`, not to the predecessor, because the source re-reads `node->left` after
the predecessor has been unlinked.  The claim's unconditional "former left
and right children re-parented to the predecessor" is therefore false. -/
theorem C5_aliasing_left_child_not_reparented :
    (twoChildHeap 2).left = some 4 ∧ (twoChildHeap 2).right = some 6 ∧
    tree.prev twoChildHeap 9 2 = some (some 4) ∧
    ∃ h', tree.erase twoChildHeap 9 (some 2) = some (h', some 2) ∧
      (h' 4).parent = some 0 ∧ ¬((h' 4).parent = some 4) := by
  refine ⟨rfl, rfl, rfl, _, rfl, rfl, by decide⟩

/-- C5 (amended): erasing a represented node with two children unlinks the
in-order predecessor (the maximum of the left subtree) and installs that very
node in the erased node's place: the parent slot now holds it, the right
subtree hangs below it, and its left subtree is the trimmed left subtree —
which is the re-parented former left child except when the predecessor was
that child itself; the erased node is returned and the remaining shape holds
exactly the other nodes. -/
theorem C5_two_children_installs_predecessor {h : tree.Heap} {l r : BT}
    {x a : Nat} {s : Bool} {fuel : Nat}
    (hrep : RepB h x (BT.node l a r) = true) (hnd : (BT.node l a r).inorder.Nodup)
    (hx : x ∉ (BT.node l a r).inorder)
    (hl : l ≠ BT.leaf) (hr : r ≠ BT.leaf)
    (hslot : if s then (h x).left = rootOf (BT.node l a r)
     else (h x).right = rootOf (BT.node l a r))
    (hother : s = false → (h x).left ≠ rootOf (BT.node l a r))
    (hfuel : (BT.node l a r).size ≤ fuel) :
    ∃ h', tree.erase h fuel (some a) = some (h', some a) ∧
      RepB h' x (BT.node (delMax l) (maxA l) r) = true ∧
      (BT.node (delMax l) (maxA l) r).inorder = l.inorder ++ r.inorder ∧
      maxA l ∈ l.inorder ∧
      (if s then (h' x).left = some (maxA l) else (h' x).right = some (maxA l)) ∧
      (∀ z, z ∉ (BT.node l a r).inorder → z ≠ x → h' z = h z) := by
  obtain ⟨h', heq, hrep', hslot', hpar', hframe', hpara'⟩ :=
    erase_ref hrep hnd hx (show a ∈ (BT.node l a r).inorder by simp) hslot hother hfuel
  have herase : eraseT a (BT.node l a r) = BT.node (delMax l) (maxA l) r := by
    rw [eraseT, if_pos rfl, if_neg hl, if_neg hr]
  rw [herase] at hrep' hslot'
  refine ⟨h', heq, hrep', ?_, maxA_mem hl, ?_, hframe'⟩
  · rw [BT.inorder_node, ← delMax_inorder hl]
    simp
  · cases s with
    | true =>
      obtain ⟨hs1, _⟩ : (h' x).left = rootOf (BT.node (delMax l) (maxA l) r) ∧
          (h' x).right = (h x).right := by simpa using hslot'
      simpa [rootOf] using hs1
    | false =>
      obtain ⟨hs1, _⟩ : (h' x).right = rootOf (BT.node (delMax l) (maxA l) r) ∧
          (h' x).left = (h x).left := by simpa using hslot'
      simpa [rootOf] using hs1

/-- Witness for the amended C5 theorem on the concrete tree `2(4,6)`. -/
theorem C5_two_children_witness :
    ∃ h', tree.erase twoChildHeap 9 (some 2) = some (h', some 2) ∧
      RepB h' 0 (BT.node (delMax (BT.node BT.leaf 4 BT.leaf))
        (maxA (BT.node BT.leaf 4 BT.leaf)) (BT.node BT.leaf 6 BT.leaf)) = true ∧
      (BT.node (delMax (BT.node BT.leaf 4 BT.leaf))
        (maxA (BT.node BT.leaf 4 BT.leaf)) (BT.node BT.leaf 6 BT.leaf)).inorder =
        (BT.node BT.leaf 4 BT.leaf).inorder ++ (BT.node BT.leaf 6 BT.leaf).inorder ∧
      maxA (BT.node BT.leaf 4 BT.leaf) ∈ (BT.node BT.leaf 4 BT.leaf).inorder ∧
      (if true then (h' 0).left = some (maxA (BT.node BT.leaf 4 BT.leaf))
       else (h' 0).right = some (maxA (BT.node BT.leaf 4 BT.leaf))) ∧
      (∀ z, z ∉ (BT.node (BT.node BT.leaf 4 BT.leaf) 2
          (BT.node BT.leaf 6 BT.leaf)).inorder → z ≠ 0 → h' z = twoChildHeap z) :=
  C5_two_children_installs_predecessor (by decide) (by decide) (by decide)
    (by decide) (by decide) (by decide) (by decide) (by decide)

/-!
## Successor climb and the bound queries
-/

/-- `listSucc` skips a prefix not containing the element. -/
lemma listSucc_not_mem {a : Nat} : ∀ {xs ys : List Nat}, a ∉ xs →
    listSucc a (xs ++ ys) = listSucc a ys := by
  intro xs
  induction xs with
  | nil => intro ys _; rfl
  | cons c tl ih =>
    intro ys ha
    rw [List.cons_append, listSucc,
      if_neg (fun hc0 => ha (by rw [hc0]; simp)), ih (fun hc0 => ha (by simp [hc0]))]

/-- A successor inside a list survives appending. -/
lemma listSucc_extend {a c : Nat} : ∀ {xs : List Nat} {ys : List Nat},
    a ∈ xs → listSucc a xs = some c → listSucc a (xs ++ ys) = some c := by
  intro xs
  induction xs with
  | nil => intro ys ha _; simp at ha
  | cons d tl ih =>
    intro ys ha hsucc
    rw [listSucc] at hsucc
    by_cases hd : d = a
    · rw [if_pos hd] at hsucc
      obtain ⟨tl2, rfl⟩ : ∃ tl2, tl = c :: tl2 := by
        cases tl with
        | nil => simp at hsucc
        | cons e tl2 =>
          obtain rfl : e = c := by simpa using hsucc
          exact ⟨tl2, rfl⟩
      rw [List.cons_append, listSucc, if_pos hd]
      rfl
    · rw [if_neg hd] at hsucc
      have hatl : a ∈ tl := by
        rcases List.mem_cons.1 ha with hc0 | hc0
        · exact absurd hc0.symm hd
        · exact hc0
      rw [List.cons_append, listSucc, if_neg hd, ih hatl hsucc]

/-- A list whose element has no successor ends at that element. -/
lemma listSucc_none_split {a : Nat} : ∀ {xs : List Nat}, a ∈ xs →
    listSucc a xs = none → ∃ l1, xs = l1 ++ [a] := by
  intro xs
  induction xs with
  | nil => intro ha _; simp at ha
  | cons d tl ih =>
    intro ha hsucc
    rw [listSucc] at hsucc
    by_cases hd : d = a
    · rw [if_pos hd] at hsucc
      obtain rfl : tl = [] := by
        cases tl with
        | nil => rfl
        | cons e tl2 => simp at hsucc
      exact ⟨[], by simp [hd]⟩
    · rw [if_neg hd] at hsucc
      have hatl : a ∈ tl := by
        rcases List.mem_cons.1 ha with hc0 | hc0
        · exact absurd hc0.symm hd
        · exact hc0
      obtain ⟨l1, rfl⟩ := ih hatl hsucc
      exact ⟨d :: l1, rfl⟩

/-- The successor right after the element itself. -/
lemma listSucc_cons_self {a : Nat} {rest : List Nat} :
    listSucc a (a :: rest) = rest.head? := by
  rw [listSucc, if_pos rfl]

/-- More fuel never changes a finished climb. -/
lemma climb_next_loop_mono {h : tree.Heap} : ∀ {f g a : Nat} {res : Option Nat},
    f ≤ g → tree.climb_next_loop h f a = some res →
    tree.climb_next_loop h g a = some res := by
  intro f
  induction f with
  | zero => intro g a res _ hc; rw [tree.climb_next_loop] at hc; cases hc
  | succ f ih =>
    intro g a res hfg hc
    obtain ⟨g, rfl⟩ : ∃ g2, g = g2 + 1 := ⟨g - 1, by omega⟩
    rw [tree.climb_next_loop] at hc ⊢
    by_cases hir : tree.is_right h a = true
    · rw [if_pos hir] at hc ⊢
      cases hp : (h a).parent with
      | none => rw [hp] at hc; cases hc
      | some p =>
        rw [hp] at hc
        exact ih (by omega) hc
    · rw [if_neg hir] at hc ⊢
      exact hc

/-- Climbing from the maximum of a represented subtree passes through the
subtree's root: whatever the climb from the root yields, the climb from the
maximum yields the same. -/
lemma climb_spine {h : tree.Heap} : ∀ {t : BT} {p rt : Nat},
    RepB h p t = true → rootOf t = some rt →
    ∀ {fuel : Nat} {res : Option Nat},
    tree.climb_next_loop h fuel rt = some res →
    tree.climb_next_loop h (fuel + t.size) (maxA t) = some res := by
  intro t
  induction t with
  | leaf => intro p rt _ hroot; simp [rootOf] at hroot
  | node l y r ihl ihr =>
    intro p rt hrep hroot fuel res hc
    obtain rfl : y = rt := by simpa [rootOf] using hroot
    rw [RepB_node] at hrep
    obtain ⟨hp, hlft, hrgt, hrl, hrr⟩ := hrep
    rw [maxA]
    by_cases hre : r = BT.leaf
    · rw [if_pos hre]
      exact climb_next_loop_mono (by omega) hc
    · rw [if_neg hre]
      obtain ⟨rr0, hrr0⟩ : ∃ rr0, rootOf r = some rr0 := by
        cases r with
        | leaf => exact absurd rfl hre
        | node p2 q t2 => exact ⟨q, rfl⟩
      have hstep : tree.climb_next_loop h (fuel + 1) rr0 = some res := by
        rw [tree.climb_next_loop]
        have hpr : (h rr0).parent = some y := by
          cases r with
          | leaf => exact absurd rfl hre
          | node p2 q t2 =>
            obtain rfl : q = rr0 := by simpa [rootOf] using hrr0
            exact (RepB_node.1 hrr).1
        rw [if_pos (by simp [tree.is_right, hpr, hrgt, hrr0]), hpr]
        exact hc
      have := ihr hrr hrr0 hstep
      rw [BT.size_node]
      exact climb_next_loop_mono (by omega) this

/-- The represented maximum has no right child. -/
lemma maxA_right_none {h : tree.Heap} : ∀ {t : BT} {p : Nat},
    RepB h p t = true → t ≠ .leaf → (h (maxA t)).right = none := by
  intro t
  induction t with
  | leaf => intro p _ hne; exact absurd rfl hne
  | node l y r ihl ihr =>
    intro p hrep _
    rw [RepB_node] at hrep
    obtain ⟨hp, hlft, hrgt, hrl, hrr⟩ := hrep
    rw [maxA]
    by_cases hre : r = BT.leaf
    · rw [if_pos hre, hrgt, hre]
      rfl
    · rw [if_neg hre]
      exact ihr hrr hre

/-- Inside a represented subtree, `tree::next` computes the in-order
successor; when there is none, the current node is the represented maximum
with no right child (so the climb continues above the subtree). -/
lemma next_in_subtree {h : tree.Heap} : ∀ {t : BT} {p : Nat},
    RepB h p t = true → t.inorder.Nodup →
    ∀ {a : Nat}, a ∈ t.inorder → ∀ {fuel : Nat}, t.size + 1 ≤ fuel →
    (∀ b, listSucc a t.inorder = some b → tree.next h fuel a = some (some b)) ∧
    (listSucc a t.inorder = none → maxA t = a ∧ (h a).right = none) := by
  intro t
  induction t with
  | leaf => intro p _ _ a ha; simp at ha
  | node l y r ihl ihr =>
    intro p hrep hnd a ha fuel hfuel
    rw [RepB_node] at hrep
    obtain ⟨hp, hlft, hrgt, hrl, hrr⟩ := hrep
    obtain ⟨hndl, hndr, hynl, hynr, hlr⟩ := nodup_node hnd
    rw [BT.size_node] at hfuel
    have hful : l.size + 1 ≤ fuel := by omega
    have hfur : r.size + 1 ≤ fuel := by omega
    rcases (by simpa using ha : a ∈ l.inorder ∨ a = y ∨ a ∈ r.inorder)
      with hml | hml | hml
    · -- a in the left subtree
      have hlne : l ≠ BT.leaf := by
        intro he; rw [he] at hml; simp at hml
      obtain ⟨rl0, hrl0⟩ : ∃ rl0, rootOf l = some rl0 := by
        cases l with
        | leaf => exact absurd rfl hlne
        | node p2 q t2 => exact ⟨q, rfl⟩
      constructor
      · intro b hb
        cases hsl : listSucc a l.inorder with
        | some c =>
          obtain rfl : c = b := by
            rw [BT.inorder_node, listSucc_extend hml hsl] at hb
            exact Option.some.inj hb
          exact (ihl hrl hndl hml hful).1 c hsl
        | none =>
          obtain ⟨hmaxl, harn⟩ := (ihl hrl hndl hml hful).2 hsl
          obtain ⟨l1, hsplit⟩ := listSucc_none_split hml hsl
          have hanl1 : a ∉ l1 := by
            have := hndl
            rw [hsplit, List.nodup_append] at this
            intro hc0
            exact this.2.2 hc0 (by simp)
          obtain rfl : y = b := by
            rw [BT.inorder_node, hsplit, List.append_assoc,
              listSucc_not_mem hanl1] at hb
            rw [List.singleton_append, listSucc_cons_self] at hb
            simpa using hb
          have hbase : tree.climb_next_loop h 1 rl0 = some (some y) := by
            rw [tree.climb_next_loop]
            have hpr : (h rl0).parent = some y := by
              cases l with
              | leaf => exact absurd rfl hlne
              | node p2 q t2 =>
                obtain rfl : q = rl0 := by simpa [rootOf] using hrl0
                exact (RepB_node.1 hrl).1
            have hnotr : ¬(tree.is_right h rl0 = true) := by
              simp only [tree.is_right, hpr, hrgt]
              cases r with
              | leaf => simp [rootOf]
              | node p2 q t2 =>
                simp only [rootOf, beq_iff_eq, Option.some.injEq]
                intro hc0
                have hrl0m : rl0 ∈ l.inorder := rootOf_mem hrl0
                exact hlr rl0 hrl0m (by rw [← hc0]; simp)
            rw [if_neg hnotr, hpr]
          have hclimb := climb_spine hrl hrl0 hbase
          rw [hmaxl] at hclimb
          unfold tree.next
          rw [harn]
          exact climb_next_loop_mono (by omega) hclimb
      · intro hnone
        exfalso
        cases hsl : listSucc a l.inorder with
        | some c =>
          rw [BT.inorder_node, listSucc_extend hml hsl] at hnone
          cases hnone
        | none =>
          obtain ⟨l1, hsplit⟩ := listSucc_none_split hml hsl
          have hanl1 : a ∉ l1 := by
            have := hndl
            rw [hsplit, List.nodup_append] at this
            intro hc0
            exact this.2.2 hc0 (by simp)
          rw [BT.inorder_node, hsplit, List.append_assoc,
            listSucc_not_mem hanl1, List.singleton_append,
            listSucc_cons_self] at hnone
          simp at hnone
    · -- a is this node
      subst hml
      constructor
      · intro b hb
        rw [BT.inorder_node, listSucc_not_mem hynl, listSucc_cons_self] at hb
        by_cases hre : r = BT.leaf
        · rw [hre] at hb; cases hb
        · obtain ⟨p2, q, t2, rfl⟩ : ∃ p2 q t2, r = BT.node p2 q t2 := by
            cases r with
            | leaf => exact absurd rfl hre
            | node p2 q t2 => exact ⟨p2, q, t2, rfl⟩
          obtain ⟨rest, hhead⟩ := @minA_head (BT.node p2 q t2) (by simp)
          rw [hhead] at hb
          obtain rfl : minA (BT.node p2 q t2) = b := by simpa using hb
          have hsz : (BT.node p2 q t2).size ≤ fuel := by omega
          unfold tree.next
          rw [hrgt]
          simp only [rootOf]
          rw [leftmost_loop_ref hrr rfl hsz]
          rfl
      · intro hnone
        rw [BT.inorder_node, listSucc_not_mem hynl, listSucc_cons_self] at hnone
        by_cases hre : r = BT.leaf
        · subst hre
          refine ⟨by rw [maxA, if_pos rfl], by rw [hrgt]; rfl⟩
        · exfalso
          obtain ⟨p2, q, t2, rfl⟩ : ∃ p2 q t2, r = BT.node p2 q t2 := by
            cases r with
            | leaf => exact absurd rfl hre
            | node p2 q t2 => exact ⟨p2, q, t2, rfl⟩
          obtain ⟨rest, hhead⟩ := @minA_head (BT.node p2 q t2) (by simp)
          rw [hhead] at hnone
          cases hnone
    · -- a in the right subtree
      have hrne : r ≠ BT.leaf := by
        intro he; rw [he] at hml; simp at hml
      have hsame : listSucc a (BT.node l y r).inorder = listSucc a r.inorder := by
        rw [BT.inorder_node, listSucc_not_mem (fun hc0 => hlr a hc0 hml),
          listSucc, if_neg (fun hc0 => hynr (by rw [hc0]; exact hml))]
      constructor
      · intro b hb
        rw [hsame] at hb
        exact (ihr hrr hndr hml hfur).1 b hb
      · intro hnone
        rw [hsame] at hnone
        obtain ⟨hmax, hrn⟩ := (ihr hrr hndr hml hfur).2 hnone
        exact ⟨by rw [maxA, if_neg hrne, hmax], hrn⟩

/-- `tree::next` on a represented node attached below the sentinel: the
in-order successor, or the sentinel after the maximum. -/
lemma next_ref {h : tree.Heap} {sent : Nat} {t : BT}
    (hrep : RepB h sent t = true) (hnd : t.inorder.Nodup)
    (hsr : (h sent).right ≠ rootOf t)
    {a : Nat} (ha : a ∈ t.inorder) {fuel : Nat} (hfuel : t.size + 1 ≤ fuel) :
    tree.next h fuel a = some (match listSucc a t.inorder with
      | none => some sent
      | some b => some b) := by
  cases hls : listSucc a t.inorder with
  | some b => exact (next_in_subtree hrep hnd ha hfuel).1 b hls
  | none =>
    obtain ⟨hmax, hrn⟩ := (next_in_subtree hrep hnd ha hfuel).2 hls
    have htne : t ≠ BT.leaf := by
      intro he; rw [he] at ha; simp at ha
    obtain ⟨rt, hrt⟩ : ∃ rt, rootOf t = some rt := by
      cases t with
      | leaf => exact absurd rfl htne
      | node p2 q t2 => exact ⟨q, rfl⟩
    have hbase : tree.climb_next_loop h 1 rt = some (some sent) := by
      rw [tree.climb_next_loop]
      have hpr : (h rt).parent = some sent := by
        cases t with
        | leaf => exact absurd rfl htne
        | node p2 q t2 =>
          obtain rfl : q = rt := by simpa [rootOf] using hrt
          exact (RepB_node.1 hrep).1
      have hnotr : ¬(tree.is_right h rt = true) := by
        simp only [tree.is_right, hpr, beq_iff_eq]
        intro hc0
        exact hsr (by rw [hc0, hrt])
      rw [if_neg hnotr, hpr]
    have hclimb := climb_spine hrep hrt hbase
    rw [hmax] at hclimb
    unfold tree.next
    rw [hrn]
    exact climb_next_loop_mono (by omega) hclimb

/-- The element whose successor `listSucc` reports sits right before it. -/
lemma listSucc_some_split {a c : Nat} : ∀ {xs : List Nat}, a ∈ xs →
    listSucc a xs = some c → ∃ l1 l2, xs = l1 ++ a :: c :: l2 := by
  intro xs
  induction xs with
  | nil => intro ha _; simp at ha
  | cons d tl ih =>
    intro ha hsucc
    rw [listSucc] at hsucc
    by_cases hd : d = a
    · rw [if_pos hd] at hsucc
      subst hd
      cases tl with
      | nil => simp at hsucc
      | cons e tl2 =>
        obtain rfl : e = c := by simpa using hsucc
        exact ⟨[], tl2, rfl⟩
    · rw [if_neg hd] at hsucc
      have hatl : a ∈ tl := by
        rcases List.mem_cons.1 ha with hc0 | hc0
        · exact absurd hc0.symm hd
        · exact hc0
      obtain ⟨l1, l2, rfl⟩ := ih hatl hsucc
      exact ⟨d :: l1, l2, rfl⟩

/-- In a `Pairwise`-ordered list, an element satisfying the predicate all of
whose order-predecessors fail it is the one `find?` returns. -/
lemma find_first {p : Nat → Bool} {ord : Nat → Nat → Prop} :
    ∀ {l : List Nat}, List.Pairwise ord l → ∀ {a : Nat}, a ∈ l → p a = true →
    (∀ b ∈ l, ord b a → p b = false) → l.find? p = some a := by
  intro l
  induction l with
  | nil => intro _ a ha _ _; simp at ha
  | cons c tl ih =>
    intro hpw a ha hpa hprev
    rw [List.pairwise_cons] at hpw
    by_cases hca : c = a
    · subst hca
      rw [List.find?_cons_of_pos _ hpa]
    · have hatl : a ∈ tl := by
        rcases List.mem_cons.1 ha with hc0 | hc0
        · exact absurd hc0.symm hca
        · exact hc0
      have hpc : p c = false := hprev c (by simp) (hpw.1 a hatl)
      rw [List.find?_cons_of_neg _ (by simp [hpc])]
      exact ih hpw.2 hatl hpa (fun b hb hord => hprev b (by simp [hb]) hord)

/-- `lower_bound` matches the conventional half-open-range reading — the first
in-order element not less than the key (end when none); `upper_bound` likewise
with "strictly greater". -/
lemma bounds_conventional {K : Type} {h : tree.Heap} {sent : Nat}
    {val : Nat → K} {lt : K → K → Bool} {t : BT} {k : K} (hs : STO lt)
    (tw : TWF h sent val lt t) (hsr : (h sent).right ≠ rootOf t)
    {fuel : Nat} (hfuel : t.size + 1 ≤ fuel) :
    tree.lower_bound h sent val lt fuel k =
      some (match t.inorder.find? (fun b => !(lt (val b) k)) with
            | some b => some b
            | none => some sent) ∧
    tree.upper_bound h sent val lt fuel k =
      some (match t.inorder.find? (fun b => lt k (val b)) with
            | some b => some b
            | none => some sent) := by
  have hfn : tree.find_nearest h sent val lt fuel k =
      some (match findNearestT val lt k t with | none => sent | some a => a) :=
    find_nearest_ref tw.rep tw.att (by omega)
  cases hft : findNearestT val lt k t with
  | none =>
    have htleaf : t = BT.leaf := by
      by_contra hc
      exact findNearestT_ne_none val lt k t hc hft
    subst htleaf
    rw [hft] at hfn
    constructor
    · unfold tree.lower_bound
      rw [hfn]
      simp
    · unfold tree.upper_bound
      rw [hfn]
      simp
  | some a =>
    rw [hft] at hfn
    have hmem : a ∈ t.inorder := findNearestT_mem hft
    have hane : a ≠ sent := fun hc0 => tw.sentOut (hc0 ▸ hmem)
    obtain ⟨bl, br⟩ := findNearestT_bracket hs tw.bst hft
    have hsorted : List.Pairwise (fun u v => lt (val u) (val v) = true) t.inorder :=
      (bstB_iff_pairwise hs).1 tw.bst
    constructor
    · unfold tree.lower_bound
      rw [hfn]
      dsimp only
      rw [if_neg hane]
      cases hplt : lt (val a) k with
      | false =>
        rw [if_pos (by rfl)]
        have hfind : t.inorder.find? (fun b => !(lt (val b) k)) = some a := by
          refine find_first hsorted hmem (by rw [hplt]; rfl) ?_
          intro b hb hord
          rw [bl b hb hord]
          rfl
        rw [hfind]
      | true =>
        rw [if_neg (by simp)]
        rw [next_ref tw.rep tw.nd hsr hmem hfuel]
        cases hls : listSucc a t.inorder with
        | none =>
          obtain ⟨l1, hsplit⟩ := listSucc_none_split hmem hls
          have hnone : t.inorder.find? (fun b => !(lt (val b) k)) = none := by
            rw [List.find?_eq_none]
            intro b hb
            rw [hsplit] at hb
            rcases (by simpa using hb : b ∈ l1 ∨ b = a) with hc0 | hc0
            · have hba : lt (val b) (val a) = true := by
                rw [hsplit] at hsorted
                rw [List.pairwise_append] at hsorted
                exact hsorted.2.2 b hc0 a (by simp)
              rw [bl b (by rw [hsplit]; simp [hc0]) hba]
              simp
            · rw [hc0, hplt]
              simp
          rw [hnone]
        | some c =>
          obtain ⟨l1, l2, hsplit⟩ := listSucc_some_split hmem hls
          have hcm : c ∈ t.inorder := by rw [hsplit]; simp
          rw [hsplit, List.pairwise_append] at hsorted
          obtain ⟨hpw1, hpw2, hcross⟩ := hsorted
          rw [List.pairwise_cons] at hpw2
          obtain ⟨hafter, hpw3⟩ := hpw2
          rw [List.pairwise_cons] at hpw3
          obtain ⟨hcafter, _⟩ := hpw3
          have hac : lt (val a) (val c) = true := hafter c (by simp)
          have hkc : lt k (val c) = true := br c hcm hac
          have hfind : t.inorder.find? (fun b => !(lt (val b) k)) = some c := by
            refine find_first ((bstB_iff_pairwise hs).1 tw.bst) hcm
              (by rw [hs.asymm hkc]; rfl) ?_
            intro b hb hord
            rw [hsplit] at hb
            rcases (by simpa using hb : b ∈ l1 ∨ b = a ∨ b = c ∨ b ∈ l2)
              with hc0 | hc0 | hc0 | hc0
            · have hba : lt (val b) (val a) = true := hcross b hc0 a (by simp)
              rw [bl b (by rw [hsplit]; simp [hc0]) hba]
              rfl
            · rw [hc0, hplt]
              rfl
            · rw [hc0, hs.irrefl] at hord
              cases hord
            · rw [hs.asymm (hcafter b hc0)] at hord
              cases hord
          rw [hfind]
    · unfold tree.upper_bound
      rw [hfn]
      dsimp only
      rw [if_neg hane]
      cases hplt : lt k (val a) with
      | true =>
        rw [if_pos (by rfl)]
        have hfind : t.inorder.find? (fun b => lt k (val b)) = some a := by
          refine find_first hsorted hmem hplt ?_
          intro b hb hord
          exact hs.asymm (bl b hb hord)
        rw [hfind]
      | false =>
        rw [if_neg (by simp)]
        rw [next_ref tw.rep tw.nd hsr hmem hfuel]
        cases hls : listSucc a t.inorder with
        | none =>
          obtain ⟨l1, hsplit⟩ := listSucc_none_split hmem hls
          have hnone : t.inorder.find? (fun b => lt k (val b)) = none := by
            rw [List.find?_eq_none]
            intro b hb
            rw [hsplit] at hb
            rcases (by simpa using hb : b ∈ l1 ∨ b = a) with hc0 | hc0
            · have hba : lt (val b) (val a) = true := by
                rw [hsplit] at hsorted
                rw [List.pairwise_append] at hsorted
                exact hsorted.2.2 b hc0 a (by simp)
              rw [hs.asymm (bl b (by rw [hsplit]; simp [hc0]) hba)]
              simp
            · rw [hc0, hplt]
              simp
          rw [hnone]
        | some c =>
          obtain ⟨l1, l2, hsplit⟩ := listSucc_some_split hmem hls
          have hcm : c ∈ t.inorder := by rw [hsplit]; simp
          rw [hsplit, List.pairwise_append] at hsorted
          obtain ⟨hpw1, hpw2, hcross⟩ := hsorted
          rw [List.pairwise_cons] at hpw2
          obtain ⟨hafter, hpw3⟩ := hpw2
          rw [List.pairwise_cons] at hpw3
          obtain ⟨hcafter, _⟩ := hpw3
          have hac : lt (val a) (val c) = true := hafter c (by simp)
          have hkc : lt k (val c) = true := br c hcm hac
          have hfind : t.inorder.find? (fun b => lt k (val b)) = some c := by
            refine find_first ((bstB_iff_pairwise hs).1 tw.bst) hcm hkc ?_
            intro b hb hord
            rw [hsplit] at hb
            rcases (by simpa using hb : b ∈ l1 ∨ b = a ∨ b = c ∨ b ∈ l2)
              with hc0 | hc0 | hc0 | hc0
            · have hba : lt (val b) (val a) = true := hcross b hc0 a (by simp)
              exact hs.asymm (bl b (by rw [hsplit]; simp [hc0]) hba)
            · rw [hc0, hplt]
            · rw [hc0, hs.irrefl] at hord
              cases hord
            · rw [hs.asymm (hcafter b hc0)] at hord
              cases hord
          rw [hfind]

/-- A one-node engine for exercising the bound queries: sentinel `0`, single
node `2`. -/
def boundHeap : tree.Heap := fun n =>
  if n = 0 then ⟨none, some 2, none⟩
  else if n = 2 then ⟨some 0, none, none⟩
  else ⟨none, none, none⟩

/-- C4 (corrected): both bound queries run `find_nearest` and both return
either that node or its successor, but the comparison conditions are the
mirror image of what the claim states: `lower_bound` keeps the `find_nearest`
node when it is the end position or compares greater-or-equal to the key
(`!(lt (val res) k)`), and moves to its successor otherwise; `upper_bound`
keeps it when it is end or compares strictly greater (`lt k (val res)`), and
moves to the successor otherwise.  Both results agree with the conventional
half-open-range semantics: `lower_bound` is the first in-order element not
less than the key and `upper_bound` the first strictly greater, end when no
such element exists. -/
theorem C4_bounds_corrected {K : Type} {h : tree.Heap} {sent : Nat}
    {val : Nat → K} {lt : K → K → Bool} {t : BT} {k : K} (hs : STO lt)
    (tw : TWF h sent val lt t) (hsr : (h sent).right ≠ rootOf t)
    {fuel : Nat} (hfuel : t.size + 1 ≤ fuel) :
    (∀ res, tree.find_nearest h sent val lt fuel k = some res →
      ((res = sent ∨ (!(lt (val res) k)) = true) →
        tree.lower_bound h sent val lt fuel k = some (some res)) ∧
      (res ≠ sent → lt (val res) k = true →
        tree.lower_bound h sent val lt fuel k = tree.next h fuel res) ∧
      ((res = sent ∨ lt k (val res) = true) →
        tree.upper_bound h sent val lt fuel k = some (some res)) ∧
      (res ≠ sent → lt k (val res) = false →
        tree.upper_bound h sent val lt fuel k = tree.next h fuel res)) ∧
    tree.lower_bound h sent val lt fuel k =
      some (match t.inorder.find? (fun b => !(lt (val b) k)) with
            | some b => some b
            | none => some sent) ∧
    tree.upper_bound h sent val lt fuel k =
      some (match t.inorder.find? (fun b => lt k (val b)) with
            | some b => some b
            | none => some sent) := by
  refine ⟨?_, (bounds_conventional hs tw hsr hfuel).1,
    (bounds_conventional hs tw hsr hfuel).2⟩
  intro res hres
  refine ⟨?_, ?_, ?_, ?_⟩
  · intro hc
    unfold tree.lower_bound
    rw [hres]
    dsimp only
    rcases hc with hc | hc
    · rw [if_pos hc]
    · by_cases hsen : res = sent
      · rw [if_pos hsen]
      · rw [if_neg hsen, if_pos hc]
  · intro hne hlt
    unfold tree.lower_bound
    rw [hres]
    dsimp only
    rw [if_neg hne, if_neg (by rw [hlt]; simp)]
  · intro hc
    unfold tree.upper_bound
    rw [hres]
    dsimp only
    rcases hc with hc | hc
    · rw [if_pos hc]
    · by_cases hsen : res = sent
      · rw [if_pos hsen]
      · rw [if_neg hsen, if_pos hc]
  · intro hne hlt
    unfold tree.upper_bound
    rw [hres]
    dsimp only
    rw [if_neg hne, if_neg (by rw [hlt]; simp)]

/-- Witness for C4 on the one-node engine with key `1 < 2`: the conventional
characterisation, plus the corrected mechanism at the `find_nearest` node `2`,
which compares greater-or-equal to the key and is therefore what `lower_bound`
returns. -/
theorem C4_corrected_witness :
    tree.lower_bound boundHeap 0 (fun n => (n : Int)) intLt 9 (1 : Int) =
      some (match (BT.node BT.leaf 2 BT.leaf).inorder.find?
            (fun b => !(intLt ((b : Nat) : Int) 1)) with
            | some b => some b
            | none => some 0) ∧
    tree.upper_bound boundHeap 0 (fun n => (n : Int)) intLt 9 (1 : Int) =
      some (match (BT.node BT.leaf 2 BT.leaf).inorder.find?
            (fun b => intLt (1 : Int) ((b : Nat) : Int)) with
            | some b => some b
            | none => some 0) ∧
    tree.lower_bound boundHeap 0 (fun n => (n : Int)) intLt 9 (1 : Int) =
      some (some 2) := by
  have htw : TWF boundHeap 0 (fun n => (n : Int)) intLt
      (BT.node BT.leaf 2 BT.leaf) :=
    ⟨by decide, by decide, by decide, by decide, by decide⟩
  have hmain := @C4_bounds_corrected Int boundHeap 0 (fun n => (n : Int))
    intLt (BT.node BT.leaf 2 BT.leaf) (1 : Int) STO_intLt htw (by decide)
    9 (by decide)
  exact ⟨hmain.2.1, hmain.2.2,
    ((hmain.1 2 (by decide)).1 (Or.inr (by decide)))⟩

/-- Counterexample to the claim's stated mechanism, at the present key `2` of
the one-node engine: `find_nearest` stops on node `2`, which is not the end
position, does not compare strictly greater than the key, and does compare
greater-or-equal to it, and whose successor is the end position `0`.  The
claim's mechanism therefore demands that `lower_bound` return the successor
(end) and that `upper_bound` return the node itself; the code does the exact
opposite: `lower_bound` returns the node `2` and `upper_bound` the end
position `0`. -/
theorem C4_claim_mechanism_false :
    tree.find_nearest boundHeap 0 (fun n => (n : Int)) intLt 9 (2 : Int) =
      some 2 ∧
    (2 : Nat) ≠ 0 ∧
    intLt (2 : Int) (((2 : Nat) : Nat) : Int) = false ∧
    (!(intLt (((2 : Nat) : Nat) : Int) (2 : Int))) = true ∧
    tree.next boundHeap 9 2 = some (some 0) ∧
    tree.lower_bound boundHeap 0 (fun n => (n : Int)) intLt 9 (2 : Int) =
      some (some 2) ∧
    tree.lower_bound boundHeap 0 (fun n => (n : Int)) intLt 9 (2 : Int) ≠
      some (some 0) ∧
    tree.upper_bound boundHeap 0 (fun n => (n : Int)) intLt 9 (2 : Int) =
      some (some 0) ∧
    tree.upper_bound boundHeap 0 (fun n => (n : Int)) intLt 9 (2 : Int) ≠
      some (some 2) := by
  refine ⟨by decide, by decide, by decide, by decide, by decide, by decide,
    by decide, by decide, by decide⟩

/-!
## Bimap-level erase
-/

/-- Membership after a shape-level erase: everything but the erased address. -/
lemma eraseT_mem_iff {t : BT} (hnd : t.inorder.Nodup) {a : Nat} (ha : a ∈ t.inorder)
    {z : Nat} : z ∈ (eraseT a t).inorder ↔ (z ∈ t.inorder ∧ z ≠ a) := by
  obtain ⟨l1, l2, h1, h2⟩ := eraseT_inorder_split hnd ha
  have hnd2 : (l1 ++ a :: l2).Nodup := by rw [← h1]; exact hnd
  rw [List.nodup_append] at hnd2
  have hal1 : a ∉ l1 := fun hc => hnd2.2.2 hc (by simp)
  have hal2 : a ∉ l2 := by
    have := hnd2.2.1
    rw [List.nodup_cons] at this
    exact this.1
  rw [h2, h1]
  constructor
  · intro hz
    rcases List.mem_append.1 hz with hz | hz
    · exact ⟨by simp [hz], fun hc => hal1 (hc ▸ hz)⟩
    · exact ⟨by simp [hz], fun hc => hal2 (hc ▸ hz)⟩
  · rintro ⟨hz, hza⟩
    rcases (by simpa using hz : z ∈ l1 ∨ z = a ∨ z ∈ l2) with hz | hz | hz
    · simp [hz]
    · exact absurd hz hza
    · simp [hz]

/-- The erased shape keeps distinct addresses. -/
lemma eraseT_nodup {t : BT} (hnd : t.inorder.Nodup) (a : Nat) :
    (eraseT a t).inorder.Nodup := by
  by_cases ha : a ∈ t.inorder
  · obtain ⟨l1, l2, h1, h2⟩ := eraseT_inorder_split hnd ha
    rw [h2]
    have hnd2 : (l1 ++ a :: l2).Nodup := by rw [← h1]; exact hnd
    exact ((List.sublist_cons_self a l2).append_left l1).nodup hnd2
  · rw [eraseT_not_mem ha]
    exact hnd

/-- Addresses of the erased shape come from the shape. -/
lemma eraseT_subset {t : BT} (hnd : t.inorder.Nodup) (a : Nat) :
    ∀ z ∈ (eraseT a t).inorder, z ∈ t.inorder := by
  by_cases ha : a ∈ t.inorder
  · intro z hz
    exact ((eraseT_mem_iff hnd ha).1 hz).1
  · rw [eraseT_not_mem ha]
    intro z hz
    exact hz

/-- One erase takes one off the node count. -/
lemma eraseT_length {t : BT} (hnd : t.inorder.Nodup) {a : Nat} (ha : a ∈ t.inorder) :
    (eraseT a t).inorder.length + 1 = t.inorder.length := by
  obtain ⟨l1, l2, h1, h2⟩ := eraseT_inorder_split hnd ha
  rw [h1, h2]
  simp
  omega

/-- Erasing the distinguished middle element of a split. -/
lemma erase_of_split {c : Nat} {p q : List Nat} (hc : c ∉ p) :
    (p ++ c :: q).erase c = p ++ q := by
  rw [List.erase_append_right _ (by simpa using hc), List.erase_cons_head]

/-- The right shape after a paired erase still mirrors the left shape. -/
lemma pairR_erase {tL tR : BT} {a : Nat}
    (hndL : tL.inorder.Nodup) (hndR : tR.inorder.Nodup)
    (hperm : tR.inorder.Perm (tL.inorder.map (fun z => z + 1)))
    (ha : a ∈ tL.inorder) (haR : a + 1 ∈ tR.inorder) :
    (eraseT (a + 1) tR).inorder.Perm ((eraseT a tL).inorder.map (fun z => z + 1)) := by
  obtain ⟨l1, l2, hL1, hL2⟩ := eraseT_inorder_split hndL ha
  obtain ⟨r1, r2, hR1, hR2⟩ := eraseT_inorder_split hndR haR
  have hndL2 : (l1 ++ a :: l2).Nodup := by rw [← hL1]; exact hndL
  have hndR2 : (r1 ++ (a + 1) :: r2).Nodup := by rw [← hR1]; exact hndR
  rw [List.nodup_append] at hndL2 hndR2
  have hal1 : a ∉ l1 := fun hc => hndL2.2.2 hc (by simp)
  have har1 : a + 1 ∉ r1 := fun hc => hndR2.2.2 hc (by simp)
  have e1 : (eraseT (a + 1) tR).inorder = tR.inorder.erase (a + 1) := by
    rw [hR2, hR1, erase_of_split har1]
  have e2 : (eraseT a tL).inorder.map (fun z => z + 1) =
      (tL.inorder.map (fun z => z + 1)).erase (a + 1) := by
    rw [hL2, hL1]
    simp only [List.map_append, List.map_cons]
    rw [erase_of_split (by
      intro hc
      obtain ⟨z, hz, hz1⟩ := List.mem_map.1 hc
      obtain rfl : z = a := by omega
      exact hal1 hz)]
  rw [e1, e2]
  exact hperm.erase (a + 1)

variable {L R : Type}

namespace bimap

/-- Full specification of `bimap::erase_left(left_iterator)` on a linked
position: the pair record is unlinked from both engines, the counter drops by
one, and the returned iterator is the in-order successor (end when the
maximum was erased). -/
lemma erase_left_it_spec {w : World L R} {b : Store L R} {tL tR : BT}
    (hs : SRep w b tL tR) (hoL : STO b.cmpL) (hoR : STO b.cmpR)
    {a : Nat} (ha : a ∈ tL.inorder)
    {fuel : Nat} (hfL : tL.size + 1 ≤ fuel) (hfR : tR.size + 1 ≤ fuel) :
    ∃ w1, erase_left_it w b fuel (some a) =
        some (w1, ⟨b.sentL, b.sentR, b.siz - 1, b.cmpL, b.cmpR⟩,
          some (match listSucc a tL.inorder with
                | none => b.sentL
                | some c => c)) ∧
      SRep w1 ⟨b.sentL, b.sentR, b.siz - 1, b.cmpL, b.cmpR⟩
        (eraseT a tL) (eraseT (a + 1) tR) ∧
      w1.valL = w.valL ∧ w1.valR = w.valR ∧ w1.alloc = w.alloc := by
  have hane : a ≠ b.sentL := fun hc => hs.sLoutL (hc ▸ ha)
  have htLne : tL ≠ BT.leaf := by
    intro he; rw [he] at ha; simp at ha
  have hsrL : (w.heap b.sentL).right ≠ rootOf tL := by
    rw [hs.lnkL]
    cases tL with
    | leaf => exact absurd rfl htLne
    | node p2 q t2 =>
      simp only [rootOf, ne_eq, Option.some.injEq]
      intro hc0
      exact hs.sRoutL (by rw [hc0]; simp)
  have haR : a + 1 ∈ tR.inorder := hs.memR_iff.2 ⟨a, ha, rfl⟩
  have hSl : (if true then (w.heap b.sentL).left = rootOf tL
      else (w.heap b.sentL).right = rootOf tL) := by simpa using hs.attL
  obtain ⟨h1, heq1, hrep1, hslot1, hpar1, hframe1, hpara1⟩ :=
    erase_ref hs.repL hs.ndL hs.sLoutL ha hSl (fun hc0 => by cases hc0)
      (show tL.size ≤ fuel by omega)
  obtain ⟨hsl1, hsl2⟩ : (h1 b.sentL).left = rootOf (eraseT a tL) ∧
      (h1 b.sentL).right = (w.heap b.sentL).right := by simpa using hslot1
  have hkeep1 : ∀ z, z ∉ tL.inorder → z ≠ b.sentL → h1 z = w.heap z := hframe1
  have h1sR : h1 b.sentR = w.heap b.sentR :=
    hkeep1 b.sentR hs.sRoutL (Ne.symm hs.sneq)
  have h1tR : ∀ z ∈ tR.inorder, h1 z = w.heap z := by
    intro z hz
    exact hkeep1 z (hs.disjRL z hz) (fun hc => hs.sLoutR (hc ▸ hz))
  have hrepR1 : RepB h1 b.sentR tR = true :=
    RepB_frame h1tR hs.repR
  have hflip : flipL h1 (some a) = some (a + 1) := by
    unfold flipL
    dsimp only
    rw [if_neg (by
      rw [hpara1]
      exact RepB_parent_ne_none hs.repL a ha)]
  have hSr : (if true then (h1 b.sentR).left = rootOf tR
      else (h1 b.sentR).right = rootOf tR) := by
    rw [h1sR]
    simpa using hs.attR
  obtain ⟨h2, heq2, hrep2, hslot2, hpar2, hframe2, hpara2⟩ :=
    erase_ref hrepR1 hs.ndR hs.sRoutR haR hSr (fun hc0 => by cases hc0)
      (show tR.size ≤ fuel by omega)
  obtain ⟨hsr1, hsr2⟩ : (h2 b.sentR).left = rootOf (eraseT (a + 1) tR) ∧
      (h2 b.sentR).right = (h1 b.sentR).right := by simpa using hslot2
  have hkeep2 : ∀ z, z ∉ tR.inorder → z ≠ b.sentR → h2 z = h1 z := hframe2
  have h2sL : h2 b.sentL = h1 b.sentL :=
    hkeep2 b.sentL hs.sLoutR hs.sneq
  have h2tL : ∀ z ∈ tL.inorder, h2 z = h1 z := by
    intro z hz
    exact hkeep2 z (hs.disjLR z hz) (fun hc => hs.sRoutL (hc ▸ hz))
  have heq : erase_left_it w b fuel (some a) =
      some (⟨h2, w.valL, w.valR, w.alloc⟩,
        ⟨b.sentL, b.sentR, b.siz - 1, b.cmpL, b.cmpR⟩,
        some (match listSucc a tL.inorder with
              | none => b.sentL
              | some c => c)) := by
    unfold erase_left_it
    dsimp only
    rw [if_neg hane]
    rw [next_ref hs.repL hs.ndL hsrL ha hfL]
    dsimp only
    rw [heq1]
    dsimp only
    rw [hflip, heq2]
    dsimp only
    cases listSucc a tL.inorder <;> rfl
  refine ⟨⟨h2, w.valL, w.valR, w.alloc⟩, heq, ?_, rfl, rfl, rfl⟩
  have hsubL := eraseT_subset hs.ndL a
  have hsubR := eraseT_subset hs.ndR (a + 1)
  refine ⟨?_, ?_, ?_, ?_, hrep2, hsr1, ?_, ?_, ?_, ?_, ?_, ?_, ?_, ?_, ?_, ?_, ?_,
    hs.sneq, hs.sLlt, hs.sRlt, ?_, hs.alEven⟩ <;> (try dsimp only)
  · -- repL
    refine RepB_frame ?_ hrep1
    intro z hz
    have hzL : z ∈ tL.inorder := hsubL z hz
    exact h2tL z hzL
  · -- attL
    rw [h2sL]
    exact hsl1
  · -- parL
    rw [h2sL, hpar1]
    exact hs.parL
  · -- lnkL
    rw [h2sL, hsl2]
    exact hs.lnkL
  · -- parR
    rw [hpar2, h1sR]
    exact hs.parR
  · -- lnkR
    rw [hsr2, h1sR]
    exact hs.lnkR
  · -- ndL
    exact eraseT_nodup hs.ndL a
  · -- bstL
    exact eraseT_bst hoL hs.ndL hs.bstL a
  · -- bstR
    exact eraseT_bst hoR hs.ndR hs.bstR (a + 1)
  · -- pairR
    exact pairR_erase hs.ndL hs.ndR hs.pairR ha haR
  · -- evenL
    intro z hz
    exact hs.evenL z (hsubL z hz)
  · -- sLoutL
    exact fun hc => hs.sLoutL (hsubL _ hc)
  · -- sLoutR
    exact fun hc => hs.sLoutR (hsubR _ hc)
  · -- sRoutL
    exact fun hc => hs.sRoutL (hsubL _ hc)
  · -- sRoutR
    exact fun hc => hs.sRoutR (hsubR _ hc)
  · -- szEq
    have hlen := eraseT_length hs.ndL ha
    have hsz := hs.szEq
    rw [BT.size] at *
    omega

/-- Full specification of `bimap::erase_right(right_iterator)` on a linked
position, mirror of the left version. -/
lemma erase_right_it_spec {w : World L R} {b : Store L R} {tL tR : BT}
    (hs : SRep w b tL tR) (hoL : STO b.cmpL) (hoR : STO b.cmpR)
    {x : Nat} (hx : x ∈ tR.inorder)
    {fuel : Nat} (hfL : tL.size + 1 ≤ fuel) (hfR : tR.size + 1 ≤ fuel) :
    ∃ w1, erase_right_it w b fuel (some x) =
        some (w1, ⟨b.sentL, b.sentR, b.siz - 1, b.cmpL, b.cmpR⟩,
          some (match listSucc x tR.inorder with
                | none => b.sentR
                | some c => c)) ∧
      SRep w1 ⟨b.sentL, b.sentR, b.siz - 1, b.cmpL, b.cmpR⟩
        (eraseT (x - 1) tL) (eraseT x tR) ∧
      w1.valL = w.valL ∧ w1.valR = w.valR ∧ w1.alloc = w.alloc := by
  obtain ⟨aL, haL, haLx⟩ := hs.memR_iff.1 hx
  have hxne : x ≠ b.sentR := fun hc => hs.sRoutR (hc ▸ hx)
  have htRne : tR ≠ BT.leaf := by
    intro he; rw [he] at hx; simp at hx
  have hsrR : (w.heap b.sentR).right ≠ rootOf tR := by
    rw [hs.lnkR]
    cases tR with
    | leaf => exact absurd rfl htRne
    | node p2 q t2 =>
      simp only [rootOf, ne_eq, Option.some.injEq]
      intro hc0
      exact hs.sLoutR (by rw [hc0]; simp)
  have hx1 : x - 1 = aL := by omega
  have hSr : (if true then (w.heap b.sentR).left = rootOf tR
      else (w.heap b.sentR).right = rootOf tR) := by simpa using hs.attR
  obtain ⟨h1, heq1, hrep1, hslot1, hpar1, hframe1, hpara1⟩ :=
    erase_ref hs.repR hs.ndR hs.sRoutR hx hSr (fun hc0 => by cases hc0)
      (show tR.size ≤ fuel by omega)
  obtain ⟨hsr1, hsr2⟩ : (h1 b.sentR).left = rootOf (eraseT x tR) ∧
      (h1 b.sentR).right = (w.heap b.sentR).right := by simpa using hslot1
  have hkeep1 : ∀ z, z ∉ tR.inorder → z ≠ b.sentR → h1 z = w.heap z := hframe1
  have h1sL : h1 b.sentL = w.heap b.sentL :=
    hkeep1 b.sentL hs.sLoutR hs.sneq
  have h1tL : ∀ z ∈ tL.inorder, h1 z = w.heap z := by
    intro z hz
    exact hkeep1 z (hs.disjLR z hz) (fun hc => hs.sRoutL (hc ▸ hz))
  have hrepL1 : RepB h1 b.sentL tL = true :=
    RepB_frame h1tL hs.repL
  have hflip : flipR h1 (some x) = some (x - 1) := by
    unfold flipR
    dsimp only
    rw [if_neg (by
      rw [hpara1]
      exact RepB_parent_ne_none hs.repR x hx)]
  have hSl : (if true then (h1 b.sentL).left = rootOf tL
      else (h1 b.sentL).right = rootOf tL) := by
    rw [h1sL]
    simpa using hs.attL
  have haL1 : x - 1 ∈ tL.inorder := by rw [hx1]; exact haL
  obtain ⟨h2, heq2, hrep2, hslot2, hpar2, hframe2, hpara2⟩ :=
    erase_ref hrepL1 hs.ndL hs.sLoutL haL1 hSl (fun hc0 => by cases hc0)
      (show tL.size ≤ fuel by omega)
  obtain ⟨hsl1, hsl2⟩ : (h2 b.sentL).left = rootOf (eraseT (x - 1) tL) ∧
      (h2 b.sentL).right = (h1 b.sentL).right := by simpa using hslot2
  have hkeep2 : ∀ z, z ∉ tL.inorder → z ≠ b.sentL → h2 z = h1 z := hframe2
  have h2sR : h2 b.sentR = h1 b.sentR :=
    hkeep2 b.sentR hs.sRoutL (Ne.symm hs.sneq)
  have h2tR : ∀ z ∈ tR.inorder, h2 z = h1 z := by
    intro z hz
    exact hkeep2 z (hs.disjRL z hz) (fun hc => hs.sLoutR (hc ▸ hz))
  have heq : erase_right_it w b fuel (some x) =
      some (⟨h2, w.valL, w.valR, w.alloc⟩,
        ⟨b.sentL, b.sentR, b.siz - 1, b.cmpL, b.cmpR⟩,
        some (match listSucc x tR.inorder with
              | none => b.sentR
              | some c => c)) := by
    unfold erase_right_it
    dsimp only
    rw [if_neg hxne]
    rw [next_ref hs.repR hs.ndR hsrR hx hfR]
    dsimp only
    rw [heq1]
    dsimp only
    rw [hflip, heq2]
    dsimp only
    cases listSucc x tR.inorder <;> rfl
  refine ⟨⟨h2, w.valL, w.valR, w.alloc⟩, heq, ?_, rfl, rfl, rfl⟩
  have hsubL := eraseT_subset hs.ndL (x - 1)
  have hsubR := eraseT_subset hs.ndR x
  have hpairR : (eraseT x tR).inorder.Perm
      ((eraseT (x - 1) tL).inorder.map (fun z => z + 1)) := by
    have := pairR_erase hs.ndL hs.ndR hs.pairR haL1 (by rw [hx1, haLx]; exact hx)
    rw [show x - 1 + 1 = x by omega] at this
    exact this
  refine ⟨hrep2, hsl1, ?_, ?_, ?_, ?_, ?_, ?_, ?_, ?_, ?_, hpairR, ?_, ?_, ?_, ?_, ?_,
    hs.sneq, hs.sLlt, hs.sRlt, ?_, hs.alEven⟩ <;> (try dsimp only)
  · -- parL
    rw [hpar2, h1sL]
    exact hs.parL
  · -- lnkL
    rw [hsl2, h1sL]
    exact hs.lnkL
  · -- repR
    refine RepB_frame ?_ hrep1
    intro z hz
    exact h2tR z (hsubR z hz)
  · -- attR
    rw [h2sR]
    exact hsr1
  · -- parR
    rw [h2sR, hpar1]
    exact hs.parR
  · -- lnkR
    rw [h2sR, hsr2]
    exact hs.lnkR
  · -- ndL
    exact eraseT_nodup hs.ndL (x - 1)
  · -- bstL
    exact eraseT_bst hoL hs.ndL hs.bstL (x - 1)
  · -- bstR
    exact eraseT_bst hoR hs.ndR hs.bstR x
  · -- evenL
    intro z hz
    exact hs.evenL z (hsubL z hz)
  · -- sLoutL
    exact fun hc => hs.sLoutL (hsubL _ hc)
  · -- sLoutR
    exact fun hc => hs.sLoutR (hsubR _ hc)
  · -- sRoutL
    exact fun hc => hs.sRoutL (hsubL _ hc)
  · -- sRoutR
    exact fun hc => hs.sRoutR (hsubR _ hc)
  · -- szEq
    have hlen := eraseT_length hs.ndL haL1
    have hsz := hs.szEq
    rw [BT.size] at *
    omega

end bimap

/-- Two distinct members of a `Pairwise`-ordered list are related one way. -/
lemma pairwise_total_of_mem {ord : Nat → Nat → Prop} :
    ∀ {l : List Nat}, List.Pairwise ord l → ∀ {u v : Nat}, u ∈ l → v ∈ l →
    u ≠ v → ord u v ∨ ord v u := by
  intro l
  induction l with
  | nil => intro _ u v hu; simp at hu
  | cons c tl ih =>
    intro hpw u v hu hv hne
    rw [List.pairwise_cons] at hpw
    rcases List.mem_cons.1 hu with hu1 | hu1
    · rcases List.mem_cons.1 hv with hv1 | hv1
      · exact absurd (hu1.trans hv1.symm) hne
      · exact Or.inl (hu1 ▸ hpw.1 v hv1)
    · rcases List.mem_cons.1 hv with hv1 | hv1
      · exact Or.inr (hv1 ▸ hpw.1 u hu1)
      · exact ih hpw.2 hu1 hv1 hne

/-- In a search-tree shape, keys identify nodes. -/
lemma bst_key_unique {K : Type} {lt : K → K → Bool} {val : Nat → K} (hs : STO lt)
    {t : BT} (hbst : bstB lt val t = true)
    {u v : Nat} (hu : u ∈ t.inorder) (hv : v ∈ t.inorder)
    (he : val u = val v) : u = v := by
  by_contra hne
  have hpw := (bstB_iff_pairwise hs).1 hbst
  rcases pairwise_total_of_mem hpw hu hv hne with h1 | h1
  · rw [he, hs.irrefl] at h1; cases h1
  · rw [he, hs.irrefl] at h1; cases h1

/-- A shape with no key equal to `k` has no such key in any sub-selection. -/
lemma hasVal_false_subset {K : Type} {lt : K → K → Bool} {val : Nat → K}
    {t t' : BT} {k : K} (hsub : ∀ z ∈ t'.inorder, z ∈ t.inorder)
    (h : hasVal lt val t k = false) : hasVal lt val t' k = false := by
  rw [hasVal, List.any_eq_false] at h ⊢
  intro z hz
  exact h z (hsub z hz)

/-- `equal` is symmetric. -/
lemma eqv_comm {K : Type} (lt : K → K → Bool) (a b : K) :
    tree.eqv lt a b = tree.eqv lt b a := by
  unfold tree.eqv
  rw [Bool.and_comm]

/-- Key presence as existence of a member carrying the key. -/
lemma hasVal_iff_exists {K : Type} {lt : K → K → Bool} {val : Nat → K} {t : BT}
    {k : K} (hs : STO lt) :
    hasVal lt val t k = true ↔ ∃ a ∈ t.inorder, val a = k := by
  rw [hasVal, List.any_eq_true]
  constructor
  · rintro ⟨a, ha, he⟩
    exact ⟨a, ha, (eqv_iff hs).1 he⟩
  · rintro ⟨a, ha, he⟩
    exact ⟨a, ha, (eqv_iff hs).2 he⟩

namespace bimap

/-- `bimap::at_left` evaluated: `none` inside means the `out_of_range` throw;
a present key dereferences the paired right identity. -/
lemma at_left_spec {w : World L R} {b : Store L R} {tL tR : BT}
    (hs : SRep w b tL tR) (hoL : STO b.cmpL)
    {fuel : Nat} (hfL : tL.size ≤ fuel) (k : L) :
    (hasVal b.cmpL w.valL tL k = false → at_left w b fuel k = some none) ∧
    (hasVal b.cmpL w.valL tL k = true →
      ∃ a ∈ tL.inorder, w.valL a = k ∧
        at_left w b fuel k = some (some (w.valR (a + 1)))) := by
  constructor
  · intro habs
    unfold at_left find_left
    rw [find_absent hoL hs.twfL hfL habs]
    simp
  · intro hpres
    obtain ⟨a, ha, hak, hfind⟩ := find_present hoL hs.twfL hfL hpres
    refine ⟨a, ha, hak, ?_⟩
    unfold at_left find_left
    rw [hfind]
    dsimp only
    rw [if_neg (fun hc => hs.sLoutL (by rw [← hc]; exact ha))]
    unfold flipL
    dsimp only
    rw [if_neg (RepB_parent_ne_none hs.repL a ha)]

/-- `bimap::erase_right(key)`: `false` and no change when the key is absent,
otherwise the unique pair carrying it on the right is removed. -/
lemma erase_right_key_spec {w : World L R} {b : Store L R} {tL tR : BT}
    (hs : SRep w b tL tR) (hoL : STO b.cmpL) (hoR : STO b.cmpR)
    {fuel : Nat} (hfL : tL.size + 1 ≤ fuel) (hfR : tR.size + 1 ≤ fuel) (k : R) :
    (hasVal b.cmpR w.valR tR k = false → erase_right_key w b fuel k = some (w, b, false)) ∧
    (hasVal b.cmpR w.valR tR k = true →
      ∃ x ∈ tR.inorder, w.valR x = k ∧ ∃ w1,
        erase_right_key w b fuel k =
          some (w1, ⟨b.sentL, b.sentR, b.siz - 1, b.cmpL, b.cmpR⟩, true) ∧
        SRep w1 ⟨b.sentL, b.sentR, b.siz - 1, b.cmpL, b.cmpR⟩
          (eraseT (x - 1) tL) (eraseT x tR) ∧
        w1.valL = w.valL ∧ w1.valR = w.valR ∧ w1.alloc = w.alloc) := by
  have hfR2 : tR.size ≤ fuel := by omega
  constructor
  · intro habs
    unfold erase_right_key find_right
    rw [find_absent hoR hs.twfR hfR2 habs]
    dsimp only
    unfold erase_right_it
    dsimp only
    rw [if_pos rfl]
    rfl
  · intro hpres
    obtain ⟨x, hx, hxk, hfind⟩ := find_present hoR hs.twfR hfR2 hpres
    obtain ⟨w1, heq1, hsrep1, hvL1, hvR1, hal1⟩ :=
      erase_right_it_spec hs hoL hoR hx hfL hfR
    refine ⟨x, hx, hxk, w1, ?_, hsrep1, hvL1, hvR1, hal1⟩
    unfold erase_right_key find_right
    rw [hfind]
    dsimp only
    rw [heq1]
    dsimp only
    rfl

/-- `bimap::erase_left(key)`, mirror of the right version. -/
lemma erase_left_key_spec {w : World L R} {b : Store L R} {tL tR : BT}
    (hs : SRep w b tL tR) (hoL : STO b.cmpL) (hoR : STO b.cmpR)
    {fuel : Nat} (hfL : tL.size + 1 ≤ fuel) (hfR : tR.size + 1 ≤ fuel) (k : L) :
    (hasVal b.cmpL w.valL tL k = false → erase_left_key w b fuel k = some (w, b, false)) ∧
    (hasVal b.cmpL w.valL tL k = true →
      ∃ a ∈ tL.inorder, w.valL a = k ∧ ∃ w1,
        erase_left_key w b fuel k =
          some (w1, ⟨b.sentL, b.sentR, b.siz - 1, b.cmpL, b.cmpR⟩, true) ∧
        SRep w1 ⟨b.sentL, b.sentR, b.siz - 1, b.cmpL, b.cmpR⟩
          (eraseT a tL) (eraseT (a + 1) tR) ∧
        w1.valL = w.valL ∧ w1.valR = w.valR ∧ w1.alloc = w.alloc) := by
  have hfL2 : tL.size ≤ fuel := by omega
  constructor
  · intro habs
    unfold erase_left_key find_left
    rw [find_absent hoL hs.twfL hfL2 habs]
    dsimp only
    unfold erase_left_it
    dsimp only
    rw [if_pos rfl]
    rfl
  · intro hpres
    obtain ⟨a, ha, hak, hfind⟩ := find_present hoL hs.twfL hfL2 hpres
    obtain ⟨w1, heq1, hsrep1, hvL1, hvR1, hal1⟩ :=
      erase_left_it_spec hs hoL hoR ha hfL hfR
    refine ⟨a, ha, hak, w1, ?_, hsrep1, hvL1, hvR1, hal1⟩
    unfold erase_left_key find_left
    rw [hfind]
    dsimp only
    rw [heq1]
    dsimp only
    rfl

/-- C1: `at_left_or_default` with a present key returns the paired right value
and changes nothing; with an absent key it evicts the pair carrying the
default right value when one exists, inserts `(key, default)` and returns the
default, after which the evicted pair's left key finds nothing and
`at_left key` yields the default. -/
theorem C1_at_left_or_default {w : World L R} {b : Store L R} {tL tR : BT}
    (hs : SRep w b tL tR) (hoL : STO b.cmpL) (hoR : STO b.cmpR)
    {fuel : Nat} (hfL : tL.size + 2 ≤ fuel) (hfR : tR.size + 2 ≤ fuel)
    (k : L) (dR : R) :
    (hasVal b.cmpL w.valL tL k = true →
      ∃ a ∈ tL.inorder, w.valL a = k ∧
        at_left_or_default w b fuel k dR = some (w, b, some (w.valR (a + 1)))) ∧
    (hasVal b.cmpL w.valL tL k = false →
      ∃ w2 b2 tL2 tR2,
        at_left_or_default w b fuel k dR = some (w2, b2, some dR) ∧
        SRep w2 b2 tL2 tR2 ∧
        b2.sentL = b.sentL ∧ b2.sentR = b.sentR ∧
        b2.cmpL = b.cmpL ∧ b2.cmpR = b.cmpR ∧
        at_left w2 b2 fuel k = some (some dR) ∧
        (∀ x ∈ tR.inorder, w.valR x = dR →
          find_left w2 b2 fuel (w.valL (x - 1)) = some b.sentL)) := by
  have hfL1 : tL.size ≤ fuel := by omega
  have hfR1 : tR.size ≤ fuel := by omega
  have hfL2 : tL.size + 1 ≤ fuel := by omega
  have hfR2 : tR.size + 1 ≤ fuel := by omega
  constructor
  · intro hpres
    obtain ⟨a, ha, hak, hfind⟩ := find_present hoL hs.twfL hfL1 hpres
    obtain ⟨a2, ha2, hak2, hat⟩ := (at_left_spec hs hoL hfL1 k).2 hpres
    refine ⟨a2, ha2, hak2, ?_⟩
    unfold at_left_or_default find_left
    rw [hfind]
    dsimp only
    rw [if_neg (fun hc => hs.sLoutL (by rw [← hc]; exact ha))]
    rw [hat]
  · intro habs
    have hfabs := find_absent hoL hs.twfL hfL1 habs
    cases hhr : hasVal b.cmpR w.valR tR dR with
    | false =>
      have herk := (erase_right_key_spec hs hoL hoR hfL2 hfR2 dR).1 hhr
      obtain ⟨w2, hbieq, hsrep2, hvL2, hvR2, hal2, hframe2⟩ :=
        (base_insert_spec hs hoL hoR hfL1 hfR1 k dR).2 habs hhr
      have hvLsame : ∀ z ∈ tL.inorder, fset w.valL w.alloc k z = w.valL z := by
        intro z hz
        unfold fset
        rw [if_neg (by have := hs.memL_lt z hz; omega)]
      have hvLaL : fset w.valL w.alloc k w.alloc = k := by unfold fset; simp
      have habL1 : hasVal b.cmpL (fset w.valL w.alloc k) tL
          (fset w.valL w.alloc k w.alloc) = false := by
        rw [hvLaL, hasVal_congr hvLsame]
        exact habs
      have hperm := insertT_inorder_perm habL1
      have hmemaL : w.alloc ∈
          (insertT (fset w.valL w.alloc k) b.cmpL w.alloc tL).inorder :=
        hperm.mem_iff.2 (by simp)
      have hvdr : w2.valR (w.alloc + 1) = dR := by
        rw [hvR2]
        unfold fset
        simp
      have hsz2 : (insertT (fset w.valL w.alloc k) b.cmpL w.alloc tL).size ≤ fuel := by
        rw [BT.size, hperm.length_eq]
        rw [BT.size] at hfL
        simp only [List.length_cons]
        omega
      have hpres2 : hasVal b.cmpL w2.valL
          (insertT (fset w.valL w.alloc k) b.cmpL w.alloc tL) k = true := by
        rw [hasVal_iff_exists hoL]
        exact ⟨w.alloc, hmemaL, by rw [hvL2]; exact hvLaL⟩
      obtain ⟨a2, ha2, hak2, hat2⟩ := (at_left_spec hsrep2 hoL hsz2 k).2 hpres2
      have ha2eq : a2 = w.alloc := by
        refine bst_key_unique hoL hsrep2.bstL ha2 hmemaL ?_
        rw [hak2, hvL2, hvLaL]
      have hat2dr : at_left w2 ⟨b.sentL, b.sentR, b.siz + 1, b.cmpL, b.cmpR⟩
          fuel k = some (some dR) := by
        rw [hat2, ha2eq, hvdr]
      have hflip2 : flipL w2.heap (some w.alloc) = some (w.alloc + 1) := by
        unfold flipL
        dsimp only
        rw [if_neg (RepB_parent_ne_none hsrep2.repL w.alloc hmemaL)]
      refine ⟨w2, ⟨b.sentL, b.sentR, b.siz + 1, b.cmpL, b.cmpR⟩, _, _, ?_,
        hsrep2, rfl, rfl, rfl, rfl, hat2dr, ?_⟩
      · unfold at_left_or_default find_left
        rw [hfabs]
        dsimp only
        rw [if_pos rfl, herk]
        dsimp only
        rw [hbieq]
        dsimp only
        rw [hflip2]
        dsimp only
        rw [hvdr]
      · intro x hx hxd
        exfalso
        have : hasVal b.cmpR w.valR tR dR = true :=
          (hasVal_iff_exists hoR).2 ⟨x, hx, hxd⟩
        rw [this] at hhr
        cases hhr
    | true =>
      obtain ⟨x, hx, hxd, w1, herk, hsrep1, hvL1, hvR1, hal1⟩ :=
        (erase_right_key_spec hs hoL hoR hfL2 hfR2 dR).2 hhr
      obtain ⟨aL, haL, haLx⟩ := hs.memR_iff.1 hx
      have hx1 : x - 1 = aL := by omega
      have haL1 : x - 1 ∈ tL.inorder := by rw [hx1]; exact haL
      have hsubL1 := eraseT_subset hs.ndL (x - 1)
      have hsubR1 := eraseT_subset hs.ndR x
      have hszL1 : (eraseT (x - 1) tL).size ≤ fuel := by
        have := eraseT_length hs.ndL haL1
        rw [BT.size] at *
        omega
      have hszR1 : (eraseT x tR).size ≤ fuel := by
        have := eraseT_length hs.ndR hx
        rw [BT.size] at *
        omega
      have habs1 : hasVal b.cmpL w1.valL (eraseT (x - 1) tL) k = false := by
        rw [hvL1]
        exact hasVal_false_subset hsubL1 habs
      have habsR1 : hasVal b.cmpR w1.valR (eraseT x tR) dR = false := by
        rw [hvR1]
        cases hc : hasVal b.cmpR w.valR (eraseT x tR) dR with
        | false => rfl
        | true =>
          exfalso
          obtain ⟨z, hz, hzd⟩ := (hasVal_iff_exists hoR).1 hc
          have hzx : z = x :=
            bst_key_unique hoR hs.bstR (hsubR1 z hz) hx (by rw [hzd, hxd])
          have := (eraseT_mem_iff hs.ndR hx).1 hz
          exact this.2 hzx
      obtain ⟨w2, hbieq, hsrep2, hvL2, hvR2, hal2, hframe2⟩ :=
        (base_insert_spec hsrep1 hoL hoR hszL1 hszR1 k dR).2 habs1 habsR1
      have hvLsame : ∀ z ∈ (eraseT (x - 1) tL).inorder,
          fset w1.valL w1.alloc k z = w1.valL z := by
        intro z hz
        unfold fset
        rw [if_neg (by have := hsrep1.memL_lt z hz; omega)]
      have hvLaL : fset w1.valL w1.alloc k w1.alloc = k := by unfold fset; simp
      have habL1 : hasVal b.cmpL (fset w1.valL w1.alloc k) (eraseT (x - 1) tL)
          (fset w1.valL w1.alloc k w1.alloc) = false := by
        rw [hvLaL, hasVal_congr hvLsame]
        exact habs1
      have hperm := insertT_inorder_perm habL1
      have hmemaL : w1.alloc ∈
          (insertT (fset w1.valL w1.alloc k) b.cmpL w1.alloc
            (eraseT (x - 1) tL)).inorder :=
        hperm.mem_iff.2 (by simp)
      have hvdr : w2.valR (w1.alloc + 1) = dR := by
        rw [hvR2]
        unfold fset
        simp
      have hsz2 : (insertT (fset w1.valL w1.alloc k) b.cmpL w1.alloc
          (eraseT (x - 1) tL)).size ≤ fuel := by
        rw [BT.size, hperm.length_eq]
        have := eraseT_length hs.ndL haL1
        rw [BT.size] at *
        simp only [List.length_cons]
        omega
      have hpres2 : hasVal b.cmpL w2.valL
          (insertT (fset w1.valL w1.alloc k) b.cmpL w1.alloc
            (eraseT (x - 1) tL)) k = true := by
        rw [hasVal_iff_exists hoL]
        exact ⟨w1.alloc, hmemaL, by rw [hvL2]; exact hvLaL⟩
      obtain ⟨a2, ha2, hak2, hat2⟩ := (at_left_spec hsrep2 hoL hsz2 k).2 hpres2
      have ha2eq : a2 = w1.alloc := by
        refine bst_key_unique hoL hsrep2.bstL ha2 hmemaL ?_
        rw [hak2, hvL2, hvLaL]
      have hat2dr : at_left w2 ⟨b.sentL, b.sentR, b.siz - 1 + 1, b.cmpL, b.cmpR⟩
          fuel k = some (some dR) := by
        rw [hat2, ha2eq, hvdr]
      have hflip2 : flipL w2.heap (some w1.alloc) = some (w1.alloc + 1) := by
        unfold flipL
        dsimp only
        rw [if_neg (RepB_parent_ne_none hsrep2.repL w1.alloc hmemaL)]
      refine ⟨w2, ⟨b.sentL, b.sentR, b.siz - 1 + 1, b.cmpL, b.cmpR⟩, _, _, ?_,
        hsrep2, rfl, rfl, rfl, rfl, hat2dr, ?_⟩
      · unfold at_left_or_default find_left
        rw [hfabs]
        dsimp only
        rw [if_pos rfl, herk]
        dsimp only
        rw [hbieq]
        dsimp only
        rw [hflip2]
        dsimp only
        rw [hvdr]
      · intro z hz hzd
        have hzx : z = x :=
          bst_key_unique hoR hs.bstR hz hx (by rw [hzd, hxd])
        rw [hzx]
        have habsKL : hasVal b.cmpL w2.valL
            (insertT (fset w1.valL w1.alloc k) b.cmpL w1.alloc
              (eraseT (x - 1) tL)) (w.valL (x - 1)) = false := by
          cases hc : hasVal b.cmpL w2.valL
              (insertT (fset w1.valL w1.alloc k) b.cmpL w1.alloc
                (eraseT (x - 1) tL)) (w.valL (x - 1)) with
          | false => rfl
          | true =>
            exfalso
            obtain ⟨u, hu, hud⟩ := (hasVal_iff_exists hoL).1 hc
            rcases insertT_mem hu with hu1 | hu1
            · have hkKL : k = w.valL (x - 1) := by
                rw [← hud, hvL2, hu1, hvLaL]
              have : hasVal b.cmpL w.valL tL k = true :=
                (hasVal_iff_exists hoL).2 ⟨x - 1, haL1, hkKL.symm⟩
              rw [this] at habs
              cases habs
            · have huv : w.valL u = w.valL (x - 1) := by
                rw [← hud, hvL2, hvLsame u hu1, hvL1]
              have hux : u = x - 1 :=
                bst_key_unique hoL hs.bstL (hsubL1 u hu1) haL1 huv
              have := (eraseT_mem_iff hs.ndL haL1).1 hu1
              exact this.2 hux
        unfold find_left
        exact find_absent hoL hsrep2.twfL hsz2 habsKL

/-- Witness for C1 at the one-pair store: key `5` is present and paired with
`7`. -/
theorem C1_witness :
    ∃ a ∈ tLOne.inorder, wOne.valL a = 5 ∧
      bimap.at_left_or_default wOne bOne 9 5 0 =
        some (wOne, bOne, some (wOne.valR (a + 1))) :=
  (C1_at_left_or_default SRep_One STO_intLt STO_intLt
    (by decide) (by decide) 5 0).1 (by decide)

/-- The sentinel's cross-link never aliases the root slot of its own tree. -/
lemma SRep.lnkL_ne_root {w : World L R} {b : Store L R} {tL tR : BT}
    (hs : SRep w b tL tR) : (w.heap b.sentL).right ≠ rootOf tL := by
  rw [hs.lnkL]
  cases tL with
  | leaf => simp [rootOf]
  | node p q t =>
    simp only [rootOf, ne_eq, Option.some.injEq]
    intro hc
    exact hs.sRoutL (by rw [hc]; simp)

/-- A freshly constructed bimap is a well-formed empty store. -/
lemma SRep_mk (w : World L R) (cL : L → L → Bool) (cR : R → R → Bool)
    (he : w.alloc % 2 = 0) :
    SRep (mk w cL cR).1 (mk w cL cR).2 BT.leaf BT.leaf := by
  unfold mk link_trees tree.set_link_to_other_tree
  dsimp only
  have hne : w.alloc ≠ w.alloc + 1 := by omega
  refine ⟨?_, ?_, ?_, ?_, ?_, ?_, ?_, ?_, ?_, ?_, ?_, ?_, ?_, ?_, ?_, ?_, ?_, ?_,
    ?_, ?_, ?_, ?_⟩ <;> (try dsimp only)
  · rfl
  · rw [tree.set_right_other _ _ _ hne]
    simp [tree.set_node_other _ _ _ hne, tree.node_base.nil, rootOf]
  · rw [tree.set_right_other _ _ _ hne]
    simp [tree.set_node_other _ _ _ hne, tree.node_base.nil]
  · rw [tree.set_right_other _ _ _ hne]
    simp
  · rfl
  · simp [tree.node_base.nil, rootOf]
  · simp [tree.node_base.nil]
  · simp
  · simp
  · rfl
  · rfl
  · simp
  · simp
  · simp
  · simp
  · simp
  · simp
  · exact hne
  · omega
  · omega
  · rfl
  · omega

/-- `bimap::erase_left(first, last)` with `last` the end position, starting
from the end or from a linked position: whatever prefix of the walk the fuel
covers, the store stays well formed. -/
lemma erase_left_range_spec {fuel : Nat} : ∀ {steps : Nat} {w : World L R}
    {b : Store L R} {tL tR : BT} {first : Option Nat} {w1 : World L R}
    {b1 : Store L R} {it1 : Option Nat},
    SRep w b tL tR → STO b.cmpL → STO b.cmpR →
    tL.size + 1 ≤ fuel → tR.size + 1 ≤ fuel →
    (first = some b.sentL ∨ ∃ a ∈ tL.inorder, first = some a) →
    erase_left_range fuel steps w b first (some b.sentL) = some (w1, b1, it1) →
    ∃ tL2 tR2, SRep w1 b1 tL2 tR2 ∧
      b1.sentL = b.sentL ∧ b1.sentR = b.sentR ∧
      b1.cmpL = b.cmpL ∧ b1.cmpR = b.cmpR := by
  intro steps
  induction steps with
  | zero =>
    intro w b tL tR first w1 b1 it1 _ _ _ _ _ _ heq
    rw [erase_left_range.eq_def] at heq
    dsimp only at heq
    cases heq
  | succ n ih =>
    intro w b tL tR first w1 b1 it1 hs hoL hoR hfL hfR hfirst heq
    rw [erase_left_range.eq_def] at heq
    dsimp only at heq
    by_cases hfl : first = some b.sentL
    · rw [if_pos hfl] at heq
      simp only [Option.some.injEq, Prod.mk.injEq] at heq
      obtain ⟨rfl, rfl, _⟩ := heq
      exact ⟨tL, tR, hs, rfl, rfl, rfl, rfl⟩
    · rw [if_neg hfl] at heq
      rcases hfirst with hfirst | ⟨a, ha, hfirst⟩
      · exact absurd hfirst hfl
      subst hfirst
      dsimp only at heq
      rw [next_ref hs.repL hs.ndL hs.lnkL_ne_root ha hfL] at heq
      dsimp only at heq
      obtain ⟨wE, heqE, hsrepE, hvLE, hvRE, halE⟩ :=
        erase_left_it_spec hs hoL hoR ha hfL hfR
      rw [heqE] at heq
      dsimp only at heq
      have hfL1 : (eraseT a tL).size + 1 ≤ fuel := by
        have := eraseT_length hs.ndL ha
        rw [BT.size] at *
        omega
      have hfR1 : (eraseT (a + 1) tR).size + 1 ≤ fuel := by
        have := eraseT_length hs.ndR (hs.memR_iff.2 ⟨a, ha, rfl⟩)
        rw [BT.size] at *
        omega
      cases hls : listSucc a tL.inorder with
      | none =>
        rw [hls] at heq
        dsimp only at heq
        obtain ⟨tL2, tR2, hrep2, h1, h2, h3, h4⟩ :=
          ih hsrepE hoL hoR hfL1 hfR1 (Or.inl rfl) heq
        exact ⟨tL2, tR2, hrep2, h1, h2, h3, h4⟩
      | some c =>
        rw [hls] at heq
        dsimp only at heq
        obtain ⟨l1, l2, hsplit⟩ := listSucc_some_split ha hls
        have hcT : c ∈ tL.inorder := by rw [hsplit]; simp
        have hca : c ≠ a := by
          have hnd2 : (l1 ++ a :: c :: l2).Nodup := by rw [← hsplit]; exact hs.ndL
          rw [List.nodup_append] at hnd2
          have := hnd2.2.1
          rw [List.nodup_cons] at this
          intro hc0
          exact this.1 (by rw [← hc0]; simp)
        have hcmem : c ∈ (eraseT a tL).inorder :=
          (eraseT_mem_iff hs.ndL ha).2 ⟨hcT, hca⟩
        obtain ⟨tL2, tR2, hrep2, h1, h2, h3, h4⟩ :=
          ih hsrepE hoL hoR hfL1 hfR1 (Or.inr ⟨c, hcmem, rfl⟩) heq
        exact ⟨tL2, tR2, hrep2, h1, h2, h3, h4⟩

/-- A store's representation survives any world change that leaves its own
cells and its keys alone and only grows the even watermark. -/
lemma SRep_frame {w w' : World L R} {b : Store L R} {tL tR : BT}
    (hs : SRep w b tL tR)
    (hheap : ∀ z, z = b.sentL ∨ z = b.sentR ∨ z ∈ tL.inorder ∨ z ∈ tR.inorder →
      w'.heap z = w.heap z)
    (hvL : ∀ a ∈ tL.inorder, w'.valL a = w.valL a)
    (hvR : ∀ x ∈ tR.inorder, w'.valR x = w.valR x)
    (hal : w.alloc ≤ w'.alloc) (hale : w'.alloc % 2 = 0) :
    SRep w' b tL tR := by
  have hsL := hheap b.sentL (Or.inl rfl)
  have hsR := hheap b.sentR (Or.inr (Or.inl rfl))
  refine ⟨?_, ?_, ?_, ?_, ?_, ?_, ?_, ?_, hs.ndL, ?_, ?_, hs.pairR, ?_,
    hs.sLoutL, hs.sLoutR, hs.sRoutL, hs.sRoutR, hs.sneq, ?_, ?_, hs.szEq, hale⟩
  · exact RepB_frame (fun a ha => hheap a (Or.inr (Or.inr (Or.inl ha)))) hs.repL
  · rw [hsL]; exact hs.attL
  · rw [hsL]; exact hs.parL
  · rw [hsL]; exact hs.lnkL
  · exact RepB_frame (fun x hx => hheap x (Or.inr (Or.inr (Or.inr hx)))) hs.repR
  · rw [hsR]; exact hs.attR
  · rw [hsR]; exact hs.parR
  · rw [hsR]; exact hs.lnkR
  · rw [bstB_congr hvL]; exact hs.bstL
  · rw [bstB_congr hvR]; exact hs.bstR
  · exact fun a ha => ⟨(hs.evenL a ha).1, by have := (hs.evenL a ha).2; omega⟩
  · have := hs.sLlt; omega
  · have := hs.sRlt; omega

/-- The root of a nonempty represented tree: in the shape, and its parent
link names the holder. -/
lemma rootOf_node_facts {h : tree.Heap} {s : Nat} {t : BT} (ht : t ≠ BT.leaf)
    (hrep : RepB h s t = true) :
    ∃ c, rootOf t = some c ∧ c ∈ t.inorder ∧ (h c).parent = some s := by
  cases t with
  | leaf => exact absurd rfl ht
  | node l x r =>
    rw [RepB_node] at hrep
    exact ⟨x, rfl, by simp, hrep.1⟩

/-- Reattaching a nonempty represented subtree under a new holder: only the
root's parent field changes, every other cell of the shape is untouched. -/
lemma RepB_reparent {h h' : tree.Heap} {l : BT} {c : Nat} {r : BT} {s' : Nat}
    {s : Nat} (hrep : RepB h s (BT.node l c r) = true)
    (hnd : (BT.node l c r).inorder.Nodup)
    (hpar : (h' c).parent = some s')
    (hlft : (h' c).left = (h c).left) (hrgt : (h' c).right = (h c).right)
    (hfr : ∀ a ∈ (BT.node l c r).inorder, a ≠ c → h' a = h a) :
    RepB h' s' (BT.node l c r) = true := by
  rw [RepB_node] at hrep
  obtain ⟨_, hl, hr, hrl, hrr⟩ := hrep
  have hndl : c ∉ l.inorder := by
    rw [BT.inorder_node, List.nodup_append] at hnd
    exact fun hc => hnd.2.2 hc (by simp)
  have hndr : c ∉ r.inorder := by
    rw [BT.inorder_node, List.nodup_append] at hnd
    have := hnd.2.1
    rw [List.nodup_cons] at this
    exact this.1
  rw [RepB_node]
  refine ⟨hpar, by rw [hlft]; exact hl, by rw [hrgt]; exact hr, ?_, ?_⟩
  · exact RepB_frame (fun a ha => hfr a (by simp [ha])
      (fun hac => hndl (hac ▸ ha))) hrl
  · exact RepB_frame (fun a ha => hfr a (by simp [ha])
      (fun hac => hndr (hac ▸ ha))) hrr

/-- `intrusive_tree::swap` on two nonempty engines: the four `std::swap`
lines exchange the two sentinels' child slots and re-aim the two roots'
parent links at the opposite sentinel; nothing else moves. -/
lemma tree_swap_spec {h : tree.Heap} {s1 s2 r1 r2 : Nat}
    (h1l : (h s1).left = some r1) (h2l : (h s2).left = some r2)
    (h12 : s1 ≠ s2) (h1r1 : s1 ≠ r1) (h1r2 : s1 ≠ r2)
    (h2r1 : s2 ≠ r1) (h2r2 : s2 ≠ r2) (hrr : r1 ≠ r2) :
    ∃ h4, tree.swap h s1 s2 = some h4 ∧
      h4 s1 = ⟨(h s2).parent, some r2, (h s2).right⟩ ∧
      h4 s2 = ⟨(h s1).parent, some r1, (h s1).right⟩ ∧
      h4 r1 = ⟨(h r2).parent, (h r1).left, (h r1).right⟩ ∧
      h4 r2 = ⟨(h r1).parent, (h r2).left, (h r2).right⟩ ∧
      ∀ z, z ≠ s1 → z ≠ s2 → z ≠ r1 → z ≠ r2 → h4 z = h z := by
  unfold tree.swap
  rw [h1l, h2l]
  dsimp only
  refine ⟨_, rfl, ?_, ?_, ?_, ?_, ?_⟩
  · simp [tree.set_parent, tree.set_left, tree.set_right, h12, h1r1, h1r2,
      h2r1, h2r2, hrr, Ne.symm h12, Ne.symm h1r1, Ne.symm h1r2, Ne.symm h2r1,
      Ne.symm h2r2, Ne.symm hrr, h2l]
  · simp [tree.set_parent, tree.set_left, tree.set_right, h12, h1r1, h1r2,
      h2r1, h2r2, hrr, Ne.symm h12, Ne.symm h1r1, Ne.symm h1r2, Ne.symm h2r1,
      Ne.symm h2r2, Ne.symm hrr, h1l]
  · simp [tree.set_parent, tree.set_left, tree.set_right, h12, h1r1, h1r2,
      h2r1, h2r2, hrr, Ne.symm h12, Ne.symm h1r1, Ne.symm h1r2, Ne.symm h2r1,
      Ne.symm h2r2, Ne.symm hrr]
  · simp [tree.set_parent, tree.set_left, tree.set_right, h12, h1r1, h1r2,
      h2r1, h2r2, hrr, Ne.symm h12, Ne.symm h1r1, Ne.symm h1r2, Ne.symm h2r1,
      Ne.symm h2r2, Ne.symm hrr]
  · intro z hz1 hz2 hz3 hz4
    simp [tree.set_parent, tree.set_left, tree.set_right, hz1, hz2, hz3, hz4]

/-- `bimap::swap` on two disjoint, well-formed, nonempty stores: both
`tree::swap`s succeed, `link_trees` restores the four cross-links, and the
two stores exchange trees, sizes and comparators, each remaining well
formed. -/
lemma swap_spec {w : World L R} {b1 b2 : Store L R} {tL1 tR1 tL2 tR2 : BT}
    (hs1 : SRep w b1 tL1 tR1) (hs2 : SRep w b2 tL2 tR2)
    (hdisj : ∀ z,
      (z = b1.sentL ∨ z = b1.sentR ∨ z ∈ tL1.inorder ∨ z ∈ tR1.inorder) →
      (z = b2.sentL ∨ z = b2.sentR ∨ z ∈ tL2.inorder ∨ z ∈ tR2.inorder) →
      False)
    (hne1 : tL1 ≠ BT.leaf) (hne2 : tL2 ≠ BT.leaf) :
    ∃ w4 : World L R, swap w b1 b2 =
        some (w4, ⟨b1.sentL, b1.sentR, b2.siz, b2.cmpL, b2.cmpR⟩,
                  ⟨b2.sentL, b2.sentR, b1.siz, b1.cmpL, b1.cmpR⟩) ∧
      SRep w4 ⟨b1.sentL, b1.sentR, b2.siz, b2.cmpL, b2.cmpR⟩ tL2 tR2 ∧
      SRep w4 ⟨b2.sentL, b2.sentR, b1.siz, b1.cmpL, b1.cmpR⟩ tL1 tR1 ∧
      w4.valL = w.valL ∧ w4.valR = w.valR ∧ w4.alloc = w.alloc := by
  obtain ⟨lA, cL1, rA, rfl⟩ : ∃ p c q, tL1 = BT.node p c q := by
    cases tL1 with
    | leaf => exact absurd rfl hne1
    | node p c q => exact ⟨p, c, q, rfl⟩
  obtain ⟨lC, cL2, rC, rfl⟩ : ∃ p c q, tL2 = BT.node p c q := by
    cases tL2 with
    | leaf => exact absurd rfl hne2
    | node p c q => exact ⟨p, c, q, rfl⟩
  have hlen1 : tR1.inorder.length = (BT.node lA cL1 rA).inorder.length := by
    rw [hs1.pairR.length_eq, List.length_map]
  have hlen2 : tR2.inorder.length = (BT.node lC cL2 rC).inorder.length := by
    rw [hs2.pairR.length_eq, List.length_map]
  obtain ⟨lB, cR1, rB, rfl⟩ : ∃ p c q, tR1 = BT.node p c q := by
    cases tR1 with
    | leaf =>
      exfalso
      simp only [BT.inorder_leaf, List.length_nil, BT.inorder_node,
        List.length_append, List.length_cons] at hlen1
      omega
    | node p c q => exact ⟨p, c, q, rfl⟩
  obtain ⟨lD, cR2, rD, rfl⟩ : ∃ p c q, tR2 = BT.node p c q := by
    cases tR2 with
    | leaf =>
      exfalso
      simp only [BT.inorder_leaf, List.length_nil, BT.inorder_node,
        List.length_append, List.length_cons] at hlen2
      omega
    | node p c q => exact ⟨p, c, q, rfl⟩
  have hmL1 : cL1 ∈ (BT.node lA cL1 rA).inorder := by simp
  have hmR1 : cR1 ∈ (BT.node lB cR1 rB).inorder := by simp
  have hmL2 : cL2 ∈ (BT.node lC cL2 rC).inorder := by simp
  have hmR2 : cR2 ∈ (BT.node lD cR2 rD).inorder := by simp
  have hpL1 : (w.heap cL1).parent = some b1.sentL := (RepB_node.1 hs1.repL).1
  have hpR1 : (w.heap cR1).parent = some b1.sentR := (RepB_node.1 hs1.repR).1
  have hpL2 : (w.heap cL2).parent = some b2.sentL := (RepB_node.1 hs2.repL).1
  have hpR2 : (w.heap cR2).parent = some b2.sentR := (RepB_node.1 hs2.repR).1
  have hl1 : (w.heap b1.sentL).left = some cL1 := by rw [hs1.attL]; rfl
  have hl2 : (w.heap b2.sentL).left = some cL2 := by rw [hs2.attL]; rfl
  have e12 : b1.sentL ≠ b2.sentL :=
    fun hc => hdisj b1.sentL (Or.inl rfl) (Or.inl hc)
  have eA : b1.sentL ≠ cL1 := fun hc => hs1.sLoutL (by rw [hc]; exact hmL1)
  have eB : b1.sentL ≠ cL2 := fun hc => hdisj b1.sentL (Or.inl rfl)
    (Or.inr (Or.inr (Or.inl (by rw [hc]; exact hmL2))))
  have eC : b2.sentL ≠ cL1 := fun hc => hdisj b2.sentL
    (Or.inr (Or.inr (Or.inl (by rw [hc]; exact hmL1)))) (Or.inl rfl)
  have eD : b2.sentL ≠ cL2 := fun hc => hs2.sLoutL (by rw [hc]; exact hmL2)
  have eE : cL1 ≠ cL2 := fun hc => hdisj cL1 (Or.inr (Or.inr (Or.inl hmL1)))
    (Or.inr (Or.inr (Or.inl (by rw [hc]; exact hmL2))))
  have f12 : b1.sentR ≠ b2.sentR :=
    fun hc => hdisj b1.sentR (Or.inr (Or.inl rfl)) (Or.inr (Or.inl hc))
  have fA : b1.sentR ≠ cR1 := fun hc => hs1.sRoutR (by rw [hc]; exact hmR1)
  have fB : b1.sentR ≠ cR2 := fun hc => hdisj b1.sentR (Or.inr (Or.inl rfl))
    (Or.inr (Or.inr (Or.inr (by rw [hc]; exact hmR2))))
  have fC : b2.sentR ≠ cR1 := fun hc => hdisj b2.sentR
    (Or.inr (Or.inr (Or.inr (by rw [hc]; exact hmR1)))) (Or.inr (Or.inl rfl))
  have fD : b2.sentR ≠ cR2 := fun hc => hs2.sRoutR (by rw [hc]; exact hmR2)
  have fE : cR1 ≠ cR2 := fun hc => hdisj cR1 (Or.inr (Or.inr (Or.inr hmR1)))
    (Or.inr (Or.inr (Or.inr (by rw [hc]; exact hmR2))))
  have g1 : b1.sentR ≠ b1.sentL := Ne.symm hs1.sneq
  have g2 : b1.sentR ≠ b2.sentL :=
    fun hc => hdisj b1.sentR (Or.inr (Or.inl rfl)) (Or.inl hc)
  have g3 : b1.sentR ≠ cL1 := fun hc => hs1.sRoutL (by rw [hc]; exact hmL1)
  have g4 : b1.sentR ≠ cL2 := fun hc => hdisj b1.sentR (Or.inr (Or.inl rfl))
    (Or.inr (Or.inr (Or.inl (by rw [hc]; exact hmL2))))
  have g5 : b2.sentR ≠ b1.sentL :=
    fun hc => hdisj b2.sentR (Or.inl hc) (Or.inr (Or.inl rfl))
  have g6 : b2.sentR ≠ b2.sentL := Ne.symm hs2.sneq
  have g7 : b2.sentR ≠ cL1 := fun hc => hdisj b2.sentR
    (Or.inr (Or.inr (Or.inl (by rw [hc]; exact hmL1)))) (Or.inr (Or.inl rfl))
  have g8 : b2.sentR ≠ cL2 := fun hc => hs2.sRoutL (by rw [hc]; exact hmL2)
  have g9 : cR1 ≠ b1.sentL := fun hc => hs1.sLoutR (by rw [← hc]; exact hmR1)
  have g10 : cR1 ≠ b2.sentL :=
    fun hc => hdisj cR1 (Or.inr (Or.inr (Or.inr hmR1))) (Or.inl hc)
  have g11 : cR1 ≠ cL1 :=
    fun hc => hs1.disjLR cL1 hmL1 (by rw [← hc]; exact hmR1)
  have g12 : cR1 ≠ cL2 := fun hc => hdisj cR1 (Or.inr (Or.inr (Or.inr hmR1)))
    (Or.inr (Or.inr (Or.inl (by rw [hc]; exact hmL2))))
  have g13 : cR2 ≠ b1.sentL :=
    fun hc => hdisj cR2 (Or.inl hc) (Or.inr (Or.inr (Or.inr hmR2)))
  have g14 : cR2 ≠ b2.sentL := fun hc => hs2.sLoutR (by rw [← hc]; exact hmR2)
  have g15 : cR2 ≠ cL1 := fun hc => hdisj cR2
    (Or.inr (Or.inr (Or.inl (by rw [hc]; exact hmL1))))
    (Or.inr (Or.inr (Or.inr hmR2)))
  have g16 : cR2 ≠ cL2 :=
    fun hc => hs2.disjLR cL2 hmL2 (by rw [← hc]; exact hmR2)
  obtain ⟨hA, hAeq, hA1, hA2, hA3, hA4, hAf⟩ :=
    tree_swap_spec hl1 hl2 e12 eA eB eC eD eE
  rw [hs2.parL, hs2.lnkL] at hA1
  rw [hs1.parL, hs1.lnkL] at hA2
  rw [hpL2] at hA3
  rw [hpL1] at hA4
  have hAsR1 : hA b1.sentR = w.heap b1.sentR := hAf b1.sentR g1 g2 g3 g4
  have hAsR2 : hA b2.sentR = w.heap b2.sentR := hAf b2.sentR g5 g6 g7 g8
  have hAcR1 : hA cR1 = w.heap cR1 := hAf cR1 g9 g10 g11 g12
  have hAcR2 : hA cR2 = w.heap cR2 := hAf cR2 g13 g14 g15 g16
  have hl1R : (hA b1.sentR).left = some cR1 := by rw [hAsR1, hs1.attR]; rfl
  have hl2R : (hA b2.sentR).left = some cR2 := by rw [hAsR2, hs2.attR]; rfl
  obtain ⟨hB, hBeq, hB1, hB2, hB3, hB4, hBf⟩ :=
    tree_swap_spec hl1R hl2R f12 fA fB fC fD fE
  rw [hAsR2, hs2.parR, hs2.lnkR] at hB1
  rw [hAsR1, hs1.parR, hs1.lnkR] at hB2
  rw [hAcR2, hAcR1, hpR2] at hB3
  rw [hAcR1, hAcR2, hpR1] at hB4
  have hBsL1 : hB b1.sentL = hA b1.sentL :=
    hBf b1.sentL (Ne.symm g1) (Ne.symm g5) (Ne.symm g9) (Ne.symm g13)
  have hBsL2 : hB b2.sentL = hA b2.sentL :=
    hBf b2.sentL (Ne.symm g2) (Ne.symm g6) (Ne.symm g10) (Ne.symm g14)
  have hBcL1 : hB cL1 = hA cL1 :=
    hBf cL1 (Ne.symm g3) (Ne.symm g7) (Ne.symm g11) (Ne.symm g15)
  have hBcL2 : hB cL2 = hA cL2 :=
    hBf cL2 (Ne.symm g4) (Ne.symm g8) (Ne.symm g12) (Ne.symm g16)
  obtain ⟨H, hHdef⟩ : ∃ H : tree.Heap,
      H = link_trees (link_trees hB b1.sentL b1.sentR) b2.sentL b2.sentR :=
    ⟨_, rfl⟩
  have hHfr : ∀ z, z ≠ b1.sentL → z ≠ b1.sentR → z ≠ b2.sentL →
      z ≠ b2.sentR → H z = hB z := by
    intro z d1 d2 d3 d4
    rw [hHdef]
    unfold link_trees tree.set_link_to_other_tree
    rw [tree.set_right_other _ _ _ d4, tree.set_right_other _ _ _ d3,
      tree.set_right_other _ _ _ d2, tree.set_right_other _ _ _ d1]
  have hHsL1 : H b1.sentL = ⟨none, some cL2, some b1.sentR⟩ := by
    rw [hHdef]
    unfold link_trees tree.set_link_to_other_tree
    rw [tree.set_right_other _ _ _ (Ne.symm g5),
      tree.set_right_other _ _ _ e12,
      tree.set_right_other _ _ _ (Ne.symm g1), tree.set_right_same,
      hBsL1, hA1]
  have hHsR1 : H b1.sentR = ⟨none, some cR2, some b1.sentL⟩ := by
    rw [hHdef]
    unfold link_trees tree.set_link_to_other_tree
    rw [tree.set_right_other _ _ _ f12, tree.set_right_other _ _ _ g2,
      tree.set_right_same, tree.set_right_other _ _ _ g1, hB1]
  have hHsL2 : H b2.sentL = ⟨none, some cL1, some b2.sentR⟩ := by
    rw [hHdef]
    unfold link_trees tree.set_link_to_other_tree
    rw [tree.set_right_other _ _ _ (Ne.symm g6), tree.set_right_same,
      tree.set_right_other _ _ _ (Ne.symm g2),
      tree.set_right_other _ _ _ (Ne.symm e12), hBsL2, hA2]
  have hHsR2 : H b2.sentR = ⟨none, some cR1, some b2.sentL⟩ := by
    rw [hHdef]
    unfold link_trees tree.set_link_to_other_tree
    rw [tree.set_right_same, tree.set_right_other _ _ _ g6,
      tree.set_right_other _ _ _ (Ne.symm f12),
      tree.set_right_other _ _ _ g5, hB2]
  have hHcL1 : H cL1 =
      ⟨some b2.sentL, (w.heap cL1).left, (w.heap cL1).right⟩ := by
    rw [hHfr cL1 (Ne.symm eA) (Ne.symm g3) (Ne.symm eC) (Ne.symm g7),
      hBcL1, hA3]
  have hHcL2 : H cL2 =
      ⟨some b1.sentL, (w.heap cL2).left, (w.heap cL2).right⟩ := by
    rw [hHfr cL2 (Ne.symm eB) (Ne.symm g4) (Ne.symm eD) (Ne.symm g8),
      hBcL2, hA4]
  have hHcR1 : H cR1 =
      ⟨some b2.sentR, (w.heap cR1).left, (w.heap cR1).right⟩ := by
    rw [hHfr cR1 g9 (Ne.symm fA) g10 (Ne.symm fC), hB3]
  have hHcR2 : H cR2 =
      ⟨some b1.sentR, (w.heap cR2).left, (w.heap cR2).right⟩ := by
    rw [hHfr cR2 g13 (Ne.symm fB) g14 (Ne.symm fD), hB4]
  have hHw : ∀ a, a ≠ b1.sentL → a ≠ b1.sentR → a ≠ b2.sentL →
      a ≠ b2.sentR → a ≠ cL1 → a ≠ cL2 → a ≠ cR1 → a ≠ cR2 →
      H a = w.heap a := by
    intro a d1 d2 d3 d4 d5 d6 d7 d8
    rw [hHfr a d1 d2 d3 d4, hBf a d2 d4 d7 d8, hAf a d1 d3 d5 d6]
  have hfrL2 : ∀ a ∈ (BT.node lC cL2 rC).inorder, a ≠ cL2 →
      H a = w.heap a := by
    intro a ha hac
    exact hHw a
      (fun hc => hdisj a (Or.inl hc) (Or.inr (Or.inr (Or.inl ha))))
      (fun hc => hdisj a (Or.inr (Or.inl hc)) (Or.inr (Or.inr (Or.inl ha))))
      (fun hc => hs2.sLoutL (by rw [← hc]; exact ha))
      (fun hc => hs2.sRoutL (by rw [← hc]; exact ha))
      (fun hc => hdisj a (Or.inr (Or.inr (Or.inl (by rw [hc]; exact hmL1))))
        (Or.inr (Or.inr (Or.inl ha))))
      hac
      (fun hc => hdisj a (Or.inr (Or.inr (Or.inr (by rw [hc]; exact hmR1))))
        (Or.inr (Or.inr (Or.inl ha))))
      (fun hc => hs2.disjLR a ha (by rw [hc]; exact hmR2))
  have hfrR2 : ∀ a ∈ (BT.node lD cR2 rD).inorder, a ≠ cR2 →
      H a = w.heap a := by
    intro a ha hac
    exact hHw a
      (fun hc => hdisj a (Or.inl hc) (Or.inr (Or.inr (Or.inr ha))))
      (fun hc => hdisj a (Or.inr (Or.inl hc)) (Or.inr (Or.inr (Or.inr ha))))
      (fun hc => hs2.sLoutR (by rw [← hc]; exact ha))
      (fun hc => hs2.sRoutR (by rw [← hc]; exact ha))
      (fun hc => hdisj a (Or.inr (Or.inr (Or.inl (by rw [hc]; exact hmL1))))
        (Or.inr (Or.inr (Or.inr ha))))
      (fun hc => hs2.disjLR cL2 hmL2 (by rw [← hc]; exact ha))
      (fun hc => hdisj a (Or.inr (Or.inr (Or.inr (by rw [hc]; exact hmR1))))
        (Or.inr (Or.inr (Or.inr ha))))
      hac
  have hfrL1 : ∀ a ∈ (BT.node lA cL1 rA).inorder, a ≠ cL1 →
      H a = w.heap a := by
    intro a ha hac
    exact hHw a
      (fun hc => hs1.sLoutL (by rw [← hc]; exact ha))
      (fun hc => hs1.sRoutL (by rw [← hc]; exact ha))
      (fun hc => hdisj a (Or.inr (Or.inr (Or.inl ha))) (Or.inl hc))
      (fun hc => hdisj a (Or.inr (Or.inr (Or.inl ha))) (Or.inr (Or.inl hc)))
      hac
      (fun hc => hdisj a (Or.inr (Or.inr (Or.inl ha)))
        (Or.inr (Or.inr (Or.inl (by rw [hc]; exact hmL2)))))
      (fun hc => hs1.disjLR a ha (by rw [hc]; exact hmR1))
      (fun hc => hdisj a (Or.inr (Or.inr (Or.inl ha)))
        (Or.inr (Or.inr (Or.inr (by rw [hc]; exact hmR2)))))
  have hfrR1 : ∀ a ∈ (BT.node lB cR1 rB).inorder, a ≠ cR1 →
      H a = w.heap a := by
    intro a ha hac
    exact hHw a
      (fun hc => hs1.sLoutR (by rw [← hc]; exact ha))
      (fun hc => hs1.sRoutR (by rw [← hc]; exact ha))
      (fun hc => hdisj a (Or.inr (Or.inr (Or.inr ha))) (Or.inl hc))
      (fun hc => hdisj a (Or.inr (Or.inr (Or.inr ha))) (Or.inr (Or.inl hc)))
      (fun hc => hs1.disjLR cL1 hmL1 (by rw [← hc]; exact ha))
      (fun hc => hdisj a (Or.inr (Or.inr (Or.inr ha)))
        (Or.inr (Or.inr (Or.inl (by rw [hc]; exact hmL2)))))
      hac
      (fun hc => hdisj a (Or.inr (Or.inr (Or.inr ha)))
        (Or.inr (Or.inr (Or.inr (by rw [hc]; exact hmR2)))))
  refine ⟨⟨H, w.valL, w.valR, w.alloc⟩, ?_, ?_, ?_, rfl, rfl, rfl⟩
  · unfold swap
    rw [hAeq]
    dsimp only
    rw [hBeq]
    dsimp only
    rw [hHdef]
  · refine ⟨?_, ?_, ?_, ?_, ?_, ?_, ?_, ?_, hs2.ndL, ?_, ?_, hs2.pairR, ?_,
      ?_, ?_, ?_, ?_, hs1.sneq, ?_, ?_, hs2.szEq, hs1.alEven⟩ <;>
      (try dsimp only)
    · exact RepB_reparent hs2.repL hs2.ndL (by rw [hHcL2]) (by rw [hHcL2])
        (by rw [hHcL2]) hfrL2
    · rw [hHsL1]; rfl
    · rw [hHsL1]
    · rw [hHsL1]
    · exact RepB_reparent hs2.repR hs2.ndR (by rw [hHcR2]) (by rw [hHcR2])
        (by rw [hHcR2]) hfrR2
    · rw [hHsR1]; rfl
    · rw [hHsR1]
    · rw [hHsR1]
    · exact hs2.bstL
    · exact hs2.bstR
    · exact hs2.evenL
    · exact fun hc => hdisj b1.sentL (Or.inl rfl)
        (Or.inr (Or.inr (Or.inl hc)))
    · exact fun hc => hdisj b1.sentL (Or.inl rfl)
        (Or.inr (Or.inr (Or.inr hc)))
    · exact fun hc => hdisj b1.sentR (Or.inr (Or.inl rfl))
        (Or.inr (Or.inr (Or.inl hc)))
    · exact fun hc => hdisj b1.sentR (Or.inr (Or.inl rfl))
        (Or.inr (Or.inr (Or.inr hc)))
    · exact hs1.sLlt
    · exact hs1.sRlt
  · refine ⟨?_, ?_, ?_, ?_, ?_, ?_, ?_, ?_, hs1.ndL, ?_, ?_, hs1.pairR, ?_,
      ?_, ?_, ?_, ?_, hs2.sneq, ?_, ?_, hs1.szEq, hs1.alEven⟩ <;>
      (try dsimp only)
    · exact RepB_reparent hs1.repL hs1.ndL (by rw [hHcL1]) (by rw [hHcL1])
        (by rw [hHcL1]) hfrL1
    · rw [hHsL2]; rfl
    · rw [hHsL2]
    · rw [hHsL2]
    · exact RepB_reparent hs1.repR hs1.ndR (by rw [hHcR1]) (by rw [hHcR1])
        (by rw [hHcR1]) hfrR1
    · rw [hHsR2]; rfl
    · rw [hHsR2]
    · rw [hHsR2]
    · exact hs1.bstL
    · exact hs1.bstR
    · exact hs1.evenL
    · exact fun hc => hdisj b2.sentL (Or.inr (Or.inr (Or.inl hc)))
        (Or.inl rfl)
    · exact fun hc => hdisj b2.sentL (Or.inr (Or.inr (Or.inr hc)))
        (Or.inl rfl)
    · exact fun hc => hdisj b2.sentR (Or.inr (Or.inr (Or.inl hc)))
        (Or.inr (Or.inl rfl))
    · exact fun hc => hdisj b2.sentR (Or.inr (Or.inr (Or.inr hc)))
        (Or.inr (Or.inl rfl))
    · exact hs2.sLlt
    · exact hs2.sRlt

/-- `intrusive_tree::begin`: the sentinel itself on the empty tree, otherwise
the in-order minimum. -/
lemma begin_ref {h : tree.Heap} {sent : Nat} {t : BT}
    (hrep : RepB h sent t = true) (hatt : (h sent).left = rootOf t)
    {fuel : Nat} (hf : t.size + 1 ≤ fuel) :
    tree.begin h sent fuel = some (if t = BT.leaf then sent else minA t) := by
  obtain ⟨f, rfl⟩ : ∃ f, fuel = f + 1 := ⟨fuel - 1, by omega⟩
  unfold tree.begin
  rw [tree.leftmost_loop.eq_def]
  dsimp only
  cases t with
  | leaf =>
    rw [hatt]
    simp [rootOf]
  | node l x r =>
    rw [hatt, if_neg (by simp)]
    dsimp only [rootOf]
    exact leftmost_loop_ref hrep rfl (by rw [BT.size] at hf ⊢; omega)

/-- The copy loop: whatever prefix of the source walk the step budget covers,
the destination store stays well formed; the source representation and every
record bound are carried as invariants. -/
lemma copy_loop_spec {fuel alloc0 : Nat} {src : Store L R} {tLs tRs : BT}
    (hsb : src.sentL < alloc0 ∧ src.sentR < alloc0 ∧
      ∀ a ∈ tLs.inorder, a + 1 < alloc0)
    (hfsrc : tLs.size + 1 ≤ fuel) :
    ∀ {steps : Nat} {wc : World L R} {dst : Store L R} {tLd tRd : BT}
      {it : Option Nat} {w1 : World L R} {dst1 : Store L R},
    SRep wc src tLs tRs → SRep wc dst tLd tRd →
    STO dst.cmpL → STO dst.cmpR →
    alloc0 ≤ dst.sentL → alloc0 ≤ dst.sentR →
    (∀ a ∈ tLd.inorder, alloc0 ≤ a) →
    alloc0 ≤ wc.alloc →
    (it = some src.sentL ∨ ∃ a ∈ tLs.inorder, it = some a) →
    tLd.size + steps ≤ fuel →
    copy_loop fuel steps wc src dst it = some (w1, dst1) →
    ∃ tL2 tR2, SRep w1 dst1 tL2 tR2 := by
  intro steps
  induction steps with
  | zero =>
    intro wc dst tLd tRd it w1 dst1 _ _ _ _ _ _ _ _ _ _ heq
    rw [copy_loop.eq_def] at heq
    dsimp only at heq
    cases heq
  | succ n ih =>
    intro wc dst tLd tRd it w1 dst1 hsrc hdst hoL hoR hdsL hdsR hdlb hal
      hvalid hfst heq
    rw [copy_loop.eq_def] at heq
    dsimp only at heq
    by_cases hit : it = some src.sentL
    · rw [if_pos hit] at heq
      simp only [Option.some.injEq, Prod.mk.injEq] at heq
      obtain ⟨rfl, rfl⟩ := heq
      exact ⟨tLd, tRd, hdst⟩
    · rw [if_neg hit] at heq
      rcases hvalid with hv | ⟨a, ha, rfl⟩
      · exact absurd hv hit
      dsimp only at heq
      have hflip : flipL wc.heap (some a) = some (a + 1) := by
        unfold flipL
        dsimp only
        rw [if_neg (RepB_parent_ne_none hsrc.repL a ha)]
      rw [hflip] at heq
      dsimp only at heq
      have hfLd : tLd.size ≤ fuel := by omega
      have hfRd : tRd.size ≤ fuel := by
        rw [BT.size, hdst.pairR.length_eq, List.length_map]
        rw [BT.size] at hfLd
        exact hfLd
      cases hcL : hasVal dst.cmpL wc.valL tLd (wc.valL a) with
      | true =>
        rw [(base_insert_spec hdst hoL hoR hfLd hfRd (wc.valL a)
          (wc.valR (a + 1))).1 (Or.inl hcL)] at heq
        dsimp only at heq
        rw [next_ref hsrc.repL hsrc.ndL hsrc.lnkL_ne_root ha hfsrc] at heq
        cases hls : listSucc a tLs.inorder with
        | none =>
          rw [hls] at heq
          dsimp only at heq
          exact ih hsrc hdst hoL hoR hdsL hdsR hdlb hal (Or.inl rfl)
            (by omega) heq
        | some c =>
          rw [hls] at heq
          dsimp only at heq
          obtain ⟨l1, l2, hsplit⟩ := listSucc_some_split ha hls
          have hcm : c ∈ tLs.inorder := by rw [hsplit]; simp
          exact ih hsrc hdst hoL hoR hdsL hdsR hdlb hal
            (Or.inr ⟨c, hcm, rfl⟩) (by omega) heq
      | false =>
        cases hcR : hasVal dst.cmpR wc.valR tRd (wc.valR (a + 1)) with
        | true =>
          rw [(base_insert_spec hdst hoL hoR hfLd hfRd (wc.valL a)
            (wc.valR (a + 1))).1 (Or.inr hcR)] at heq
          dsimp only at heq
          rw [next_ref hsrc.repL hsrc.ndL hsrc.lnkL_ne_root ha hfsrc] at heq
          cases hls : listSucc a tLs.inorder with
          | none =>
            rw [hls] at heq
            dsimp only at heq
            exact ih hsrc hdst hoL hoR hdsL hdsR hdlb hal (Or.inl rfl)
              (by omega) heq
          | some c =>
            rw [hls] at heq
            dsimp only at heq
            obtain ⟨l1, l2, hsplit⟩ := listSucc_some_split ha hls
            have hcm : c ∈ tLs.inorder := by rw [hsplit]; simp
            exact ih hsrc hdst hoL hoR hdsL hdsR hdlb hal
              (Or.inr ⟨c, hcm, rfl⟩) (by omega) heq
        | false =>
          obtain ⟨w2, hbieq, hsrep2, hvL2, hvR2, hal2, hframe2⟩ :=
            (base_insert_spec hdst hoL hoR hfLd hfRd (wc.valL a)
              (wc.valR (a + 1))).2 hcL hcR
          rw [hbieq] at heq
          dsimp only at heq
          have hsrc2 : SRep w2 src tLs tRs := by
            refine SRep_frame hsrc ?_ ?_ ?_ (by omega) ?_
            · intro z hz
              have hzlt : z < alloc0 := by
                rcases hz with rfl | rfl | hz | hz
                · exact hsb.1
                · exact hsb.2.1
                · have := hsb.2.2 z hz; omega
                · obtain ⟨a2, ha2, hx⟩ := hsrc.memR_iff.1 hz
                  have := hsb.2.2 a2 ha2
                  omega
              refine hframe2 z ?_ ?_ ?_ ?_ (by omega) (by omega)
              · intro hc; have := hdlb z hc; omega
              · intro hc
                obtain ⟨a2, ha2, hx⟩ := hdst.memR_iff.1 hc
                have := hdlb a2 ha2
                omega
              · intro hc; rw [hc] at hzlt; omega
              · intro hc; rw [hc] at hzlt; omega
            · intro z hz
              rw [hvL2]
              unfold fset
              rw [if_neg (by have := hsb.2.2 z hz; omega)]
            · intro z hz
              obtain ⟨a2, ha2, hx⟩ := hsrc.memR_iff.1 hz
              rw [hvR2]
              unfold fset
              rw [if_neg (by have := hsb.2.2 a2 ha2; omega)]
            · rw [hal2]
              have := hsrc.alEven
              omega
          rw [next_ref hsrc2.repL hsrc2.ndL hsrc2.lnkL_ne_root ha hfsrc]
            at heq
          have hszI : (insertT (fset wc.valL wc.alloc (wc.valL a)) dst.cmpL
              wc.alloc tLd).size = tLd.size + 1 := by
            have h1 := hsrep2.szEq
            dsimp only at h1
            rw [BT.size, BT.size, ← h1, hdst.szEq]
          have hdlb2 : ∀ z ∈ (insertT (fset wc.valL wc.alloc (wc.valL a))
              dst.cmpL wc.alloc tLd).inorder, alloc0 ≤ z := by
            intro z hz
            rcases insertT_mem hz with rfl | hz2
            · omega
            · exact hdlb z hz2
          cases hls : listSucc a tLs.inorder with
          | none =>
            rw [hls] at heq
            dsimp only at heq
            exact ih hsrc2 hsrep2 hoL hoR hdsL hdsR hdlb2 (by omega)
              (Or.inl rfl) (by omega) heq
          | some c =>
            rw [hls] at heq
            dsimp only at heq
            obtain ⟨l1, l2, hsplit⟩ := listSucc_some_split ha hls
            have hcm : c ∈ tLs.inorder := by rw [hsplit]; simp
            exact ih hsrc2 hsrep2 hoL hoR hdsL hdsR hdlb2 (by omega)
              (Or.inr ⟨c, hcm, rfl⟩) (by omega) heq

/-- `bimap` copy construction: a fresh store with the source's comparators,
filled by the copy loop; whatever prefix of the walk the step budget covers,
the result is a well-formed store. -/
lemma copy_spec {w : World L R} {src : Store L R} {tLs tRs : BT}
    (hs : SRep w src tLs tRs) (hoL : STO src.cmpL) (hoR : STO src.cmpR)
    {fuel steps : Nat} (hfs : tLs.size + 1 ≤ fuel) (hst : steps ≤ fuel)
    {w1 : World L R} {dst1 : Store L R}
    (heq : copy w src fuel steps = some (w1, dst1)) :
    ∃ tL2 tR2, SRep w1 dst1 tL2 tR2 := by
  unfold copy at heq
  dsimp only at heq
  have hmkfr : ∀ z, z < w.alloc →
      (mk w src.cmpL src.cmpR).1.heap z = w.heap z := by
    intro z hz
    unfold mk link_trees tree.set_link_to_other_tree
    dsimp only
    rw [tree.set_right_other _ _ _ (by omega),
      tree.set_right_other _ _ _ (by omega),
      tree.set_node_other _ _ _ (by omega),
      tree.set_node_other _ _ _ (by omega)]
  have hsrc1 : SRep (mk w src.cmpL src.cmpR).1 src tLs tRs := by
    refine SRep_frame hs ?_ (fun _ _ => rfl) (fun _ _ => rfl)
      (Nat.le_add_right w.alloc 2) ?_
    · intro z hz
      apply hmkfr
      rcases hz with rfl | rfl | hz | hz
      · exact hs.sLlt
      · exact hs.sRlt
      · exact hs.memL_lt z hz
      · exact (hs.memR_facts z hz).2
    · show (w.alloc + 2) % 2 = 0
      have := hs.alEven
      omega
  rw [begin_ref hsrc1.repL hsrc1.attL hfs] at heq
  dsimp only at heq
  have hvalid : some (if tLs = BT.leaf then src.sentL else minA tLs) =
      some src.sentL ∨ ∃ a ∈ tLs.inorder,
        some (if tLs = BT.leaf then src.sentL else minA tLs) = some a := by
    by_cases hl : tLs = BT.leaf
    · rw [if_pos hl]
      exact Or.inl rfl
    · rw [if_neg hl]
      obtain ⟨rest, hrest⟩ := minA_head hl
      exact Or.inr ⟨minA tLs, by rw [hrest]; simp, rfl⟩
  have hfst0 : BT.leaf.size + steps ≤ fuel := by
    have h0 : BT.leaf.size = 0 := rfl
    omega
  exact copy_loop_spec ⟨hs.sLlt, hs.sRlt, fun a ha => (hs.evenL a ha).2⟩
    hfs hsrc1 (SRep_mk w src.cmpL src.cmpR hs.alEven) hoL hoR
    (Nat.le_refl w.alloc) (Nat.le_add_right w.alloc 1)
    (fun a ha => absurd ha (by simp)) (Nat.le_add_right w.alloc 2)
    hvalid hfst0 heq

/-- `bimap::at_left_or_default` sends a well-formed store to a well-formed
store: the present-key path is read-only, the absent-key path is an
`erase_right(key)` (possibly a no-op) followed by a fresh insert. -/
lemma at_left_or_default_pres {w : World L R} {b : Store L R} {tL tR : BT}
    (hs : SRep w b tL tR) (hoL : STO b.cmpL) (hoR : STO b.cmpR)
    {fuel : Nat} (hfL : tL.size + 2 ≤ fuel) (hfR : tR.size + 2 ≤ fuel)
    (k : L) (dR : R) {w1 : World L R} {b1 : Store L R} {v : Option R}
    (heq : at_left_or_default w b fuel k dR = some (w1, b1, v)) :
    ∃ tL2 tR2, SRep w1 b1 tL2 tR2 := by
  have hfL1 : tL.size ≤ fuel := by omega
  have hfR1 : tR.size ≤ fuel := by omega
  have hfL2 : tL.size + 1 ≤ fuel := by omega
  have hfR2 : tR.size + 1 ≤ fuel := by omega
  cases hpr : hasVal b.cmpL w.valL tL k with
  | true =>
    obtain ⟨a, ha, hak, hfind⟩ := find_present hoL hs.twfL hfL1 hpr
    unfold at_left_or_default find_left at heq
    rw [hfind] at heq
    dsimp only at heq
    rw [if_neg (fun hc => hs.sLoutL (by rw [← hc]; exact ha))] at heq
    cases hat : at_left w b fuel k with
    | none =>
      rw [hat] at heq
      cases heq
    | some v2 =>
      rw [hat] at heq
      dsimp only at heq
      simp only [Option.some.injEq, Prod.mk.injEq] at heq
      obtain ⟨rfl, rfl, _⟩ := heq
      exact ⟨tL, tR, hs⟩
  | false =>
    have hfabs := find_absent hoL hs.twfL hfL1 hpr
    unfold at_left_or_default find_left at heq
    rw [hfabs] at heq
    dsimp only at heq
    rw [if_pos rfl] at heq
    cases hhr : hasVal b.cmpR w.valR tR dR with
    | false =>
      rw [(erase_right_key_spec hs hoL hoR hfL2 hfR2 dR).1 hhr] at heq
      dsimp only at heq
      obtain ⟨w2, hbieq, hsrep2, hvL2, hvR2, hal2, hframe2⟩ :=
        (base_insert_spec hs hoL hoR hfL1 hfR1 k dR).2 hpr hhr
      rw [hbieq] at heq
      dsimp only at heq
      cases hfl : flipL w2.heap (some w.alloc) with
      | none =>
        rw [hfl] at heq
        cases heq
      | some fr =>
        rw [hfl] at heq
        dsimp only at heq
        simp only [Option.some.injEq, Prod.mk.injEq] at heq
        obtain ⟨rfl, rfl, _⟩ := heq
        exact ⟨_, _, hsrep2⟩
    | true =>
      obtain ⟨x, hx, hxd, wE, herk, hsrepE, hvLE, hvRE, halE⟩ :=
        (erase_right_key_spec hs hoL hoR hfL2 hfR2 dR).2 hhr
      rw [herk] at heq
      dsimp only at heq
      obtain ⟨aL, haL, haLx⟩ := hs.memR_iff.1 hx
      have hx1 : x - 1 = aL := by omega
      have haL1 : x - 1 ∈ tL.inorder := by rw [hx1]; exact haL
      have hsubL1 := eraseT_subset hs.ndL (x - 1)
      have hsubR1 := eraseT_subset hs.ndR x
      have hszL1 : (eraseT (x - 1) tL).size ≤ fuel := by
        have := eraseT_length hs.ndL haL1
        rw [BT.size] at *
        omega
      have hszR1 : (eraseT x tR).size ≤ fuel := by
        have := eraseT_length hs.ndR hx
        rw [BT.size] at *
        omega
      have habs1 : hasVal b.cmpL wE.valL (eraseT (x - 1) tL) k = false := by
        rw [hvLE]
        exact hasVal_false_subset hsubL1 hpr
      have habsR1 : hasVal b.cmpR wE.valR (eraseT x tR) dR = false := by
        rw [hvRE]
        cases hc : hasVal b.cmpR w.valR (eraseT x tR) dR with
        | false => rfl
        | true =>
          exfalso
          obtain ⟨z, hz, hzd⟩ := (hasVal_iff_exists hoR).1 hc
          have hzx : z = x :=
            bst_key_unique hoR hs.bstR (hsubR1 z hz) hx (by rw [hzd, hxd])
          have := (eraseT_mem_iff hs.ndR hx).1 hz
          exact this.2 hzx
      obtain ⟨w2, hbieq, hsrep2, hvL2, hvR2, hal2, hframe2⟩ :=
        (base_insert_spec hsrepE hoL hoR hszL1 hszR1 k dR).2 habs1 habsR1
      rw [hbieq] at heq
      dsimp only at heq
      cases hfl : flipL w2.heap (some wE.alloc) with
      | none =>
        rw [hfl] at heq
        cases heq
      | some fr =>
        rw [hfl] at heq
        dsimp only at heq
        simp only [Option.some.injEq, Prod.mk.injEq] at heq
        obtain ⟨rfl, rfl, _⟩ := heq
        exact ⟨_, _, hsrep2⟩

/-- C7: a fresh store is well formed with empty engines; every public mutating
operation — insert, iterator erase on either side, key erase on either side,
range erase to the end, copy construction, and swap of two disjoint nonempty
stores — sends well-formed stores to well-formed stores; and in every
well-formed store the pair counter equals the node count of each engine, with
a record linked on the left exactly when its partner is linked on the
right. -/
theorem C7_size_equals_both_engine_counts :
    (∀ (w : World L R) (cL : L → L → Bool) (cR : R → R → Bool),
      w.alloc % 2 = 0 → SRep (mk w cL cR).1 (mk w cL cR).2 BT.leaf BT.leaf) ∧
    (∀ (w : World L R) (b : Store L R) (tL tR : BT) (fuel : Nat) (l : L) (r : R)
      (w1 : World L R) (b1 : Store L R) (res : Nat),
      SRep w b tL tR → STO b.cmpL → STO b.cmpR → tL.size ≤ fuel → tR.size ≤ fuel →
      insert w b fuel l r = some (w1, b1, res) →
      ∃ tL2 tR2, SRep w1 b1 tL2 tR2) ∧
    (∀ (w : World L R) (b : Store L R) (tL tR : BT) (fuel : Nat) (it : Option Nat)
      (w1 : World L R) (b1 : Store L R) (res : Option Nat),
      SRep w b tL tR → STO b.cmpL → STO b.cmpR →
      tL.size + 1 ≤ fuel → tR.size + 1 ≤ fuel →
      (it = none ∨ it = some b.sentL ∨ ∃ a ∈ tL.inorder, it = some a) →
      erase_left_it w b fuel it = some (w1, b1, res) →
      ∃ tL2 tR2, SRep w1 b1 tL2 tR2) ∧
    (∀ (w : World L R) (b : Store L R) (tL tR : BT) (fuel : Nat) (it : Option Nat)
      (w1 : World L R) (b1 : Store L R) (res : Option Nat),
      SRep w b tL tR → STO b.cmpL → STO b.cmpR →
      tL.size + 1 ≤ fuel → tR.size + 1 ≤ fuel →
      (it = none ∨ it = some b.sentR ∨ ∃ x ∈ tR.inorder, it = some x) →
      erase_right_it w b fuel it = some (w1, b1, res) →
      ∃ tL2 tR2, SRep w1 b1 tL2 tR2) ∧
    (∀ (w : World L R) (b : Store L R) (tL tR : BT) (fuel : Nat) (k : L)
      (w1 : World L R) (b1 : Store L R) (res : Bool),
      SRep w b tL tR → STO b.cmpL → STO b.cmpR →
      tL.size + 1 ≤ fuel → tR.size + 1 ≤ fuel →
      erase_left_key w b fuel k = some (w1, b1, res) →
      ∃ tL2 tR2, SRep w1 b1 tL2 tR2) ∧
    (∀ (w : World L R) (b : Store L R) (tL tR : BT) (fuel : Nat) (k : R)
      (w1 : World L R) (b1 : Store L R) (res : Bool),
      SRep w b tL tR → STO b.cmpL → STO b.cmpR →
      tL.size + 1 ≤ fuel → tR.size + 1 ≤ fuel →
      erase_right_key w b fuel k = some (w1, b1, res) →
      ∃ tL2 tR2, SRep w1 b1 tL2 tR2) ∧
    (∀ (w : World L R) (b : Store L R) (tL tR : BT) (fuel steps : Nat)
      (first : Option Nat) (w1 : World L R) (b1 : Store L R) (it1 : Option Nat),
      SRep w b tL tR → STO b.cmpL → STO b.cmpR →
      tL.size + 1 ≤ fuel → tR.size + 1 ≤ fuel →
      (first = some b.sentL ∨ ∃ a ∈ tL.inorder, first = some a) →
      erase_left_range fuel steps w b first (some b.sentL) = some (w1, b1, it1) →
      ∃ tL2 tR2, SRep w1 b1 tL2 tR2) ∧
    (∀ (w : World L R) (src : Store L R) (tLs tRs : BT) (fuel steps : Nat)
      (w1 : World L R) (dst1 : Store L R),
      SRep w src tLs tRs → STO src.cmpL → STO src.cmpR →
      tLs.size + 1 ≤ fuel → steps ≤ fuel →
      copy w src fuel steps = some (w1, dst1) →
      ∃ tL2 tR2, SRep w1 dst1 tL2 tR2) ∧
    (∀ (w : World L R) (b1 b2 : Store L R) (tL1 tR1 tL2 tR2 : BT),
      SRep w b1 tL1 tR1 → SRep w b2 tL2 tR2 →
      (∀ z,
        (z = b1.sentL ∨ z = b1.sentR ∨ z ∈ tL1.inorder ∨ z ∈ tR1.inorder) →
        (z = b2.sentL ∨ z = b2.sentR ∨ z ∈ tL2.inorder ∨ z ∈ tR2.inorder) →
        False) →
      tL1 ≠ BT.leaf → tL2 ≠ BT.leaf →
      ∃ w4 : World L R, swap w b1 b2 =
          some (w4, ⟨b1.sentL, b1.sentR, b2.siz, b2.cmpL, b2.cmpR⟩,
                    ⟨b2.sentL, b2.sentR, b1.siz, b1.cmpL, b1.cmpR⟩) ∧
        SRep w4 ⟨b1.sentL, b1.sentR, b2.siz, b2.cmpL, b2.cmpR⟩ tL2 tR2 ∧
        SRep w4 ⟨b2.sentL, b2.sentR, b1.siz, b1.cmpL, b1.cmpR⟩ tL1 tR1) ∧
    (∀ (w : World L R) (b : Store L R) (tL tR : BT), SRep w b tL tR →
      b.siz = tL.inorder.length ∧ b.siz = tR.inorder.length ∧
      (∀ a, a ∈ tL.inorder ↔ a + 1 ∈ tR.inorder)) := by
  refine ⟨SRep_mk, ?_, ?_, ?_, ?_, ?_, ?_, ?_, ?_, ?_⟩
  · -- insert
    intro w b tL tR fuel l r w1 b1 res hs hoL hoR hfL hfR heq
    unfold insert at heq
    cases hL : hasVal b.cmpL w.valL tL l with
    | true =>
      rw [(base_insert_spec hs hoL hoR hfL hfR l r).1 (Or.inl hL)] at heq
      simp only [Option.some.injEq, Prod.mk.injEq] at heq
      obtain ⟨rfl, rfl, _⟩ := heq
      exact ⟨tL, tR, hs⟩
    | false =>
      cases hR : hasVal b.cmpR w.valR tR r with
      | true =>
        rw [(base_insert_spec hs hoL hoR hfL hfR l r).1 (Or.inr hR)] at heq
        simp only [Option.some.injEq, Prod.mk.injEq] at heq
        obtain ⟨rfl, rfl, _⟩ := heq
        exact ⟨tL, tR, hs⟩
      | false =>
        obtain ⟨w2, hbieq, hsrep2, _, _, _, _⟩ :=
          (base_insert_spec hs hoL hoR hfL hfR l r).2 hL hR
        rw [hbieq] at heq
        simp only [Option.some.injEq, Prod.mk.injEq] at heq
        obtain ⟨rfl, rfl, _⟩ := heq
        exact ⟨_, _, hsrep2⟩
  · -- erase_left(iterator)
    intro w b tL tR fuel it w1 b1 res hs hoL hoR hfL hfR hvalid heq
    rcases hvalid with rfl | rfl | ⟨a, ha, rfl⟩
    · unfold erase_left_it at heq
      simp only [Option.some.injEq, Prod.mk.injEq] at heq
      obtain ⟨rfl, rfl, _⟩ := heq
      exact ⟨tL, tR, hs⟩
    · unfold erase_left_it at heq
      dsimp only at heq
      rw [if_pos rfl] at heq
      simp only [Option.some.injEq, Prod.mk.injEq] at heq
      obtain ⟨rfl, rfl, _⟩ := heq
      exact ⟨tL, tR, hs⟩
    · obtain ⟨wE, heqE, hsrepE, _, _, _⟩ := erase_left_it_spec hs hoL hoR ha hfL hfR
      rw [heqE] at heq
      simp only [Option.some.injEq, Prod.mk.injEq] at heq
      obtain ⟨rfl, rfl, _⟩ := heq
      exact ⟨_, _, hsrepE⟩
  · -- erase_right(iterator)
    intro w b tL tR fuel it w1 b1 res hs hoL hoR hfL hfR hvalid heq
    rcases hvalid with rfl | rfl | ⟨x, hx, rfl⟩
    · unfold erase_right_it at heq
      simp only [Option.some.injEq, Prod.mk.injEq] at heq
      obtain ⟨rfl, rfl, _⟩ := heq
      exact ⟨tL, tR, hs⟩
    · unfold erase_right_it at heq
      dsimp only at heq
      rw [if_pos rfl] at heq
      simp only [Option.some.injEq, Prod.mk.injEq] at heq
      obtain ⟨rfl, rfl, _⟩ := heq
      exact ⟨tL, tR, hs⟩
    · obtain ⟨wE, heqE, hsrepE, _, _, _⟩ := erase_right_it_spec hs hoL hoR hx hfL hfR
      rw [heqE] at heq
      simp only [Option.some.injEq, Prod.mk.injEq] at heq
      obtain ⟨rfl, rfl, _⟩ := heq
      exact ⟨_, _, hsrepE⟩
  · -- erase_left(key)
    intro w b tL tR fuel k w1 b1 res hs hoL hoR hfL hfR heq
    cases hL : hasVal b.cmpL w.valL tL k with
    | false =>
      rw [(erase_left_key_spec hs hoL hoR hfL hfR k).1 hL] at heq
      simp only [Option.some.injEq, Prod.mk.injEq] at heq
      obtain ⟨rfl, rfl, _⟩ := heq
      exact ⟨tL, tR, hs⟩
    | true =>
      obtain ⟨a, ha, hak, wE, heqE, hsrepE, _, _, _⟩ :=
        (erase_left_key_spec hs hoL hoR hfL hfR k).2 hL
      rw [heqE] at heq
      simp only [Option.some.injEq, Prod.mk.injEq] at heq
      obtain ⟨rfl, rfl, _⟩ := heq
      exact ⟨_, _, hsrepE⟩
  · -- erase_right(key)
    intro w b tL tR fuel k w1 b1 res hs hoL hoR hfL hfR heq
    cases hR : hasVal b.cmpR w.valR tR k with
    | false =>
      rw [(erase_right_key_spec hs hoL hoR hfL hfR k).1 hR] at heq
      simp only [Option.some.injEq, Prod.mk.injEq] at heq
      obtain ⟨rfl, rfl, _⟩ := heq
      exact ⟨tL, tR, hs⟩
    | true =>
      obtain ⟨x, hx, hxk, wE, heqE, hsrepE, _, _, _⟩ :=
        (erase_right_key_spec hs hoL hoR hfL hfR k).2 hR
      rw [heqE] at heq
      simp only [Option.some.injEq, Prod.mk.injEq] at heq
      obtain ⟨rfl, rfl, _⟩ := heq
      exact ⟨_, _, hsrepE⟩
  · -- erase_left(first, end)
    intro w b tL tR fuel steps first w1 b1 it1 hs hoL hoR hfL hfR hfirst heq
    obtain ⟨tL2, tR2, hrep2, _, _, _, _⟩ :=
      erase_left_range_spec hs hoL hoR hfL hfR hfirst heq
    exact ⟨tL2, tR2, hrep2⟩
  · -- copy construction
    intro w src tLs tRs fuel steps w1 dst1 hs hoL hoR hfs hst heq
    exact copy_spec hs hoL hoR hfs hst heq
  · -- swap
    intro w b1 b2 tL1 tR1 tL2 tR2 hs1 hs2 hdisj hne1 hne2
    obtain ⟨w4, heqs, hA, hB, _, _, _⟩ := swap_spec hs1 hs2 hdisj hne1 hne2
    exact ⟨w4, heqs, hA, hB⟩
  · -- the observation
    intro w b tL tR hs
    refine ⟨hs.szEq, ?_, ?_⟩
    · rw [hs.szEq, hs.pairR.length_eq]
      simp
    · intro a
      constructor
      · intro ha
        exact hs.memR_iff.2 ⟨a, ha, rfl⟩
      · intro ha
        obtain ⟨a2, ha2, ha2x⟩ := hs.memR_iff.1 ha
        obtain rfl : a2 = a := by omega
        exact ha2

/-- Witness for C7 at the one-pair store. -/
theorem C7_witness :
    bOne.siz = tLOne.inorder.length ∧ bOne.siz = tROne.inorder.length ∧
    (2 ∈ tLOne.inorder ↔ 2 + 1 ∈ tROne.inorder) :=
  ⟨((C7_size_equals_both_engine_counts.2.2.2.2.2.2.2.2.2)
      wOne bOne tLOne tROne SRep_One).1,
   ((C7_size_equals_both_engine_counts.2.2.2.2.2.2.2.2.2)
      wOne bOne tLOne tROne SRep_One).2.1,
   ((C7_size_equals_both_engine_counts.2.2.2.2.2.2.2.2.2)
      wOne bOne tLOne tROne SRep_One).2.2 2⟩

/-- C6: a fresh store's engines are search trees; every public mutating
operation — insert, iterator erase on either side, key erase on either side,
range erase to the end, `at_left_or_default`, copy construction, and swap of
two disjoint nonempty stores — preserves store well-formedness; and in every
well-formed store each engine satisfies the strict BST order invariant —
equivalently, the in-order address walk carries strictly increasing keys
under that side's comparator. -/
theorem C6_bst_order_invariant :
    (∀ (w : World L R) (cL : L → L → Bool) (cR : R → R → Bool),
      w.alloc % 2 = 0 → SRep (mk w cL cR).1 (mk w cL cR).2 BT.leaf BT.leaf) ∧
    (∀ (w : World L R) (b : Store L R) (tL tR : BT) (fuel : Nat) (l : L) (r : R)
      (w1 : World L R) (b1 : Store L R) (res : Nat),
      SRep w b tL tR → STO b.cmpL → STO b.cmpR → tL.size ≤ fuel → tR.size ≤ fuel →
      insert w b fuel l r = some (w1, b1, res) →
      ∃ tL2 tR2, SRep w1 b1 tL2 tR2) ∧
    (∀ (w : World L R) (b : Store L R) (tL tR : BT) (fuel : Nat) (it : Option Nat)
      (w1 : World L R) (b1 : Store L R) (res : Option Nat),
      SRep w b tL tR → STO b.cmpL → STO b.cmpR →
      tL.size + 1 ≤ fuel → tR.size + 1 ≤ fuel →
      (it = none ∨ it = some b.sentL ∨ ∃ a ∈ tL.inorder, it = some a) →
      erase_left_it w b fuel it = some (w1, b1, res) →
      ∃ tL2 tR2, SRep w1 b1 tL2 tR2) ∧
    (∀ (w : World L R) (b : Store L R) (tL tR : BT) (fuel : Nat) (it : Option Nat)
      (w1 : World L R) (b1 : Store L R) (res : Option Nat),
      SRep w b tL tR → STO b.cmpL → STO b.cmpR →
      tL.size + 1 ≤ fuel → tR.size + 1 ≤ fuel →
      (it = none ∨ it = some b.sentR ∨ ∃ x ∈ tR.inorder, it = some x) →
      erase_right_it w b fuel it = some (w1, b1, res) →
      ∃ tL2 tR2, SRep w1 b1 tL2 tR2) ∧
    (∀ (w : World L R) (b : Store L R) (tL tR : BT) (fuel : Nat) (k : L)
      (w1 : World L R) (b1 : Store L R) (res : Bool),
      SRep w b tL tR → STO b.cmpL → STO b.cmpR →
      tL.size + 1 ≤ fuel → tR.size + 1 ≤ fuel →
      erase_left_key w b fuel k = some (w1, b1, res) →
      ∃ tL2 tR2, SRep w1 b1 tL2 tR2) ∧
    (∀ (w : World L R) (b : Store L R) (tL tR : BT) (fuel : Nat) (k : R)
      (w1 : World L R) (b1 : Store L R) (res : Bool),
      SRep w b tL tR → STO b.cmpL → STO b.cmpR →
      tL.size + 1 ≤ fuel → tR.size + 1 ≤ fuel →
      erase_right_key w b fuel k = some (w1, b1, res) →
      ∃ tL2 tR2, SRep w1 b1 tL2 tR2) ∧
    (∀ (w : World L R) (b : Store L R) (tL tR : BT) (fuel steps : Nat)
      (first : Option Nat) (w1 : World L R) (b1 : Store L R) (it1 : Option Nat),
      SRep w b tL tR → STO b.cmpL → STO b.cmpR →
      tL.size + 1 ≤ fuel → tR.size + 1 ≤ fuel →
      (first = some b.sentL ∨ ∃ a ∈ tL.inorder, first = some a) →
      erase_left_range fuel steps w b first (some b.sentL) = some (w1, b1, it1) →
      ∃ tL2 tR2, SRep w1 b1 tL2 tR2) ∧
    (∀ (w : World L R) (b : Store L R) (tL tR : BT) (fuel : Nat) (k : L)
      (dR : R) (w1 : World L R) (b1 : Store L R) (v : Option R),
      SRep w b tL tR → STO b.cmpL → STO b.cmpR →
      tL.size + 2 ≤ fuel → tR.size + 2 ≤ fuel →
      at_left_or_default w b fuel k dR = some (w1, b1, v) →
      ∃ tL2 tR2, SRep w1 b1 tL2 tR2) ∧
    (∀ (w : World L R) (src : Store L R) (tLs tRs : BT) (fuel steps : Nat)
      (w1 : World L R) (dst1 : Store L R),
      SRep w src tLs tRs → STO src.cmpL → STO src.cmpR →
      tLs.size + 1 ≤ fuel → steps ≤ fuel →
      copy w src fuel steps = some (w1, dst1) →
      ∃ tL2 tR2, SRep w1 dst1 tL2 tR2) ∧
    (∀ (w : World L R) (b1 b2 : Store L R) (tL1 tR1 tL2 tR2 : BT),
      SRep w b1 tL1 tR1 → SRep w b2 tL2 tR2 →
      (∀ z,
        (z = b1.sentL ∨ z = b1.sentR ∨ z ∈ tL1.inorder ∨ z ∈ tR1.inorder) →
        (z = b2.sentL ∨ z = b2.sentR ∨ z ∈ tL2.inorder ∨ z ∈ tR2.inorder) →
        False) →
      tL1 ≠ BT.leaf → tL2 ≠ BT.leaf →
      ∃ w4 : World L R, swap w b1 b2 =
          some (w4, ⟨b1.sentL, b1.sentR, b2.siz, b2.cmpL, b2.cmpR⟩,
                    ⟨b2.sentL, b2.sentR, b1.siz, b1.cmpL, b1.cmpR⟩) ∧
        SRep w4 ⟨b1.sentL, b1.sentR, b2.siz, b2.cmpL, b2.cmpR⟩ tL2 tR2 ∧
        SRep w4 ⟨b2.sentL, b2.sentR, b1.siz, b1.cmpL, b1.cmpR⟩ tL1 tR1) ∧
    (∀ (w : World L R) (b : Store L R) (tL tR : BT), SRep w b tL tR →
      bstB b.cmpL w.valL tL = true ∧ bstB b.cmpR w.valR tR = true ∧
      (STO b.cmpL → List.Pairwise
        (fun u v => b.cmpL (w.valL u) (w.valL v) = true) tL.inorder) ∧
      (STO b.cmpR → List.Pairwise
        (fun u v => b.cmpR (w.valR u) (w.valR v) = true) tR.inorder)) := by
  refine ⟨?_, ?_, ?_, ?_, ?_, ?_, ?_, ?_, ?_, ?_, ?_⟩
  · exact SRep_mk
  · intro w b tL tR fuel l r w1 b1 res hs hoL hoR hfL hfR heq
    unfold insert at heq
    cases hL : hasVal b.cmpL w.valL tL l with
    | true =>
      rw [(base_insert_spec hs hoL hoR hfL hfR l r).1 (Or.inl hL)] at heq
      simp only [Option.some.injEq, Prod.mk.injEq] at heq
      obtain ⟨rfl, rfl, _⟩ := heq
      exact ⟨tL, tR, hs⟩
    | false =>
      cases hR : hasVal b.cmpR w.valR tR r with
      | true =>
        rw [(base_insert_spec hs hoL hoR hfL hfR l r).1 (Or.inr hR)] at heq
        simp only [Option.some.injEq, Prod.mk.injEq] at heq
        obtain ⟨rfl, rfl, _⟩ := heq
        exact ⟨tL, tR, hs⟩
      | false =>
        obtain ⟨w2, hbieq, hsrep2, _, _, _, _⟩ :=
          (base_insert_spec hs hoL hoR hfL hfR l r).2 hL hR
        rw [hbieq] at heq
        simp only [Option.some.injEq, Prod.mk.injEq] at heq
        obtain ⟨rfl, rfl, _⟩ := heq
        exact ⟨_, _, hsrep2⟩
  · intro w b tL tR fuel it w1 b1 res hs hoL hoR hfL hfR hvalid heq
    rcases hvalid with rfl | rfl | ⟨a, ha, rfl⟩
    · unfold erase_left_it at heq
      simp only [Option.some.injEq, Prod.mk.injEq] at heq
      obtain ⟨rfl, rfl, _⟩ := heq
      exact ⟨tL, tR, hs⟩
    · unfold erase_left_it at heq
      dsimp only at heq
      rw [if_pos rfl] at heq
      simp only [Option.some.injEq, Prod.mk.injEq] at heq
      obtain ⟨rfl, rfl, _⟩ := heq
      exact ⟨tL, tR, hs⟩
    · obtain ⟨wE, heqE, hsrepE, _, _, _⟩ := erase_left_it_spec hs hoL hoR ha hfL hfR
      rw [heqE] at heq
      simp only [Option.some.injEq, Prod.mk.injEq] at heq
      obtain ⟨rfl, rfl, _⟩ := heq
      exact ⟨_, _, hsrepE⟩
  · intro w b tL tR fuel it w1 b1 res hs hoL hoR hfL hfR hvalid heq
    rcases hvalid with rfl | rfl | ⟨x, hx, rfl⟩
    · unfold erase_right_it at heq
      simp only [Option.some.injEq, Prod.mk.injEq] at heq
      obtain ⟨rfl, rfl, _⟩ := heq
      exact ⟨tL, tR, hs⟩
    · unfold erase_right_it at heq
      dsimp only at heq
      rw [if_pos rfl] at heq
      simp only [Option.some.injEq, Prod.mk.injEq] at heq
      obtain ⟨rfl, rfl, _⟩ := heq
      exact ⟨tL, tR, hs⟩
    · obtain ⟨wE, heqE, hsrepE, _, _, _⟩ := erase_right_it_spec hs hoL hoR hx hfL hfR
      rw [heqE] at heq
      simp only [Option.some.injEq, Prod.mk.injEq] at heq
      obtain ⟨rfl, rfl, _⟩ := heq
      exact ⟨_, _, hsrepE⟩
  · intro w b tL tR fuel k w1 b1 res hs hoL hoR hfL hfR heq
    cases hL : hasVal b.cmpL w.valL tL k with
    | false =>
      rw [(erase_left_key_spec hs hoL hoR hfL hfR k).1 hL] at heq
      simp only [Option.some.injEq, Prod.mk.injEq] at heq
      obtain ⟨rfl, rfl, _⟩ := heq
      exact ⟨tL, tR, hs⟩
    | true =>
      obtain ⟨a, ha, hak, wE, heqE, hsrepE, _, _, _⟩ :=
        (erase_left_key_spec hs hoL hoR hfL hfR k).2 hL
      rw [heqE] at heq
      simp only [Option.some.injEq, Prod.mk.injEq] at heq
      obtain ⟨rfl, rfl, _⟩ := heq
      exact ⟨_, _, hsrepE⟩
  · intro w b tL tR fuel k w1 b1 res hs hoL hoR hfL hfR heq
    cases hR : hasVal b.cmpR w.valR tR k with
    | false =>
      rw [(erase_right_key_spec hs hoL hoR hfL hfR k).1 hR] at heq
      simp only [Option.some.injEq, Prod.mk.injEq] at heq
      obtain ⟨rfl, rfl, _⟩ := heq
      exact ⟨tL, tR, hs⟩
    | true =>
      obtain ⟨x, hx, hxk, wE, heqE, hsrepE, _, _, _⟩ :=
        (erase_right_key_spec hs hoL hoR hfL hfR k).2 hR
      rw [heqE] at heq
      simp only [Option.some.injEq, Prod.mk.injEq] at heq
      obtain ⟨rfl, rfl, _⟩ := heq
      exact ⟨_, _, hsrepE⟩
  · intro w b tL tR fuel steps first w1 b1 it1 hs hoL hoR hfL hfR hfirst heq
    obtain ⟨tL2, tR2, hrep2, _, _, _, _⟩ :=
      erase_left_range_spec hs hoL hoR hfL hfR hfirst heq
    exact ⟨tL2, tR2, hrep2⟩
  · intro w b tL tR fuel k dR w1 b1 v hs hoL hoR hfL hfR heq
    exact at_left_or_default_pres hs hoL hoR hfL hfR k dR heq
  · intro w src tLs tRs fuel steps w1 dst1 hs hoL hoR hfs hst heq
    exact copy_spec hs hoL hoR hfs hst heq
  · intro w b1 b2 tL1 tR1 tL2 tR2 hs1 hs2 hdisj hne1 hne2
    obtain ⟨w4, heqs, hA, hB, _, _, _⟩ := swap_spec hs1 hs2 hdisj hne1 hne2
    exact ⟨w4, heqs, hA, hB⟩
  · intro w b tL tR hs
    refine ⟨hs.bstL, hs.bstR, ?_, ?_⟩
    · intro hoL
      exact (bstB_iff_pairwise hoL).1 hs.bstL
    · intro hoR
      exact (bstB_iff_pairwise hoR).1 hs.bstR

/-- Witness for C6 at the one-pair store. -/
theorem C6_witness :
    bstB bOne.cmpL wOne.valL tLOne = true ∧ bstB bOne.cmpR wOne.valR tROne = true :=
  ⟨((C6_bst_order_invariant.2.2.2.2.2.2.2.2.2.2)
      wOne bOne tLOne tROne SRep_One).1,
   ((C6_bst_order_invariant.2.2.2.2.2.2.2.2.2.2)
      wOne bOne tLOne tROne SRep_One).2.1⟩
